import Mathlib

/-!
# TenantInfo controller: reconciliation of per-tenant ConfigMaps

A shallow embedding of `internal/controller/tenantinfo_controller.go` and a
verification of the properties of `TenantInfoReconciler.Reconcile`.

* Kubernetes objects are records holding the fields the controller reads or
  writes (`Name`, `Namespace`, `UID`, `OwnerReferences`, `Data`, `Spec.Tenants`).
* Go strings are Lean strings; a Go `map[string]string` is a finite map with
  extensional equality, so `reflect.DeepEqual` on two maps is equality.  (A nil
  map and an empty map are identified; the desired map always has two keys, so
  the comparison in `Reconcile` cannot tell them apart.)
* The API server behind `client.Client` is an in-memory object store keyed by
  namespace and name.  `Create` fails on an existing key, `Update` and `Delete`
  fail on a missing key, `List` with `client.InNamespace` returns the children
  of one namespace in store order, and the children of every namespace when
  the namespace is empty.
* Every client call is recorded, with its result, in a trace.  A fault schedule
  `Nat → Option Err` may make the n-th call of a run fail with any error; a call
  that fails leaves the store as it is.
* `ctrl.SetControllerReference` follows controller-runtime: namespace check,
  lookup of the owner's kind in the scheme, refusal of an object controlled by
  another owner, then insertion of the controller reference.
* `SetupWithManager` acts on the part of the manager it touches: the registered
  field indexes and controllers; a repeated index key or controller name is
  refused, as controller-runtime does.
* Logging is not modelled.

The first part holds the definitions, the second part the lemmas, the last
section the theorems for the numbered claims of the specification.
-/

namespace TenantInfoController

/-! ## Objects -/

/-- The type `types.UID`. -/
abbrev UID := String

/-- The record `metav1.OwnerReference`. -/
structure OwnerReference where
  APIVersion : String
  Kind : String
  Name : String
  UID : UID
  Controller : Bool
  BlockOwnerDeletion : Bool
deriving DecidableEq

/-- A Go `map[string]string`. -/
abbrev StringMap := Finmap (fun _ : String => String)

/-- The record `corev1.ConfigMap` (the child resource). -/
structure ConfigMap where
  Name : String
  Namespace : String
  OwnerReferences : List OwnerReference
  Data : StringMap
deriving DecidableEq

/-- One entry of `spec.tenants`. -/
structure Tenant where
  TenantID : String
  WebserviceURL : String
deriving DecidableEq

/-- The record `v1.TenantInfoSpec`. -/
structure TenantInfoSpec where
  Tenants : List Tenant
deriving DecidableEq

/-- The record `v1.TenantInfo` (the parent resource). -/
structure TenantInfo where
  Name : String
  Namespace : String
  UID : UID
  Spec : TenantInfoSpec
deriving DecidableEq

/-- The key `types.NamespacedName`. -/
structure NamespacedName where
  Namespace : String
  Name : String
deriving DecidableEq

/-- The request `ctrl.Request`; `req.Namespace` and `req.Name` are promoted from
the embedded `NamespacedName`. -/
structure Request where
  NamespacedName : NamespacedName
deriving DecidableEq

/-- The promoted field `req.Namespace`. -/
def Request.Namespace (req : Request) : String := req.NamespacedName.Namespace

/-- The promoted field `req.Name`. -/
def Request.Name (req : Request) : String := req.NamespacedName.Name

/-- The value `ctrl.Result`. -/
structure Result where
  Requeue : Bool := false
  RequeueAfter : Nat := 0
deriving DecidableEq

/-- Errors returned by the client or by `SetControllerReference`. -/
inductive Err where
  | notFound (msg : String)
  | alreadyExists (msg : String)
  | other (msg : String)
deriving DecidableEq

/-- The test `apierrors.IsNotFound`. -/
def IsNotFound : Err → Bool
  | .notFound _ => true
  | _ => false

/-- Outcome of a call that returns an object or an error. -/
inductive Res (α : Type) where
  | ok (a : α)
  | error (e : Err)
deriving DecidableEq

/-! ## Strings -/

/-- The function `strings.TrimPrefix`. -/
def TrimPrefix (s pre : String) : String :=
  if pre.data.isPrefixOf s.data then String.mk (s.data.drop pre.data.length) else s

/-- The function `strings.TrimSuffix`. -/
def TrimSuffix (s suf : String) : String :=
  if suf.data.isSuffixOf s.data then String.mk (s.data.take (s.data.length - suf.data.length))
  else s

/-- The name `fmt.Sprintf("tenant-%s-config", tenantID)`. -/
def cmName (tenantID : String) : String := "tenant-" ++ tenantID ++ "-config"

/-- The tenant identifier derived from a child name in the deletion loop. -/
def tenantIDOf (name : String) : String :=
  TrimSuffix (TrimPrefix name "tenant-") "-config"

/-- The map literal built for one tenant entry. -/
def desiredData (tenant : Tenant) : StringMap :=
  Finmap.insert "tenantID" tenant.TenantID (Finmap.singleton "webserviceURL" tenant.WebserviceURL)

/-! ## The object store and the client -/

/-- Contents of the API server: parents and children. -/
structure Store where
  tenantInfos : List TenantInfo
  configMaps : List ConfigMap
deriving DecidableEq

/-- One client call together with what it returned. -/
inductive Call where
  | getTenantInfo (key : NamespacedName) (res : Res TenantInfo)
  | getConfigMap (key : NamespacedName) (res : Res ConfigMap)
  | create (obj : ConfigMap) (err : Option Err)
  | update (obj : ConfigMap) (err : Option Err)
  | list (ns : String) (res : Res (List ConfigMap))
  | delete (obj : ConfigMap) (err : Option Err)
deriving DecidableEq

/-- The store together with the calls issued so far, oldest first. -/
structure World where
  store : Store
  trace : List Call
deriving DecidableEq

/-- A fault schedule: `F n = some e` makes call number `n` of the run fail with `e`. -/
abbrev Faults := Nat → Option Err

/-- The schedule under which no call fails. -/
def noFaults : Faults := fun _ => none

/-- The child `cm` is stored under `key`. -/
def hasKey (key : NamespacedName) (cm : ConfigMap) : Bool :=
  decide (cm.Namespace = key.Namespace ∧ cm.Name = key.Name)

/-- The key under which a child is stored: its namespace and name. -/
def ConfigMap.key (cm : ConfigMap) : NamespacedName := ⟨cm.Namespace, cm.Name⟩

/-- The parent stored under `key`, if any. -/
def Store.lookupTenantInfo (st : Store) (key : NamespacedName) : Option TenantInfo :=
  st.tenantInfos.find? (fun t => decide (t.Namespace = key.Namespace ∧ t.Name = key.Name))

/-- The child stored under `key`, if any. -/
def Store.lookup (st : Store) (key : NamespacedName) : Option ConfigMap :=
  st.configMaps.find? (hasKey key)

/-- The store after a child is added. -/
def Store.add (st : Store) (obj : ConfigMap) : Store :=
  { st with configMaps := st.configMaps ++ [obj] }

/-- The store after the child stored under the key of `obj` is replaced by `obj`. -/
def Store.replace (st : Store) (obj : ConfigMap) : Store :=
  { st with configMaps := st.configMaps.map (fun cm => if hasKey obj.key cm then obj else cm) }

/-- The store after the child stored under `key` is removed. -/
def Store.remove (st : Store) (key : NamespacedName) : Store :=
  { st with configMaps := st.configMaps.filter (fun cm => !hasKey key cm) }

/-- The call `r.Get` for the parent kind. -/
def GetTenantInfo (F : Faults) (key : NamespacedName) (w : World) : Res TenantInfo × World :=
  let res : Res TenantInfo :=
    match F w.trace.length with
    | some e => .error e
    | none =>
      match w.store.lookupTenantInfo key with
      | some t => .ok t
      | none => .error (.notFound key.Name)
  (res, { w with trace := w.trace ++ [.getTenantInfo key res] })

/-- The call `r.Get` for the child kind. -/
def GetConfigMap (F : Faults) (key : NamespacedName) (w : World) : Res ConfigMap × World :=
  let res : Res ConfigMap :=
    match F w.trace.length with
    | some e => .error e
    | none =>
      match w.store.lookup key with
      | some cm => .ok cm
      | none => .error (.notFound key.Name)
  (res, { w with trace := w.trace ++ [.getConfigMap key res] })

/-- The call `r.Create`: fails if an object with the same key exists. -/
def Create (F : Faults) (obj : ConfigMap) (w : World) : Option Err × World :=
  match F w.trace.length with
  | some e => (some e, { w with trace := w.trace ++ [.create obj (some e)] })
  | none =>
    match w.store.lookup obj.key with
    | some _ =>
      let e := Err.alreadyExists obj.Name
      (some e, { w with trace := w.trace ++ [.create obj (some e)] })
    | none =>
      (none, { store := w.store.add obj, trace := w.trace ++ [.create obj none] })

/-- The call `r.Update`: replaces the stored object with the same key. -/
def Update (F : Faults) (obj : ConfigMap) (w : World) : Option Err × World :=
  match F w.trace.length with
  | some e => (some e, { w with trace := w.trace ++ [.update obj (some e)] })
  | none =>
    match w.store.lookup obj.key with
    | none =>
      let e := Err.notFound obj.Name
      (some e, { w with trace := w.trace ++ [.update obj (some e)] })
    | some _ =>
      (none, { store := w.store.replace obj, trace := w.trace ++ [.update obj none] })

/-- The list option `client.InNamespace`: the objects of namespace `ns`; the
empty namespace selects the objects of every namespace. -/
def InNamespace (ns : String) (cm : ConfigMap) : Bool :=
  decide (ns = "" ∨ cm.Namespace = ns)

/-- The call `r.List` with `client.InNamespace`. -/
def ListConfigMaps (F : Faults) (ns : String) (w : World) : Res (List ConfigMap) × World :=
  let res : Res (List ConfigMap) :=
    match F w.trace.length with
    | some e => .error e
    | none => .ok (w.store.configMaps.filter (InNamespace ns))
  (res, { w with trace := w.trace ++ [.list ns res] })

/-- The call `r.Delete`: removes the stored object with the same key. -/
def Delete (F : Faults) (obj : ConfigMap) (w : World) : Option Err × World :=
  match F w.trace.length with
  | some e => (some e, { w with trace := w.trace ++ [.delete obj (some e)] })
  | none =>
    match w.store.lookup obj.key with
    | none =>
      let e := Err.notFound obj.Name
      (some e, { w with trace := w.trace ++ [.delete obj (some e)] })
    | some _ =>
      (none, { store := w.store.remove obj.key, trace := w.trace ++ [.delete obj none] })

/-! ## Owner references (controller-runtime `controllerutil`) -/

/-- The record `schema.GroupVersionKind`. -/
structure GroupVersionKind where
  Group : String
  Version : String
  Kind : String
deriving DecidableEq

/-- The part of `runtime.Scheme` the controller depends on: the kind registered
for the parent type, if any (what `apiutil.GVKForObject` finds). -/
structure Scheme where
  tenantInfoKind : Option GroupVersionKind
deriving DecidableEq

/-- The string `gvk.GroupVersion().String()`. -/
def GroupVersionKind.apiVersion (gvk : GroupVersionKind) : String :=
  if gvk.Group = "" then gvk.Version else gvk.Group ++ "/" ++ gvk.Version

/-- The group of an `apiVersion` string: the text before the slash, or empty. -/
def groupOf (apiVersion : String) : String :=
  if '/' ∈ apiVersion.data then String.mk (apiVersion.data.takeWhile (fun c => c != '/')) else ""

/-- The test `referSameObject`: same group, kind and name. -/
def referSameObject (a b : OwnerReference) : Bool :=
  decide (groupOf a.APIVersion = groupOf b.APIVersion ∧ a.Kind = b.Kind ∧ a.Name = b.Name)

/-- The helper `upsertOwnerRef`: replace the reference to the same object, or append. -/
def upsertOwnerRef (ref : OwnerReference) : List OwnerReference → List OwnerReference
  | [] => [ref]
  | r :: rs => if referSameObject r ref then ref :: rs else r :: upsertOwnerRef ref rs

/-- The owner reference `SetControllerReference` builds for a `TenantInfo` owner. -/
def controllerRef (owner : TenantInfo) (gvk : GroupVersionKind) : OwnerReference :=
  { APIVersion := gvk.apiVersion, Kind := gvk.Kind, Name := owner.Name, UID := owner.UID,
    Controller := true, BlockOwnerDeletion := true }

/-- The function `ctrl.SetControllerReference` for a `TenantInfo` owner: check the
namespaces, look the owner's kind up in the scheme, refuse an object that another
controller already controls, then record the owner as controller. -/
def SetControllerReference (owner : TenantInfo) (controlled : ConfigMap) (scheme : Scheme) :
    Res ConfigMap :=
  if owner.Namespace ≠ "" ∧ controlled.Namespace = "" then
    .error (.other "cluster-scoped resource must not have a namespace-scoped owner")
  else if owner.Namespace ≠ "" ∧ owner.Namespace ≠ controlled.Namespace then
    .error (.other "cross-namespace owner references are disallowed")
  else
    match scheme.tenantInfoKind with
    | none => .error (.other "no kind is registered for the type v1.TenantInfo")
    | some gvk =>
      let ref := controllerRef owner gvk
      match controlled.OwnerReferences.find? (fun r => r.Controller) with
      | some existing =>
        if referSameObject existing ref then
          .ok { controlled with OwnerReferences := upsertOwnerRef ref controlled.OwnerReferences }
        else .error (.other "object is already owned by another controller")
      | none =>
        .ok { controlled with OwnerReferences := upsertOwnerRef ref controlled.OwnerReferences }

/-! ## The reconciler -/

/-- What `Reconcile` returns, and the world it leaves behind. -/
structure Outcome where
  result : Result
  err : Option Err
  world : World
deriving DecidableEq

/-- The literal `&corev1.ConfigMap{...}` built for a tenant entry, before the owner
reference is attached. -/
def newConfigMap (req : Request) (tenant : Tenant) : ConfigMap :=
  { Name := cmName tenant.TenantID
    Namespace := req.Namespace
    OwnerReferences := []
    Data := desiredData tenant }

/-- The body of the loop over `tenantInfo.Spec.Tenants` after the identifier has
been recorded: build the desired child, attach the owner reference, fetch the
stored child, then create it, update it, or leave it alone.  `some err` means
`Reconcile` returns `err`. -/
def reconcileTenant (F : Faults) (scheme : Scheme) (tenantInfo : TenantInfo) (req : Request)
    (tenant : Tenant) (w : World) : Option Err × World :=
  let cm := newConfigMap req tenant
  match SetControllerReference tenantInfo cm scheme with
  | .error err => (some err, w)
  | .ok cm =>
    match GetConfigMap F ⟨cm.Namespace, cm.Name⟩ w with
    | (.error err, w1) =>
      if IsNotFound err then
        match Create F cm w1 with
        | (some err, w2) => (some err, w2)
        | (none, w2) => (none, w2)
      else (some err, w1)
    | (.ok found, w1) =>
      if found.Data ≠ cm.Data then
        match Update F { found with Data := cm.Data } w1 with
        | (some err, w2) => (some err, w2)
        | (none, w2) => (none, w2)
      else (none, w1)

/-- The loop of step 1.  `currentTenantIDs` is the Go `map[string]bool` used as a set. -/
def tenantLoop (F : Faults) (scheme : Scheme) (tenantInfo : TenantInfo) (req : Request) :
    List Tenant → List String → World → Option Err × List String × World
  | [], currentTenantIDs, w => (none, currentTenantIDs, w)
  | tenant :: rest, currentTenantIDs, w =>
    let currentTenantIDs := tenant.TenantID :: currentTenantIDs
    match reconcileTenant F scheme tenantInfo req tenant w with
    | (some err, w1) => (some err, currentTenantIDs, w1)
    | (none, w1) => tenantLoop F scheme tenantInfo req rest currentTenantIDs w1

/-- The manual filter by owner-reference UID: a listed child is kept when one of
its owner references carries the parent's UID. -/
def filterByOwner (uid : UID) (items : List ConfigMap) : List ConfigMap :=
  items.filter (fun cm => cm.OwnerReferences.any (fun ref => decide (ref.UID = uid)))

/-- The loop over `filteredChildCMs`: delete every child whose derived identifier
is not in `currentTenantIDs`. -/
def deleteLoop (F : Faults) (currentTenantIDs : List String) :
    List ConfigMap → World → Option Err × World
  | [], w => (none, w)
  | cm :: rest, w =>
    if tenantIDOf cm.Name ∉ currentTenantIDs then
      match Delete F cm w with
      | (some err, w1) => (some err, w1)
      | (none, w1) => deleteLoop F currentTenantIDs rest w1
    else deleteLoop F currentTenantIDs rest w

/-- The method `TenantInfoReconciler.Reconcile`. -/
def Reconcile (F : Faults) (scheme : Scheme) (req : Request) (w : World) : Outcome :=
  match GetTenantInfo F req.NamespacedName w with
  | (.error err, w1) =>
    if IsNotFound err then { result := {}, err := none, world := w1 }
    else { result := {}, err := some err, world := w1 }
  | (.ok tenantInfo, w1) =>
    match tenantLoop F scheme tenantInfo req tenantInfo.Spec.Tenants [] w1 with
    | (some err, _, w2) => { result := {}, err := some err, world := w2 }
    | (none, currentTenantIDs, w2) =>
      match ListConfigMaps F req.Namespace w2 with
      | (.error err, w3) => { result := {}, err := some err, world := w3 }
      | (.ok childCMs, w3) =>
        let filteredChildCMs := filterByOwner tenantInfo.UID childCMs
        match deleteLoop F currentTenantIDs filteredChildCMs w3 with
        | (some err, w4) => { result := {}, err := some err, world := w4 }
        | (none, w4) => { result := {}, err := none, world := w4 }

/-- A run of `Reconcile` that starts with an empty trace on the store `st`. -/
def run (F : Faults) (scheme : Scheme) (req : Request) (st : Store) : Outcome :=
  Reconcile F scheme req { store := st, trace := [] }

/-! ## One iteration of the tenant loop -/

/-- The key under which the child of a tenant entry is stored. -/
def childKey (req : Request) (tenant : Tenant) : NamespacedName :=
  ⟨req.Namespace, cmName tenant.TenantID⟩

/-- The child of a tenant entry with the owner reference attached. -/
def ownedConfigMap (owner : TenantInfo) (gvk : GroupVersionKind) (req : Request)
    (tenant : Tenant) : ConfigMap :=
  { newConfigMap req tenant with OwnerReferences := [controllerRef owner gvk] }

/-- The object passed to `Update`: the fetched child with its data overwritten. -/
def withData (found : ConfigMap) (data : StringMap) : ConfigMap :=
  { found with Data := data }

/-- Every way one iteration of the tenant loop can go, whatever the fault
schedule: the error it returns (if any) and the world it leaves. -/
inductive TenantStep (scheme : Scheme) (owner : TenantInfo) (req : Request) (tenant : Tenant)
    (w : World) : Option Err → World → Prop where
  | refFailed (e : Err)
      (href : SetControllerReference owner (newConfigMap req tenant) scheme = .error e) :
      TenantStep scheme owner req tenant w (some e) w
  | getFailed (gvk : GroupVersionKind) (e : Err)
      (hgvk : scheme.tenantInfoKind = some gvk) (hnf : IsNotFound e = false) :
      TenantStep scheme owner req tenant w (some e)
        { w with trace := w.trace ++ [.getConfigMap (childKey req tenant) (.error e)] }
  | createFailed (gvk : GroupVersionKind) (e e' : Err)
      (hgvk : scheme.tenantInfoKind = some gvk) (hnf : IsNotFound e = true) :
      TenantStep scheme owner req tenant w (some e')
        { w with trace := w.trace ++ [.getConfigMap (childKey req tenant) (.error e),
                                      .create (ownedConfigMap owner gvk req tenant) (some e')] }
  | created (gvk : GroupVersionKind) (e : Err)
      (hgvk : scheme.tenantInfoKind = some gvk) (hnf : IsNotFound e = true)
      (hnone : w.store.lookup (childKey req tenant) = none) :
      TenantStep scheme owner req tenant w none
        ⟨w.store.add (ownedConfigMap owner gvk req tenant),
         w.trace ++ [.getConfigMap (childKey req tenant) (.error e),
                     .create (ownedConfigMap owner gvk req tenant) none]⟩
  | unchanged (gvk : GroupVersionKind) (found : ConfigMap)
      (hgvk : scheme.tenantInfoKind = some gvk)
      (hfound : w.store.lookup (childKey req tenant) = some found)
      (hdata : found.Data = desiredData tenant) :
      TenantStep scheme owner req tenant w none
        { w with trace := w.trace ++ [.getConfigMap (childKey req tenant) (.ok found)] }
  | updateFailed (gvk : GroupVersionKind) (found : ConfigMap) (e : Err)
      (hgvk : scheme.tenantInfoKind = some gvk)
      (hfound : w.store.lookup (childKey req tenant) = some found)
      (hdata : found.Data ≠ desiredData tenant) :
      TenantStep scheme owner req tenant w (some e)
        { w with trace := w.trace ++ [.getConfigMap (childKey req tenant) (.ok found),
                                      .update (withData found (desiredData tenant)) (some e)] }
  | updated (gvk : GroupVersionKind) (found : ConfigMap)
      (hgvk : scheme.tenantInfoKind = some gvk)
      (hfound : w.store.lookup (childKey req tenant) = some found)
      (hdata : found.Data ≠ desiredData tenant) :
      TenantStep scheme owner req tenant w none
        ⟨w.store.replace (withData found (desiredData tenant)),
         w.trace ++ [.getConfigMap (childKey req tenant) (.ok found),
                     .update (withData found (desiredData tenant)) none]⟩

/-- The child stored for a tenant entry after a successful iteration: the fetched
child with its data overwritten, or the freshly built child when none was stored. -/
def childAfter (owner : TenantInfo) (gvk : GroupVersionKind) (req : Request) (tenant : Tenant)
    (before : Option ConfigMap) : ConfigMap :=
  match before with
  | none => ownedConfigMap owner gvk req tenant
  | some found => withData found (desiredData tenant)

/-! ## The loops -/

/-- A child is an orphan when the identifier derived from its name is not recorded. -/
def isOrphan (currentTenantIDs : List String) (cm : ConfigMap) : Prop :=
  tenantIDOf cm.Name ∉ currentTenantIDs

instance (currentTenantIDs : List String) (cm : ConfigMap) :
    Decidable (isOrphan currentTenantIDs cm) :=
  inferInstanceAs (Decidable (tenantIDOf cm.Name ∉ currentTenantIDs))

/-! ## Failing calls and replay of the trace -/

/-- The error a call returned, a not-found answer to a get apart (that answer is
how `Reconcile` learns that the object is absent). -/
def Call.failure : Call → Option Err
  | .getTenantInfo _ (.error e) => if IsNotFound e then none else some e
  | .getConfigMap _ (.error e) => if IsNotFound e then none else some e
  | .create _ (some e) => some e
  | .update _ (some e) => some e
  | .list _ (.error e) => some e
  | .delete _ (some e) => some e
  | _ => none

/-- The effect of one recorded call on the store: only writes that returned no
error change it. -/
def applyCall (st : Store) : Call → Store
  | .create obj none => st.add obj
  | .update obj none => st.replace obj
  | .delete obj none => st.remove obj.key
  | _ => st

/-- The store obtained from `st` by the successful writes of a trace, in order. -/
def replay (st : Store) (tr : List Call) : Store := tr.foldl applyCall st

/-- No call of the trace failed. -/
def Clean (tr : List Call) : Prop := ∀ c ∈ tr, c.failure = none

/-- At most the last call of the trace failed, and then with error `e`. -/
def StoppedAt (e : Err) (tr : List Call) : Prop :=
  Clean tr ∨ ∃ tr' c, tr = tr' ++ [c] ∧ Clean tr' ∧ c.failure = some e

/-! ## Counting writes -/

/-- A create or update call for the child called `name`. -/
def Call.writesTo (name : String) : Call → Bool
  | .create obj _ => decide (obj.Name = name)
  | .update obj _ => decide (obj.Name = name)
  | _ => false

/-! ## Delete calls -/

/-- The objects passed to `Delete`, in call order. -/
def deletedObjs (tr : List Call) : List ConfigMap :=
  tr.filterMap (fun c => match c with
    | .delete obj _ => some obj
    | _ => none)

/-- The results of the successful `List` calls, in call order. -/
def listedItems (tr : List Call) : List (List ConfigMap) :=
  tr.filterMap (fun c => match c with
    | .list _ (.ok items) => some items
    | _ => none)

/-- A child carries an owner reference, at any position, with the given UID. -/
def hasOwner (uid : UID) (cm : ConfigMap) : Prop :=
  ∃ ref ∈ cm.OwnerReferences, ref.UID = uid

instance (uid : UID) (cm : ConfigMap) : Decidable (hasOwner uid cm) :=
  inferInstanceAs (Decidable (∃ ref ∈ cm.OwnerReferences, ref.UID = uid))

/-! ## The store after a successful pass -/

/-- The last entry of the tenant sequence with the given identifier. -/
def lastEntry (tenants : List Tenant) (id : String) : Option Tenant :=
  (tenants.filter (fun t => decide (t.TenantID = id))).getLast?

/-- The invariant of the tenant loop: keys of unprocessed entries hold what the
store held at the start, the key of a processed identifier holds `childAfter` of
the last processed entry with that identifier, and the parents are untouched. -/
def LoopInv (scheme : Scheme) (owner : TenantInfo) (req : Request) (st0 : Store)
    (done : List Tenant) (w : World) : Prop :=
  (∀ k, (∀ t ∈ done, k ≠ childKey req t) → w.store.lookup k = st0.lookup k) ∧
  (∀ id t, lastEntry done id = some t → ∃ gvk, scheme.tenantInfoKind = some gvk ∧
    w.store.lookup ⟨req.Namespace, cmName id⟩ =
      some (childAfter owner gvk req t (st0.lookup ⟨req.Namespace, cmName id⟩))) ∧
  w.store.tenantInfos = st0.tenantInfos

/-- The names of the children of a namespace that carry an owner reference with
the given UID. -/
def ownedNames (uid : UID) (ns : String) (st : Store) : List String :=
  (st.configMaps.filter (fun cm => decide (cm.Namespace = ns ∧ hasOwner uid cm))).map
    (fun cm => cm.Name)

/-! ## A pass over a store that already holds the desired children -/

/-- A create, update or delete call. -/
def Call.isWrite : Call → Bool
  | .create _ _ => true
  | .update _ _ => true
  | .delete _ _ => true
  | _ => false

/-- No identifier of the sequence occurs with two different URLs. -/
def UrlsAgree (tenants : List Tenant) : Prop :=
  ∀ t ∈ tenants, ∀ t' ∈ tenants, t.TenantID = t'.TenantID → t.WebserviceURL = t'.WebserviceURL

/-! ## Stores with unique keys, and a change of the spec -/

/-- No two stored children have the same namespace and name. -/
def Store.WF (st : Store) : Prop := (st.configMaps.map ConfigMap.key).Nodup

instance (st : Store) : Decidable st.WF :=
  inferInstanceAs (Decidable (st.configMaps.map ConfigMap.key).Nodup)

/-- The store after the spec of the parent stored under `key` has been edited to
hold the given tenant entries. -/
def Store.setTenants (st : Store) (key : NamespacedName) (tenants : List Tenant) : Store :=
  { st with tenantInfos := st.tenantInfos.map (fun p =>
      if p.Namespace = key.Namespace ∧ p.Name = key.Name then { p with Spec := ⟨tenants⟩ }
      else p) }

/-! ## Example objects -/

/-- A scheme in which the parent kind is registered. -/
def exScheme : Scheme :=
  ⟨some ⟨"multitenancy-management.example.com", "v1", "TenantInfo"⟩⟩

/-- The request for the parent `default/tenants`. -/
def exReq : Request := ⟨⟨"default", "tenants"⟩⟩

/-- The parent `default/tenants` with UID `uid-1` and the given tenant entries. -/
def exParent (tenants : List Tenant) : TenantInfo :=
  ⟨"tenants", "default", "uid-1", ⟨tenants⟩⟩

/-- A store that holds only the parent, whose spec lists tenant `a` twice with
two different URLs. -/
def exStoreRepeated : Store :=
  ⟨[exParent [⟨"a", "http://a1"⟩, ⟨"a", "http://a2"⟩]], []⟩

/-- An owner reference to some object with the given UID. -/
def exRef (name : String) (uid : UID) (controller : Bool) : OwnerReference :=
  ⟨"v1", "TenantInfo", name, uid, controller, controller⟩

/-- A child whose first owner reference names another object and whose second
owner reference carries the UID of the parent `default/tenants`. -/
def exSecondOwnerChild : ConfigMap :=
  ⟨"tenant-b-config", "default", [exRef "other" "uid-2" false, exRef "tenants" "uid-1" false], ∅⟩

/-- A store with the parent (empty spec) and the child `exSecondOwnerChild`. -/
def exStoreSecondOwner : Store := ⟨[exParent []], [exSecondOwnerChild]⟩

/-- A child `tenant-a-config` with tampered data, an extra key and two owner
references. -/
def exTamperedChild : ConfigMap :=
  ⟨"tenant-a-config", "default", [exRef "tenants" "uid-1" true, exRef "other" "uid-2" false],
    Finmap.insert "tenantID" "a" (Finmap.insert "webserviceURL" "http://tampered"
      (Finmap.singleton "extra" "x"))⟩

/-- A store with the parent, whose spec lists tenant `a` twice, and the tampered
child `tenant-a-config`. -/
def exStoreTampered : Store :=
  ⟨[exParent [⟨"a", "http://old"⟩, ⟨"a", "http://a"⟩]], [exTamperedChild]⟩

/-- A store with the parent (spec `[(a, http://a)]`) and a child `tenant-a-config`
that carries no owner reference. -/
def exStoreUnowned : Store :=
  ⟨[exParent [⟨"a", "http://a"⟩]], [⟨"tenant-a-config", "default", [], ∅⟩]⟩

/-- A store with the parent (spec `[(a, http://a)]`), a child `tenant-a-config`
with the desired data but no owner reference, and a child `a` that carries the
parent's UID. -/
def exStoreForeign : Store :=
  ⟨[exParent [⟨"a", "http://a"⟩]],
   [⟨"tenant-a-config", "default", [], desiredData ⟨"a", "http://a"⟩⟩,
    ⟨"a", "default", [exRef "tenants" "uid-1" true], ∅⟩]⟩

/-- A store that holds only the parent, whose spec lists the tenants `a` and `b`. -/
def exStoreTwo : Store :=
  ⟨[exParent [⟨"a", "http://a"⟩, ⟨"b", "http://b"⟩]], []⟩

/-- A store with the parent (spec `[(a, http://a)]`), an unowned child `other` in
the namespace, a child in another namespace that carries the parent's UID, and a
child `tenant-z-config` in the namespace that carries the parent's UID. -/
def exStoreFrame : Store :=
  ⟨[exParent [⟨"a", "http://a"⟩]],
   [⟨"other", "default", [], ∅⟩,
    ⟨"tenant-z-config", "kube-system", [exRef "tenants" "uid-1" true], ∅⟩,
    ⟨"tenant-z-config", "default", [exRef "tenants" "uid-1" true], ∅⟩]⟩

/-- The request with empty namespace for the parent `tenants`. -/
def exReqAll : Request := ⟨⟨"", "tenants"⟩⟩

/-- The parent `tenants` stored with empty namespace, UID `uid-1` and an empty
spec. -/
def exParentAll : TenantInfo := ⟨"tenants", "", "uid-1", ⟨[]⟩⟩

/-- The child `default/tenant-z-config`, which carries the UID `uid-1`. -/
def exChildElsewhere : ConfigMap :=
  ⟨"tenant-z-config", "default", [exRef "tenants" "uid-1" true], ∅⟩

/-- A store with the parent `exParentAll` and the child `exChildElsewhere`. -/
def exStoreAll : Store := ⟨[exParentAll], [exChildElsewhere]⟩

/-- A store with the parent (empty spec) and one child, in another namespace. -/
def exStoreStart : Store :=
  ⟨[exParent []], [⟨"tenant-a-config", "kube-system", [], ∅⟩]⟩

/-- The store reached from `exStoreStart` by a pass for the tenants `a` and `b`
followed by a pass for tenant `b` with a new URL. -/
def exStoreEnd : Store :=
  ⟨[exParent [⟨"b", "http://b2"⟩]],
   [⟨"tenant-a-config", "kube-system", [], ∅⟩,
    ⟨"tenant-b-config", "default",
      [⟨"multitenancy-management.example.com/v1", "TenantInfo", "tenants", "uid-1", true, true⟩],
      desiredData ⟨"b", "http://b2"⟩⟩]⟩

/-! ## Registration with the manager -/

/-- An index registered with `FieldIndexer.IndexField`: the kind of the indexed
objects, the index key, and the function that extracts the indexed values. -/
structure FieldIndex where
  kind : String
  field : String
  extractValue : ConfigMap → List String

/-- A controller registered with the manager: the kind it reconciles and its name. -/
structure ControllerReg where
  forKind : String
  name : String
deriving DecidableEq

/-- The part of `ctrl.Manager` that `SetupWithManager` acts on. -/
structure Manager where
  indexes : List FieldIndex
  controllers : List ControllerReg

/-- The call `mgr.GetFieldIndexer().IndexField`: registering a second index for
the same kind and key is an indexer conflict. -/
def IndexField (mgr : Manager) (kind field : String) (extractValue : ConfigMap → List String) :
    Option Err × Manager :=
  if mgr.indexes.any (fun idx => decide (idx.kind = kind ∧ idx.field = field)) then
    (some (.other "indexer conflict"), mgr)
  else
    (none, { mgr with indexes := mgr.indexes ++ [⟨kind, field, extractValue⟩] })

/-- The call `ctrl.NewControllerManagedBy(mgr).For(..).Named(..).Complete(r)`:
controller names are unique within a manager. -/
def Complete (mgr : Manager) (forKind name : String) : Option Err × Manager :=
  if mgr.controllers.any (fun c => decide (c.name = name)) then
    (some (.other "controller with this name already exists"), mgr)
  else
    (none, { mgr with controllers := mgr.controllers ++ [⟨forKind, name⟩] })

/-- The anonymous extractor passed to `IndexField`: the loop over the owner
references returns in its first iteration; without owner references the result
is nil. -/
def ownerUIDExtractor (rawObj : ConfigMap) : List String :=
  match rawObj.OwnerReferences with
  | ref :: _ => [ref.UID]
  | [] => []

/-- The method `TenantInfoReconciler.SetupWithManager`. -/
def SetupWithManager (mgr : Manager) : Option Err × Manager :=
  match IndexField mgr "ConfigMap" "metadata.ownerReferences.uid" ownerUIDExtractor with
  | (some err, mgr1) => (some err, mgr1)
  | (none, mgr1) => Complete mgr1 "TenantInfo" "tenantinfo"

/-! ## The calls of a pass -/

/-- The calls the tenant loop can issue for the entries `ts`: the fetch of the
child of an entry, the create of the freshly built child of an entry, or the
update of a fetched child of an entry, with only its data replaced. -/
def LoopCall (scheme : Scheme) (owner : TenantInfo) (req : Request) (ts : List Tenant)
    (c : Call) : Prop :=
  (∃ t ∈ ts, ∃ res, c = .getConfigMap (childKey req t) res) ∨
  (∃ t ∈ ts, ∃ gvk r, scheme.tenantInfoKind = some gvk ∧
    c = .create (ownedConfigMap owner gvk req t) r) ∨
  (∃ t ∈ ts, ∃ found r, found.key = childKey req t ∧ found.Data ≠ desiredData t ∧
    c = .update (withData found (desiredData t)) r)

/-- The calls a pass can issue once the parent has been fetched: the parent
fetch, the calls of the tenant loop, the list call for the namespace, or the
delete of a child selected by the list call that carries the parent's UID and
whose derived identifier is not in the spec. -/
def RunCall (scheme : Scheme) (owner : TenantInfo) (req : Request) (c : Call) : Prop :=
  c = .getTenantInfo req.NamespacedName (.ok owner) ∨
  LoopCall scheme owner req owner.Spec.Tenants c ∨
  (∃ res, c = .list req.Namespace res) ∨
  (∃ cm r, InNamespace req.Namespace cm = true ∧ hasOwner owner.UID cm ∧
    (∀ t ∈ owner.Spec.Tenants, t.TenantID ≠ tenantIDOf cm.Name) ∧ c = .delete cm r)

/-! ## The write frame -/

/-- The invariant behind the write frame, relative to the initial store `st` and
the entries `done` processed so far: keys are unique; the children outside the
namespace are those of `st`, as far as the namespace is not empty or the child
is without the parent's UID; a child of `st` in the namespace without the
parent's UID whose name is not the derived name of a processed entry is still
stored; and every child of `st` without the parent's UID still has a child
stored under its key, with the same owner references. -/
def FrameInv (st : Store) (uid : UID) (ns : String) (done : List Tenant) (w : World) : Prop :=
  w.store.WF ∧
  (∀ c : ConfigMap, c.Namespace ≠ ns → (ns ≠ "" ∨ ¬ hasOwner uid c) →
    (c ∈ w.store.configMaps ↔ c ∈ st.configMaps)) ∧
  (∀ c ∈ st.configMaps, c.Namespace = ns → ¬ hasOwner uid c →
    (∀ t ∈ done, c.Name ≠ cmName t.TenantID) → c ∈ w.store.configMaps) ∧
  (∀ c ∈ st.configMaps, ¬ hasOwner uid c →
    ∃ c' ∈ w.store.configMaps, c'.key = c.key ∧ c'.OwnerReferences = c.OwnerReferences)

/-! ## Sequences of passes -/

/-- No two stored children of the namespace `ns` have the same name. -/
def Store.WFIn (ns : String) (st : Store) : Prop :=
  ((st.configMaps.map ConfigMap.key).filter (fun k => decide (k.Namespace = ns))).Nodup

/-- One pass in a sequence of passes: the spec of the parent is edited to hold
the given entries, then `Reconcile` runs under the given fault schedule.  The
pass counts only if it fetched the parent and returned no error. -/
def pass (scheme : Scheme) (req : Request) (st : Store) (p : Faults × List Tenant) :
    Option Store :=
  match (GetTenantInfo p.1 req.NamespacedName ⟨st.setTenants req.NamespacedName p.2, []⟩).1,
      (run p.1 scheme req (st.setTenants req.NamespacedName p.2)).err with
  | .ok _, none => some (run p.1 scheme req (st.setTenants req.NamespacedName p.2)).world.store
  | _, _ => none

/-- A finite sequence of successful passes of the same parent, each with its own
tenant sequence and fault schedule. -/
def passes (scheme : Scheme) (req : Request) : Store → List (Faults × List Tenant) → Option Store
  | st, [] => some st
  | st, p :: rest =>
    match pass scheme req st p with
    | some st' => passes scheme req st' rest
    | none => none

/-- The invariant of the stores reached by passes of the parent with UID `uid`:
the parent is stored with that UID, the children of the namespace have pairwise
distinct names, and each of them has a derived name and exactly one owner
reference, which carries the UID. -/
def Reached (uid : UID) (req : Request) (st : Store) : Prop :=
  (∃ p, st.lookupTenantInfo req.NamespacedName = some p ∧ p.UID = uid) ∧
  st.WFIn req.Namespace ∧
  ∀ c ∈ st.configMaps, c.Namespace = req.Namespace →
    (∃ x, c.Name = cmName x) ∧ ∃ ref, c.OwnerReferences = [ref] ∧ ref.UID = uid

/-! ## Facts about names -/

theorem cmName_data (id : String) :
    (cmName id).data = "tenant-".data ++ (id.data ++ "-config".data) := by
  simp [cmName, String.data_append]

/-- Distinct tenant identifiers give distinct child names. -/
theorem cmName_injective {a b : String} (h : cmName a = cmName b) : a = b := by
  have h' := congrArg String.data h
  rw [cmName_data, cmName_data] at h'
  exact String.ext (List.append_cancel_right (List.append_cancel_left h'))

theorem TrimPrefix_append (p s : String) : TrimPrefix (p ++ s) p = s := by
  unfold TrimPrefix
  have : p.data.isPrefixOf (p ++ s).data = true := by
    rw [List.isPrefixOf_iff_prefix, String.data_append]
    exact List.prefix_append _ _
  rw [if_pos this]
  apply String.ext
  simp [String.data_append]

theorem TrimSuffix_append (s p : String) : TrimSuffix (s ++ p) p = s := by
  unfold TrimSuffix
  have : p.data.isSuffixOf (s ++ p).data = true := by
    rw [List.isSuffixOf_iff_suffix, String.data_append]
    exact List.suffix_append _ _
  rw [if_pos this]
  apply String.ext
  simp [String.data_append]

/-- Stripping the prefix and the suffix from a derived name gives the identifier back. -/
theorem tenantIDOf_cmName (id : String) : tenantIDOf (cmName id) = id := by
  unfold tenantIDOf cmName
  rw [String.append_assoc, TrimPrefix_append, TrimSuffix_append]

/-! ## Facts about the store -/

theorem hasKey_iff (k : NamespacedName) (c : ConfigMap) : hasKey k c = true ↔ c.key = k := by
  cases k
  simp [hasKey, ConfigMap.key]

theorem hasKey_key (c : ConfigMap) : hasKey c.key c = true := (hasKey_iff _ _).2 rfl

theorem lookup_eq_some {st : Store} {k : NamespacedName} {c : ConfigMap}
    (h : st.lookup k = some c) : c ∈ st.configMaps ∧ c.key = k := by
  unfold Store.lookup at h
  exact ⟨List.mem_of_find?_eq_some h, (hasKey_iff _ _).1 (List.find?_some h)⟩

theorem lookup_eq_none_iff {st : Store} {k : NamespacedName} :
    st.lookup k = none ↔ ∀ c ∈ st.configMaps, c.key ≠ k := by
  unfold Store.lookup
  rw [List.find?_eq_none]
  constructor
  · intro h c hc hk
    exact h c hc ((hasKey_iff _ _).2 hk)
  · intro h c hc hk
    exact h c hc ((hasKey_iff _ _).1 hk)

theorem lookup_isSome_of_mem {st : Store} {c : ConfigMap} (h : c ∈ st.configMaps) :
    ∃ c', st.lookup c.key = some c' := by
  cases hl : st.lookup c.key with
  | some c' => exact ⟨c', rfl⟩
  | none => exact absurd rfl (lookup_eq_none_iff.1 hl c h)

theorem lookup_add (st : Store) (obj : ConfigMap) (k : NamespacedName)
    (h : st.lookup obj.key = none) :
    (st.add obj).lookup k = if k = obj.key then some obj else st.lookup k := by
  unfold Store.lookup Store.add
  simp only [List.find?_append]
  by_cases hk : k = obj.key
  · subst hk
    unfold Store.lookup at h
    simp [h, hasKey_key]
  · have : hasKey k obj = false := by
      cases hh : hasKey k obj with
      | false => rfl
      | true => exact absurd ((hasKey_iff _ _).1 hh).symm hk
    simp [hk, this]

theorem find?_replace (obj : ConfigMap) (k : NamespacedName) (l : List ConfigMap) :
    (l.map (fun cm => if hasKey obj.key cm then obj else cm)).find? (hasKey k) =
      if k = obj.key then (l.find? (hasKey k)).map (fun _ => obj) else l.find? (hasKey k) := by
  induction l with
  | nil => simp
  | cons a l ih =>
    simp only [List.map_cons, List.find?_cons, ih]
    by_cases hk : k = obj.key
    · subst hk
      cases ha : hasKey obj.key a <;> simp [ha, hasKey_key]
    · cases ha : hasKey obj.key a with
      | false => cases hka : hasKey k a <;> simp [hk, hka]
      | true =>
        have h1 : hasKey k obj = false := by
          cases hh : hasKey k obj with
          | false => rfl
          | true => exact absurd ((hasKey_iff _ _).1 hh).symm hk
        have h2 : hasKey k a = false := by
          cases hh : hasKey k a with
          | false => rfl
          | true =>
            exact absurd (((hasKey_iff _ _).1 hh).symm.trans ((hasKey_iff _ _).1 ha)) hk
        simp [hk, h1, h2]

theorem lookup_replace (st : Store) (obj : ConfigMap) (k : NamespacedName) :
    (st.replace obj).lookup k =
      if k = obj.key then (st.lookup k).map (fun _ => obj) else st.lookup k := by
  unfold Store.lookup Store.replace
  exact find?_replace obj k st.configMaps

theorem find?_remove (k0 k : NamespacedName) (l : List ConfigMap) :
    (l.filter (fun cm => !hasKey k0 cm)).find? (hasKey k) =
      if k = k0 then none else l.find? (hasKey k) := by
  induction l with
  | nil => simp
  | cons a l ih =>
    by_cases hk : k = k0
    · subst hk
      simp only [if_true] at ih
      cases ha : hasKey k a <;> simp [List.filter_cons, ha, ih]
    · simp only [hk, if_false] at ih
      cases ha : hasKey k0 a with
      | false => simp [List.filter_cons, ha, List.find?_cons, ih, hk]
      | true =>
        have h2 : hasKey k a = false := by
          cases hh : hasKey k a with
          | false => rfl
          | true =>
            exact absurd (((hasKey_iff _ _).1 hh).symm.trans ((hasKey_iff _ _).1 ha)) hk
        simp [List.filter_cons, ha, List.find?_cons, ih, hk, h2]

theorem lookup_remove (st : Store) (k0 k : NamespacedName) :
    (st.remove k0).lookup k = if k = k0 then none else st.lookup k := by
  unfold Store.lookup Store.remove
  exact find?_remove k0 k st.configMaps

theorem mem_add {st : Store} {obj c : ConfigMap} :
    c ∈ (st.add obj).configMaps ↔ c ∈ st.configMaps ∨ c = obj := by
  simp [Store.add]

theorem mem_replace {st : Store} {obj c : ConfigMap} :
    c ∈ (st.replace obj).configMaps ↔
      (c ∈ st.configMaps ∧ c.key ≠ obj.key) ∨ (c = obj ∧ ∃ c0 ∈ st.configMaps, c0.key = obj.key) := by
  unfold Store.replace
  simp only [List.mem_map]
  constructor
  · rintro ⟨a, ha, rfl⟩
    by_cases hk : hasKey obj.key a = true
    · right
      simp only [hk, if_true]
      exact ⟨trivial, a, ha, (hasKey_iff _ _).1 hk⟩
    · left
      simp only [hk]
      exact ⟨ha, fun h => hk ((hasKey_iff _ _).2 h)⟩
  · rintro (⟨hc, hk⟩ | ⟨rfl, c0, hc0, hk0⟩)
    · refine ⟨c, hc, ?_⟩
      have : ¬ hasKey obj.key c = true := fun h => hk ((hasKey_iff _ _).1 h)
      simp [this]
    · exact ⟨c0, hc0, by simp [(hasKey_iff _ _).2 hk0]⟩

theorem mem_remove {st : Store} {k : NamespacedName} {c : ConfigMap} :
    c ∈ (st.remove k).configMaps ↔ c ∈ st.configMaps ∧ c.key ≠ k := by
  unfold Store.remove
  simp only [List.mem_filter, Bool.not_eq_true', and_congr_right_iff]
  intro _
  constructor
  · intro h hk
    rw [(hasKey_iff _ _).2 hk] at h
    exact Bool.noConfusion h
  · intro h
    cases hh : hasKey k c with
    | false => rfl
    | true => exact absurd ((hasKey_iff _ _).1 hh) h

/-! ## Facts about the client calls -/

theorem GetTenantInfo_world (F : Faults) (key : NamespacedName) (w : World) :
    (GetTenantInfo F key w).2 =
      { w with trace := w.trace ++ [.getTenantInfo key (GetTenantInfo F key w).1] } := rfl

theorem GetTenantInfo_ok {F : Faults} {key : NamespacedName} {w : World} {t : TenantInfo}
    (h : (GetTenantInfo F key w).1 = .ok t) :
    w.store.lookupTenantInfo key = some t ∧ t.Namespace = key.Namespace ∧ t.Name = key.Name := by
  unfold GetTenantInfo at h
  simp only at h
  split at h
  · exact Res.noConfusion h
  · split at h
    · rename_i t' ht
      have : t' = t := by injection h
      subst this
      refine ⟨ht, ?_⟩
      unfold Store.lookupTenantInfo at ht
      simpa using List.find?_some ht
    · exact Res.noConfusion h

theorem GetConfigMap_world (F : Faults) (key : NamespacedName) (w : World) :
    (GetConfigMap F key w).2 =
      { w with trace := w.trace ++ [.getConfigMap key (GetConfigMap F key w).1] } := rfl

theorem GetConfigMap_ok {F : Faults} {key : NamespacedName} {w : World} {c : ConfigMap}
    (h : (GetConfigMap F key w).1 = .ok c) : w.store.lookup key = some c := by
  unfold GetConfigMap at h
  simp only at h
  split at h
  · exact Res.noConfusion h
  · split at h
    · rename_i c' hc
      have : c' = c := by injection h
      subst this
      exact hc
    · exact Res.noConfusion h

theorem Create_cases (F : Faults) (obj : ConfigMap) (w : World) :
    (∃ e, Create F obj w = (some e, { w with trace := w.trace ++ [.create obj (some e)] })) ∨
    (w.store.lookup obj.key = none ∧ F w.trace.length = none ∧
      Create F obj w = (none, ⟨w.store.add obj, w.trace ++ [.create obj none]⟩)) := by
  unfold Create
  cases hF : F w.trace.length with
  | some e => exact Or.inl ⟨e, rfl⟩
  | none =>
    cases hl : w.store.lookup obj.key with
    | some c => exact Or.inl ⟨_, rfl⟩
    | none => exact Or.inr ⟨rfl, rfl, rfl⟩

theorem Update_cases (F : Faults) (obj : ConfigMap) (w : World) :
    (∃ e, Update F obj w = (some e, { w with trace := w.trace ++ [.update obj (some e)] })) ∨
    ((∃ c, w.store.lookup obj.key = some c) ∧ F w.trace.length = none ∧
      Update F obj w = (none, ⟨w.store.replace obj, w.trace ++ [.update obj none]⟩)) := by
  unfold Update
  cases hF : F w.trace.length with
  | some e => exact Or.inl ⟨e, rfl⟩
  | none =>
    cases hl : w.store.lookup obj.key with
    | some c => exact Or.inr ⟨⟨c, rfl⟩, rfl, rfl⟩
    | none => exact Or.inl ⟨_, rfl⟩

theorem Delete_cases (F : Faults) (obj : ConfigMap) (w : World) :
    (∃ e, Delete F obj w = (some e, { w with trace := w.trace ++ [.delete obj (some e)] })) ∨
    ((∃ c, w.store.lookup obj.key = some c) ∧ F w.trace.length = none ∧
      Delete F obj w = (none, ⟨w.store.remove obj.key, w.trace ++ [.delete obj none]⟩)) := by
  unfold Delete
  cases hF : F w.trace.length with
  | some e => exact Or.inl ⟨e, rfl⟩
  | none =>
    cases hl : w.store.lookup obj.key with
    | some c => exact Or.inr ⟨⟨c, rfl⟩, rfl, rfl⟩
    | none => exact Or.inl ⟨_, rfl⟩

theorem ListConfigMaps_world (F : Faults) (ns : String) (w : World) :
    (ListConfigMaps F ns w).2 =
      { w with trace := w.trace ++ [.list ns (ListConfigMaps F ns w).1] } := rfl

theorem ListConfigMaps_ok {F : Faults} {ns : String} {w : World} {l : List ConfigMap}
    (h : (ListConfigMaps F ns w).1 = .ok l) :
    l = w.store.configMaps.filter (InNamespace ns) := by
  unfold ListConfigMaps at h
  simp only at h
  split at h
  · exact Res.noConfusion h
  · injection h with h
    exact h.symm

theorem InNamespace_iff {ns : String} {cm : ConfigMap} :
    InNamespace ns cm = true ↔ ns = "" ∨ cm.Namespace = ns := by
  simp [InNamespace]

theorem InNamespace_of_eq {ns : String} {cm : ConfigMap} (h : cm.Namespace = ns) :
    InNamespace ns cm = true :=
  InNamespace_iff.2 (Or.inr h)

theorem InNamespace_nonempty {ns : String} (hns : ns ≠ "") (cm : ConfigMap) :
    InNamespace ns cm = true ↔ cm.Namespace = ns := by
  rw [InNamespace_iff]
  exact ⟨fun h => h.resolve_left hns, Or.inr⟩

/-! ## Facts about `SetControllerReference` -/

theorem SetControllerReference_new_ok {owner : TenantInfo} {req : Request} {tenant : Tenant}
    {scheme : Scheme} {cm : ConfigMap}
    (h : SetControllerReference owner (newConfigMap req tenant) scheme = .ok cm) :
    ∃ gvk, scheme.tenantInfoKind = some gvk ∧
      cm = { newConfigMap req tenant with OwnerReferences := [controllerRef owner gvk] } := by
  unfold SetControllerReference at h
  split at h
  · exact Res.noConfusion h
  · split at h
    · exact Res.noConfusion h
    · split at h
      · exact Res.noConfusion h
      · rename_i gvk hg
        refine ⟨gvk, hg, ?_⟩
        simp only [newConfigMap, List.find?_nil, upsertOwnerRef] at h
        injection h with h
        exact h.symm

theorem SetControllerReference_new (owner : TenantInfo) (req : Request) (tenant : Tenant)
    (gvk : GroupVersionKind) (hns : owner.Namespace = req.Namespace) :
    SetControllerReference owner (newConfigMap req tenant) ⟨some gvk⟩ =
      .ok { newConfigMap req tenant with OwnerReferences := [controllerRef owner gvk] } := by
  unfold SetControllerReference
  have h1 : ¬ (owner.Namespace ≠ "" ∧ (newConfigMap req tenant).Namespace = "") := by
    rintro ⟨h, h'⟩
    exact h (hns.trans h')
  have h2 : ¬ (owner.Namespace ≠ "" ∧ owner.Namespace ≠ (newConfigMap req tenant).Namespace) := by
    rintro ⟨_, h'⟩
    exact h' hns
  simp only [h1, h2, if_false]
  simp [newConfigMap, upsertOwnerRef]

/-! ## One iteration of the tenant loop -/

theorem withData_key (found : ConfigMap) (data : StringMap) :
    (withData found data).key = found.key := rfl

theorem ownedConfigMap_key (owner : TenantInfo) (gvk : GroupVersionKind) (req : Request)
    (tenant : Tenant) : (ownedConfigMap owner gvk req tenant).key = childKey req tenant := rfl

/-- The loop body always behaves in one of the ways listed by `TenantStep`. -/
theorem reconcileTenant_step (F : Faults) (scheme : Scheme) (owner : TenantInfo) (req : Request)
    (tenant : Tenant) (w : World) :
    TenantStep scheme owner req tenant w
      (reconcileTenant F scheme owner req tenant w).1
      (reconcileTenant F scheme owner req tenant w).2 := by
  unfold reconcileTenant
  simp only
  cases href : SetControllerReference owner (newConfigMap req tenant) scheme with
  | error e => exact .refFailed e href
  | ok cm =>
    obtain ⟨gvk, hgvk, rfl⟩ := SetControllerReference_new_ok href
    simp only
    have hw := GetConfigMap_world F (childKey req tenant) w
    cases hget : (GetConfigMap F (childKey req tenant) w).1 with
    | error e =>
      have hpair : GetConfigMap F ⟨req.Namespace, cmName tenant.TenantID⟩ w =
          (.error e, { w with trace := w.trace ++ [.getConfigMap (childKey req tenant) (.error e)] }) := by
        rw [hget] at hw
        exact Prod.ext hget hw
      simp only [newConfigMap, hpair]
      cases hnf : IsNotFound e with
      | false => simpa using
            (TenantStep.getFailed gvk e hgvk hnf : TenantStep scheme owner req tenant w _ _)
      | true =>
        simp only [if_true]
        rcases Create_cases F (ownedConfigMap owner gvk req tenant)
          { w with trace := w.trace ++ [.getConfigMap (childKey req tenant) (.error e)] } with
          ⟨e', he'⟩ | ⟨hl, _, hc⟩
        · simp only [ownedConfigMap, newConfigMap] at he'
          simp only [he']
          simpa [ownedConfigMap, newConfigMap] using
            (TenantStep.createFailed gvk e e' hgvk hnf : TenantStep scheme owner req tenant w _ _)
        · simp only [ownedConfigMap, newConfigMap] at hc
          simp only [hc]
          have hl' : w.store.lookup (childKey req tenant) = none := hl
          simpa [ownedConfigMap, newConfigMap] using
            (TenantStep.created gvk e hgvk hnf hl' : TenantStep scheme owner req tenant w _ _)
    | ok found =>
      have hfound := GetConfigMap_ok hget
      have hpair : GetConfigMap F ⟨req.Namespace, cmName tenant.TenantID⟩ w =
          (.ok found, { w with trace := w.trace ++ [.getConfigMap (childKey req tenant) (.ok found)] }) := by
        rw [hget] at hw
        exact Prod.ext hget hw
      simp only [newConfigMap, hpair]
      by_cases hdata : found.Data = desiredData tenant
      · simpa [hdata] using
            (TenantStep.unchanged gvk found hgvk hfound hdata : TenantStep scheme owner req tenant w _ _)
      · simp only [ne_eq, hdata, not_false_eq_true, if_true]
        have hk : (withData found (desiredData tenant)).key = childKey req tenant :=
          (lookup_eq_some hfound).2
        rcases Update_cases F (withData found (desiredData tenant))
          { w with trace := w.trace ++ [.getConfigMap (childKey req tenant) (.ok found)] } with
          ⟨e', he'⟩ | ⟨_, _, hc⟩
        · simp only [withData] at he'
          simp only [he']
          simpa [withData] using
            (TenantStep.updateFailed gvk found e' hgvk hfound hdata : TenantStep scheme owner req tenant w _ _)
        · simp only [withData] at hc
          simp only [hc]
          simpa [withData] using
            (TenantStep.updated gvk found hgvk hfound hdata : TenantStep scheme owner req tenant w _ _)

theorem withData_self {found : ConfigMap} {data : StringMap} (h : found.Data = data) :
    withData found data = found := by
  cases found
  simp only [withData] at *
  rw [h]

/-- A successful iteration stores `childAfter` under the entry's key and leaves
every other key and all parents alone. -/
theorem TenantStep.lookup_of_ok {scheme : Scheme} {owner : TenantInfo} {req : Request}
    {tenant : Tenant} {w w' : World}
    (h : TenantStep scheme owner req tenant w none w') :
    ∃ gvk, scheme.tenantInfoKind = some gvk ∧
      w'.store.lookup (childKey req tenant) =
        some (childAfter owner gvk req tenant (w.store.lookup (childKey req tenant))) ∧
      (∀ k, k ≠ childKey req tenant → w'.store.lookup k = w.store.lookup k) ∧
      w'.store.tenantInfos = w.store.tenantInfos := by
  cases h with
  | created gvk e hgvk hnf hnone =>
    refine ⟨gvk, hgvk, ?_, ?_, rfl⟩
    · rw [lookup_add _ _ _ (by rw [ownedConfigMap_key]; exact hnone), hnone]
      simp [ownedConfigMap_key, childAfter]
    · intro k hk
      rw [lookup_add _ _ _ (by rw [ownedConfigMap_key]; exact hnone)]
      simp [ownedConfigMap_key, hk]
  | unchanged gvk found hgvk hfound hdata =>
    refine ⟨gvk, hgvk, ?_, fun _ _ => rfl, rfl⟩
    show w.store.lookup _ = _
    rw [hfound]
    simp [childAfter, withData_self hdata]
  | updated gvk found hgvk hfound hdata =>
    have hk : (withData found (desiredData tenant)).key = childKey req tenant :=
      (lookup_eq_some hfound).2
    refine ⟨gvk, hgvk, ?_, ?_, rfl⟩
    · show (w.store.replace _).lookup _ = _
      rw [lookup_replace, hk, hfound]
      simp [childAfter]
    · intro k hk'
      show (w.store.replace _).lookup _ = _
      rw [lookup_replace, hk]
      simp [hk']

/-- Whatever an iteration does, the parents are untouched, and a failed iteration
leaves the whole store untouched. -/
theorem TenantStep.store_of_err {scheme : Scheme} {owner : TenantInfo} {req : Request}
    {tenant : Tenant} {w w' : World} {e : Err}
    (h : TenantStep scheme owner req tenant w (some e) w') : w'.store = w.store := by
  cases h <;> rfl

/-- The children after an iteration: old ones, the freshly built child, or a
fetched child with its data overwritten. -/
theorem TenantStep.mem_after {scheme : Scheme} {owner : TenantInfo} {req : Request}
    {tenant : Tenant} {w w' : World} {r : Option Err}
    (h : TenantStep scheme owner req tenant w r w') {c : ConfigMap}
    (hc : c ∈ w'.store.configMaps) :
    c ∈ w.store.configMaps ∨
    (w.store.lookup (childKey req tenant) = none ∧
      ∃ gvk, scheme.tenantInfoKind = some gvk ∧ c = ownedConfigMap owner gvk req tenant) ∨
    (∃ found ∈ w.store.configMaps, found.key = childKey req tenant ∧
      c = withData found (desiredData tenant)) := by
  cases h with
  | refFailed e href => exact Or.inl hc
  | getFailed gvk e hgvk hnf => exact Or.inl hc
  | createFailed gvk e e' hgvk hnf => exact Or.inl hc
  | unchanged gvk found hgvk hfound hdata => exact Or.inl hc
  | updateFailed gvk found e hgvk hfound hdata => exact Or.inl hc
  | created gvk e hgvk hnf hnone =>
    rcases mem_add.1 hc with h | h
    · exact Or.inl h
    · exact Or.inr (Or.inl ⟨hnone, gvk, hgvk, h⟩)
  | updated gvk found hgvk hfound hdata =>
    rcases mem_replace.1 hc with ⟨h, _⟩ | ⟨h, _⟩
    · exact Or.inl h
    · exact Or.inr (Or.inr ⟨found, (lookup_eq_some hfound).1, (lookup_eq_some hfound).2, h⟩)

/-- An iteration never removes a child stored under another key. -/
theorem TenantStep.mem_before {scheme : Scheme} {owner : TenantInfo} {req : Request}
    {tenant : Tenant} {w w' : World} {r : Option Err}
    (h : TenantStep scheme owner req tenant w r w') {c : ConfigMap}
    (hc : c ∈ w.store.configMaps) (hk : c.key ≠ childKey req tenant) :
    c ∈ w'.store.configMaps := by
  cases h with
  | refFailed e href => exact hc
  | getFailed gvk e hgvk hnf => exact hc
  | createFailed gvk e e' hgvk hnf => exact hc
  | unchanged gvk found hgvk hfound hdata => exact hc
  | updateFailed gvk found e hgvk hfound hdata => exact hc
  | created gvk e hgvk hnf hnone => exact mem_add.2 (Or.inl hc)
  | updated gvk found hgvk hfound hdata =>
    refine mem_replace.2 (Or.inl ⟨hc, ?_⟩)
    rw [withData_key, (lookup_eq_some hfound).2]
    exact hk

/-! ## The loops -/

/-- Induction rule for the tenant loop.  `I done w` is an invariant of the world
after the entries `done` have been processed; `E pre e w` is what must hold when
the loop stops with error `e` in the last entry of the processed part `pre`. -/
theorem tenantLoop_rule (F : Faults) (scheme : Scheme) (owner : TenantInfo) (req : Request)
    (I : List Tenant → World → Prop) (E : List Tenant → Err → World → Prop)
    (hok : ∀ done t w w', I done w → TenantStep scheme owner req t w none w' →
      I (done ++ [t]) w')
    (herr : ∀ done t w e w', I done w → TenantStep scheme owner req t w (some e) w' →
      E (done ++ [t]) e w') :
    ∀ (ts done : List Tenant) (ids : List String) (w : World), I done w →
      ((tenantLoop F scheme owner req ts ids w).1 = none →
        I (done ++ ts) (tenantLoop F scheme owner req ts ids w).2.2) ∧
      (∀ e, (tenantLoop F scheme owner req ts ids w).1 = some e →
        ∃ pre, pre <+: done ++ ts ∧ E pre e (tenantLoop F scheme owner req ts ids w).2.2) := by
  intro ts
  induction ts with
  | nil =>
    intro done ids w hI
    simp only [tenantLoop, List.append_nil]
    exact ⟨fun _ => hI, fun e h => Option.noConfusion h⟩
  | cons t rest ih =>
    intro done ids w hI
    have hstep := reconcileTenant_step F scheme owner req t w
    unfold tenantLoop
    simp only
    cases hr : reconcileTenant F scheme owner req t w with
    | mk r w1 =>
      rw [hr] at hstep
      cases r with
      | some e =>
        simp only
        refine ⟨fun h => Option.noConfusion h, fun e' he' => ?_⟩
        have : e = e' := by injection he'
        subst this
        refine ⟨done ++ [t], ?_, herr done t w e w1 hI hstep⟩
        exact ⟨rest, by simp⟩
      | none =>
        simp only
        have := ih (done ++ [t]) (t.TenantID :: ids) w1 (hok done t w w1 hI hstep)
        simpa using this

/-- The identifiers recorded by a tenant loop that ran to the end. -/
theorem tenantLoop_ids (F : Faults) (scheme : Scheme) (owner : TenantInfo) (req : Request) :
    ∀ (ts : List Tenant) (ids : List String) (w : World),
      (tenantLoop F scheme owner req ts ids w).1 = none →
      ∀ id, id ∈ (tenantLoop F scheme owner req ts ids w).2.1 ↔
        id ∈ ids ∨ ∃ t ∈ ts, t.TenantID = id := by
  intro ts
  induction ts with
  | nil => intro ids w _ id; simp [tenantLoop]
  | cons t rest ih =>
    intro ids w h id
    unfold tenantLoop at h ⊢
    simp only at h ⊢
    cases hr : reconcileTenant F scheme owner req t w with
    | mk r w1 =>
      rw [hr] at h
      cases r with
      | some e => exact Option.noConfusion h
      | none =>
        simp only at h ⊢
        rw [ih _ _ h]
        simp only [List.mem_cons, exists_eq_or_imp]
        constructor
        · rintro ((h1 | h1) | h1)
          · exact Or.inr (Or.inl h1.symm)
          · exact Or.inl h1
          · exact Or.inr (Or.inr h1)
        · rintro (h1 | h1 | h1)
          · exact Or.inl (Or.inr h1)
          · exact Or.inl (Or.inl h1.symm)
          · exact Or.inr h1

/-- Induction rule for the deletion loop: an invariant kept by every `Delete` of
an orphan of the list is kept by the loop, and `E` holds when a delete fails. -/
theorem deleteLoop_rule (F : Faults) (ids : List String)
    (I : World → Prop) (E : Err → World → Prop) (l : List ConfigMap)
    (hok : ∀ cm w w', cm ∈ l → I w → isOrphan ids cm → Delete F cm w = (none, w') → I w')
    (herr : ∀ cm w e w', cm ∈ l → I w → isOrphan ids cm → Delete F cm w = (some e, w') →
      E e w') :
    ∀ (w : World), I w →
      ((deleteLoop F ids l w).1 = none → I (deleteLoop F ids l w).2) ∧
      (∀ e, (deleteLoop F ids l w).1 = some e → E e (deleteLoop F ids l w).2) := by
  induction l with
  | nil =>
    intro w hI
    simp only [deleteLoop]
    exact ⟨fun _ => hI, fun e h => Option.noConfusion h⟩
  | cons cm rest ih =>
    intro w hI
    have ih' := ih (fun cm w w' hm => hok cm w w' (List.mem_cons_of_mem _ hm))
      (fun cm w e w' hm => herr cm w e w' (List.mem_cons_of_mem _ hm))
    unfold deleteLoop
    by_cases ho : tenantIDOf cm.Name ∉ ids
    · simp only [ho, not_false_eq_true, if_true]
      cases hd : Delete F cm w with
      | mk r w1 =>
        cases r with
        | some e =>
          simp only
          refine ⟨fun h => Option.noConfusion h, fun e' he' => ?_⟩
          have : e = e' := by injection he'
          subst this
          exact herr cm w e w1 (List.mem_cons_self _ _) hI ho hd
        | none =>
          simp only
          exact ih' w1 (hok cm w w1 (List.mem_cons_self _ _) hI ho hd)
    · simp only [ho, if_false]
      exact ih' w hI

/-! ## The phases of `Reconcile` -/

theorem Reconcile_of_missing {F : Faults} {scheme : Scheme} {req : Request} {w : World}
    {e : Err} (hget : (GetTenantInfo F req.NamespacedName w).1 = .error e) :
    Reconcile F scheme req w =
      { result := {}, err := if IsNotFound e then none else some e,
        world := { w with trace := w.trace ++ [.getTenantInfo req.NamespacedName (.error e)] } } := by
  have hw := GetTenantInfo_world F req.NamespacedName w
  rw [hget] at hw
  have hpair : GetTenantInfo F req.NamespacedName w = (.error e, _) := Prod.ext hget hw
  unfold Reconcile
  rw [hpair]
  cases h : IsNotFound e <;> simp [h]

/-- After the parent has been fetched, `Reconcile` stops at the first failing
phase: the tenant loop, the list call, or the deletion loop. -/
theorem Reconcile_phases {F : Faults} (scheme : Scheme) {req : Request} {w : World}
    {parent : TenantInfo} (hget : (GetTenantInfo F req.NamespacedName w).1 = .ok parent) :
    ∃ r ids w2,
      tenantLoop F scheme parent req parent.Spec.Tenants []
        ⟨w.store, w.trace ++ [.getTenantInfo req.NamespacedName (.ok parent)]⟩ = (r, ids, w2) ∧
      ((∃ e, r = some e ∧ (Reconcile F scheme req w).err = some e ∧
          (Reconcile F scheme req w).world = w2) ∨
       (r = none ∧ ∃ e, (ListConfigMaps F req.Namespace w2).1 = .error e ∧
          (Reconcile F scheme req w).err = some e ∧
          (Reconcile F scheme req w).world =
            ⟨w2.store, w2.trace ++ [.list req.Namespace (.error e)]⟩) ∨
       (r = none ∧ ∃ items dr w4,
          (ListConfigMaps F req.Namespace w2).1 = .ok items ∧
          items = w2.store.configMaps.filter (InNamespace req.Namespace) ∧
          deleteLoop F ids (filterByOwner parent.UID items)
            ⟨w2.store, w2.trace ++ [.list req.Namespace (.ok items)]⟩ = (dr, w4) ∧
          (Reconcile F scheme req w).err = dr ∧ (Reconcile F scheme req w).world = w4)) := by
  have hw := GetTenantInfo_world F req.NamespacedName w
  rw [hget] at hw
  have hpair : GetTenantInfo F req.NamespacedName w = (.ok parent, _) := Prod.ext hget hw
  rcases hL : tenantLoop F scheme parent req parent.Spec.Tenants []
    ⟨w.store, w.trace ++ [.getTenantInfo req.NamespacedName (.ok parent)]⟩ with ⟨r, ids, w2⟩
  refine ⟨r, ids, w2, hL, ?_⟩
  obtain ⟨out, hout⟩ : ∃ out, out = Reconcile F scheme req w := ⟨_, rfl⟩
  rw [← hout]
  unfold Reconcile at hout
  rw [hpair] at hout
  simp only at hout
  rw [hL] at hout
  cases r with
  | some e =>
    left
    exact ⟨e, rfl, by rw [hout], by rw [hout]⟩
  | none =>
    right
    simp only at hout
    have hlw := ListConfigMaps_world F req.Namespace w2
    cases hli : (ListConfigMaps F req.Namespace w2).1 with
    | error e =>
      rw [hli] at hlw
      have hlp : ListConfigMaps F req.Namespace w2 = (.error e, _) := Prod.ext hli hlw
      rw [hlp] at hout
      left
      exact ⟨rfl, e, rfl, by rw [hout], by rw [hout]⟩
    | ok items =>
      rw [hli] at hlw
      have hlp : ListConfigMaps F req.Namespace w2 = (.ok items, _) := Prod.ext hli hlw
      rw [hlp] at hout
      simp only at hout
      right
      rcases hd : deleteLoop F ids (filterByOwner parent.UID items)
        ⟨w2.store, w2.trace ++ [.list req.Namespace (.ok items)]⟩ with ⟨dr, w4⟩
      rw [hd] at hout
      refine ⟨rfl, items, dr, w4, rfl, ListConfigMaps_ok hli, hd, ?_⟩
      cases dr <;> simp [hout]

/-- The phases of a run that starts with an empty trace. -/
theorem run_phases {F : Faults} (scheme : Scheme) {req : Request} {st : Store}
    {parent : TenantInfo}
    (hget : (GetTenantInfo F req.NamespacedName ⟨st, []⟩).1 = .ok parent) :
    ∃ r ids w2,
      tenantLoop F scheme parent req parent.Spec.Tenants []
        ⟨st, [.getTenantInfo req.NamespacedName (.ok parent)]⟩ = (r, ids, w2) ∧
      ((∃ e, r = some e ∧ (run F scheme req st).err = some e ∧
          (run F scheme req st).world = w2) ∨
       (r = none ∧ ∃ e, (ListConfigMaps F req.Namespace w2).1 = .error e ∧
          (run F scheme req st).err = some e ∧
          (run F scheme req st).world =
            ⟨w2.store, w2.trace ++ [.list req.Namespace (.error e)]⟩) ∨
       (r = none ∧ ∃ items dr w4,
          (ListConfigMaps F req.Namespace w2).1 = .ok items ∧
          items = w2.store.configMaps.filter (InNamespace req.Namespace) ∧
          deleteLoop F ids (filterByOwner parent.UID items)
            ⟨w2.store, w2.trace ++ [.list req.Namespace (.ok items)]⟩ = (dr, w4) ∧
          (run F scheme req st).err = dr ∧ (run F scheme req st).world = w4)) := by
  have := Reconcile_phases scheme hget
  simpa [run] using this

/-- The tenant loop rule for a loop whose result is known. -/
theorem tenantLoop_rule_eq (F : Faults) (scheme : Scheme) (owner : TenantInfo) (req : Request)
    (I : List Tenant → World → Prop) (E : List Tenant → Err → World → Prop)
    (hok : ∀ done t w w', I done w → TenantStep scheme owner req t w none w' →
      I (done ++ [t]) w')
    (herr : ∀ done t w e w', I done w → TenantStep scheme owner req t w (some e) w' →
      E (done ++ [t]) e w')
    {ts : List Tenant} {ids ids' : List String} {w w' : World} {r : Option Err}
    (hL : tenantLoop F scheme owner req ts ids w = (r, ids', w')) (hI : I [] w) :
    (r = none → I ts w') ∧ (∀ e, r = some e → ∃ pre, pre <+: ts ∧ E pre e w') := by
  have := tenantLoop_rule F scheme owner req I E hok herr ts [] ids w hI
  rw [hL] at this
  simpa using this

/-- The deletion loop rule for a loop whose result is known. -/
theorem deleteLoop_rule_eq (F : Faults) (ids : List String)
    (I : World → Prop) (E : Err → World → Prop) (l : List ConfigMap)
    (hok : ∀ cm w w', cm ∈ l → I w → isOrphan ids cm → Delete F cm w = (none, w') → I w')
    (herr : ∀ cm w e w', cm ∈ l → I w → isOrphan ids cm → Delete F cm w = (some e, w') →
      E e w')
    {w w' : World} {r : Option Err}
    (hD : deleteLoop F ids l w = (r, w')) (hI : I w) :
    (r = none → I w') ∧ (∀ e, r = some e → E e w') := by
  have := deleteLoop_rule F ids I E l hok herr w hI
  rw [hD] at this
  exact this

/-! ## Failing calls and replay of the trace -/

theorem replay_append (st : Store) (tr l : List Call) :
    replay st (tr ++ l) = l.foldl applyCall (replay st tr) := by
  simp [replay, List.foldl_append]

theorem Clean.append {tr l : List Call} (h : Clean tr) (hl : ∀ c ∈ l, c.failure = none) :
    Clean (tr ++ l) := by
  intro c hc
  rcases List.mem_append.1 hc with h' | h'
  · exact h c h'
  · exact hl c h'

theorem StoppedAt.snoc {e : Err} {tr : List Call} {c : Call} (h : Clean tr)
    (hc : c.failure = some e) : StoppedAt e (tr ++ [c]) :=
  Or.inr ⟨tr, c, rfl, h, hc⟩

/-- One iteration keeps the trace clean and the store equal to the replay of the
trace when it succeeds, and stops at its failing call otherwise. -/
theorem TenantStep.trace_inv {scheme : Scheme} {owner : TenantInfo} {req : Request}
    {tenant : Tenant} {w w' : World} {r : Option Err} {st : Store}
    (h : TenantStep scheme owner req tenant w r w')
    (hclean : Clean w.trace) (hst : w.store = replay st w.trace) :
    w'.store = replay st w'.trace ∧
    (r = none → Clean w'.trace) ∧ (∀ e, r = some e → StoppedAt e w'.trace) := by
  cases h with
  | refFailed e href =>
    exact ⟨hst, fun h => Option.noConfusion h, fun _ _ => Or.inl hclean⟩
  | getFailed gvk e hgvk hnf =>
    refine ⟨by simp [replay_append, applyCall, hst], fun h => Option.noConfusion h, ?_⟩
    intro e' he'
    have : e = e' := by injection he'
    subst this
    exact StoppedAt.snoc hclean (by simp [Call.failure, hnf])
  | createFailed gvk e e' hgvk hnf =>
    refine ⟨by simp [replay_append, applyCall, hst], fun h => Option.noConfusion h, ?_⟩
    intro e'' he''
    have : e' = e'' := by injection he''
    subst this
    have h1 : Clean (w.trace ++ [.getConfigMap (childKey req tenant) (.error e)]) :=
      hclean.append (by simp [Call.failure, hnf])
    have := StoppedAt.snoc (e := e')
      (c := .create (ownedConfigMap owner gvk req tenant) (some e')) h1 rfl
    simpa using this
  | created gvk e hgvk hnf hnone =>
    refine ⟨by simp [replay_append, applyCall, hst], fun _ => ?_, fun e h => Option.noConfusion h⟩
    exact hclean.append (by simp [Call.failure, hnf])
  | unchanged gvk found hgvk hfound hdata =>
    refine ⟨by simp [replay_append, applyCall, hst], fun _ => ?_, fun e h => Option.noConfusion h⟩
    exact hclean.append (by simp [Call.failure])
  | updateFailed gvk found e hgvk hfound hdata =>
    refine ⟨by simp [replay_append, applyCall, hst], fun h => Option.noConfusion h, ?_⟩
    intro e'' he''
    have : e = e'' := by injection he''
    subst this
    have h1 : Clean (w.trace ++ [.getConfigMap (childKey req tenant) (.ok found)]) :=
      hclean.append (by simp [Call.failure])
    have := StoppedAt.snoc (e := e)
      (c := .update (withData found (desiredData tenant)) (some e)) h1 rfl
    simpa using this
  | updated gvk found hgvk hfound hdata =>
    refine ⟨by simp [replay_append, applyCall, hst], fun _ => ?_, fun e h => Option.noConfusion h⟩
    exact hclean.append (by simp [Call.failure])

/-- A trace that stopped at its failing call has no failing call before the last
one, and the failing call returned the error reported. -/
theorem StoppedAt.last {e : Err} {tr : List Call} (h : StoppedAt e tr)
    (i : Nat) (hi : i < tr.length) (e' : Err) (hf : (tr.get ⟨i, hi⟩).failure = some e') :
    i + 1 = tr.length ∧ e = e' := by
  rcases h with h | ⟨tr', c, rfl, hclean, hc⟩
  · have := h _ (List.get_mem tr i hi)
    rw [this] at hf
    exact Option.noConfusion hf
  · by_cases hlt : i < tr'.length
    · have hget : (tr' ++ [c]).get ⟨i, hi⟩ = tr'.get ⟨i, hlt⟩ := by
        simp [List.getElem_append_left, hlt]
      rw [hget] at hf
      have := hclean _ (List.get_mem tr' i hlt)
      rw [this] at hf
      exact Option.noConfusion hf
    · have hlen : (tr' ++ [c]).length = tr'.length + 1 := by simp
      have hieq : i = tr'.length := by omega
      subst hieq
      have hget : (tr' ++ [c]).get ⟨tr'.length, hi⟩ = c := by simp
      rw [hget, hc] at hf
      injection hf with hf
      exact ⟨by simp, hf⟩

theorem Delete_trace_inv {F : Faults} {cm : ConfigMap} {w w' : World} {r : Option Err}
    {st : Store} (hd : Delete F cm w = (r, w'))
    (hclean : Clean w.trace) (hst : w.store = replay st w.trace) :
    w'.store = replay st w'.trace ∧
    (r = none → Clean w'.trace) ∧ (∀ e, r = some e → StoppedAt e w'.trace) := by
  rcases Delete_cases F cm w with ⟨e, he⟩ | ⟨_, _, hc⟩
  · rw [he] at hd
    injection hd with h1 h2
    subst h1
    subst h2
    refine ⟨by simp [replay_append, applyCall, hst], fun h => Option.noConfusion h, ?_⟩
    intro e' he'
    have : e = e' := by injection he'
    subst this
    exact StoppedAt.snoc hclean rfl
  · rw [hc] at hd
    injection hd with h1 h2
    subst h1
    subst h2
    refine ⟨by simp [replay_append, applyCall, hst], fun _ => ?_, fun e h => Option.noConfusion h⟩
    exact hclean.append (by simp [Call.failure])

/-- Every run of `Reconcile` leaves the store equal to the replay of its trace;
a successful run has no failing call, and a run that returns `e` either has no
failing call or stopped at its last call, which returned `e`. -/
theorem run_trace_inv (F : Faults) (scheme : Scheme) (req : Request) (st : Store) :
    (run F scheme req st).world.store = replay st (run F scheme req st).world.trace ∧
    ((run F scheme req st).err = none → Clean (run F scheme req st).world.trace) ∧
    (∀ e, (run F scheme req st).err = some e →
      StoppedAt e (run F scheme req st).world.trace) := by
  unfold run
  cases hget : (GetTenantInfo F req.NamespacedName ⟨st, []⟩).1 with
  | error e =>
    rw [Reconcile_of_missing hget]
    refine ⟨by simp [replay, applyCall], ?_, ?_⟩
    · intro h c hc
      cases hnf : IsNotFound e with
      | true =>
        simp only [List.nil_append, List.mem_singleton] at hc
        subst hc
        simp [Call.failure, hnf]
      | false => simp [hnf] at h
    · intro e' he'
      cases hnf : IsNotFound e with
      | true => simp [hnf] at he'
      | false =>
        simp only [hnf] at he'
        have : e = e' := by simpa using he'
        subst this
        exact StoppedAt.snoc (fun c hc => by simp at hc) (by simp [Call.failure, hnf])
  | ok parent =>
    have hI1 : Clean [Call.getTenantInfo req.NamespacedName (.ok parent)] ∧
        st = replay st [Call.getTenantInfo req.NamespacedName (.ok parent)] :=
      ⟨fun c hc => by
        simp only [List.mem_singleton] at hc
        subst hc
        rfl, by simp [replay, applyCall]⟩
    obtain ⟨r, ids, w2, hL, hcases⟩ := run_phases scheme hget
    have hloop := tenantLoop_rule_eq F scheme parent req
      (fun _ w => Clean w.trace ∧ w.store = replay st w.trace)
      (fun _ e w => StoppedAt e w.trace ∧ w.store = replay st w.trace)
      (fun done t w w' hI hs =>
        ⟨(hs.trace_inv hI.1 hI.2).2.1 rfl, (hs.trace_inv hI.1 hI.2).1⟩)
      (fun done t w e w' hI hs =>
        ⟨(hs.trace_inv hI.1 hI.2).2.2 e rfl, (hs.trace_inv hI.1 hI.2).1⟩)
      hL hI1
    show (run F scheme req st).world.store = replay st (run F scheme req st).world.trace ∧
      ((run F scheme req st).err = none → Clean (run F scheme req st).world.trace) ∧
      (∀ e, (run F scheme req st).err = some e →
        StoppedAt e (run F scheme req st).world.trace)
    rcases hcases with
      ⟨e, hr, herr, hworld⟩ | ⟨hr, e, hli, herr, hworld⟩ |
      ⟨hr, items, dr, w4, hli, hitems, hD, herr, hworld⟩
    · obtain ⟨_, _, hE⟩ := hloop.2 e hr
      rw [herr, hworld]
      refine ⟨hE.2, fun h => Option.noConfusion h, fun e' he' => ?_⟩
      have : e = e' := by injection he'
      subst this
      exact hE.1
    · have hI2 := hloop.1 hr
      rw [herr, hworld]
      refine ⟨by simp [replay_append, applyCall, ← hI2.2], fun h => Option.noConfusion h,
        fun e' he' => ?_⟩
      have : e = e' := by injection he'
      subst this
      exact StoppedAt.snoc hI2.1 rfl
    · have hI2 := hloop.1 hr
      have hI3 : Clean (w2.trace ++ [Call.list req.Namespace (.ok items)]) ∧
          w2.store = replay st (w2.trace ++ [Call.list req.Namespace (.ok items)]) :=
        ⟨hI2.1.append (by simp [Call.failure]), by simp [replay_append, applyCall, ← hI2.2]⟩
      have hdel := deleteLoop_rule_eq F ids
        (fun w => Clean w.trace ∧ w.store = replay st w.trace)
        (fun e w => StoppedAt e w.trace ∧ w.store = replay st w.trace)
        (filterByOwner parent.UID items)
        (fun cm w w' _ hI _ hd =>
          ⟨(Delete_trace_inv hd hI.1 hI.2).2.1 rfl, (Delete_trace_inv hd hI.1 hI.2).1⟩)
        (fun cm w e w' _ hI _ hd =>
          ⟨(Delete_trace_inv hd hI.1 hI.2).2.2 e rfl, (Delete_trace_inv hd hI.1 hI.2).1⟩)
        hD hI3
      rw [herr, hworld]
      refine ⟨?_, fun h => (hdel.1 h).1, fun e he => (hdel.2 e he).1⟩
      cases dr with
      | none => exact (hdel.1 rfl).2
      | some e => exact (hdel.2 e rfl).2

/-! ## Counting writes -/

/-- One iteration issues at most one create or update, and only for the child
of its own tenant identifier. -/
theorem TenantStep.writes_le {scheme : Scheme} {owner : TenantInfo} {req : Request}
    {tenant : Tenant} {w w' : World} {r : Option Err}
    (h : TenantStep scheme owner req tenant w r w') (id : String) :
    w'.trace.countP (Call.writesTo (cmName id)) ≤
      w.trace.countP (Call.writesTo (cmName id)) +
        [tenant].countP (fun t => decide (t.TenantID = id)) := by
  have hname : ∀ found : ConfigMap, w.store.lookup (childKey req tenant) = some found →
      found.Name = cmName tenant.TenantID := by
    intro found hf
    have := (lookup_eq_some hf).2
    exact congrArg NamespacedName.Name this
  have hdec : ∀ n : String, n = cmName tenant.TenantID →
      (if decide (n = cmName id) = true then 1 else 0) ≤
        [tenant].countP (fun t => decide (t.TenantID = id)) := by
    intro n hn
    subst hn
    by_cases hid : tenant.TenantID = id
    · simp [hid, List.countP_cons]
    · have : cmName tenant.TenantID ≠ cmName id := fun h => hid (cmName_injective h)
      simp [this]
  cases h with
  | refFailed e href => exact Nat.le_add_right _ _
  | getFailed gvk e hgvk hnf => simp [List.countP_append, List.countP_cons, Call.writesTo]
  | unchanged gvk found hgvk hfound hdata =>
    simp [List.countP_append, List.countP_cons, Call.writesTo]
  | createFailed gvk e e' hgvk hnf =>
    have := hdec (ownedConfigMap owner gvk req tenant).Name rfl
    simpa [List.countP_append, List.countP_cons, Call.writesTo] using this
  | created gvk e hgvk hnf hnone =>
    have := hdec (ownedConfigMap owner gvk req tenant).Name rfl
    simpa [List.countP_append, List.countP_cons, Call.writesTo] using this
  | updateFailed gvk found e hgvk hfound hdata =>
    have := hdec (withData found (desiredData tenant)).Name (hname found hfound)
    simpa [List.countP_append, List.countP_cons, Call.writesTo] using this
  | updated gvk found hgvk hfound hdata =>
    have := hdec (withData found (desiredData tenant)).Name (hname found hfound)
    simpa [List.countP_append, List.countP_cons, Call.writesTo] using this

theorem Delete_writes {F : Faults} {cm : ConfigMap} {w w' : World} {r : Option Err}
    (hd : Delete F cm w = (r, w')) (name : String) :
    w'.trace.countP (Call.writesTo name) = w.trace.countP (Call.writesTo name) := by
  rcases Delete_cases F cm w with ⟨e, he⟩ | ⟨_, _, hc⟩
  · rw [he] at hd
    injection hd with _ h2
    subst h2
    simp [List.countP_append, List.countP_cons, Call.writesTo]
  · rw [hc] at hd
    injection hd with _ h2
    subst h2
    simp [List.countP_append, List.countP_cons, Call.writesTo]

/-! ## Delete calls -/

theorem mem_filterByOwner {uid : UID} {items : List ConfigMap} {c : ConfigMap} :
    c ∈ filterByOwner uid items ↔ c ∈ items ∧ hasOwner uid c := by
  simp [filterByOwner, hasOwner]

theorem filterByOwner_eq (uid : UID) (items : List ConfigMap) :
    filterByOwner uid items = items.filter (fun cm => decide (hasOwner uid cm)) := by
  unfold filterByOwner
  apply List.filter_congr
  intro c _
  rw [Bool.eq_iff_iff]
  simp [hasOwner]

/-- The tenant loop issues neither list nor delete calls. -/
theorem TenantStep.no_list_delete {scheme : Scheme} {owner : TenantInfo} {req : Request}
    {tenant : Tenant} {w w' : World} {r : Option Err}
    (h : TenantStep scheme owner req tenant w r w') :
    deletedObjs w'.trace = deletedObjs w.trace ∧ listedItems w'.trace = listedItems w.trace := by
  cases h <;> simp [deletedObjs, listedItems, List.filterMap_append]

/-- A deletion loop that ran to the end issued one delete call for every orphan
of its list, in order, and nothing else. -/
theorem deleteLoop_trace_ok (F : Faults) (ids : List String) :
    ∀ (l : List ConfigMap) (w w' : World), deleteLoop F ids l w = (none, w') →
      w'.trace = w.trace ++
        (l.filter (fun cm => decide (isOrphan ids cm))).map (fun cm => Call.delete cm none) := by
  intro l
  induction l with
  | nil =>
    intro w w' h
    simp only [deleteLoop] at h
    injection h with _ h
    subst h
    simp
  | cons cm rest ih =>
    intro w w' h
    unfold deleteLoop at h
    by_cases ho : tenantIDOf cm.Name ∉ ids
    · simp only [ho, not_false_eq_true, if_true] at h
      rcases Delete_cases F cm w with ⟨e, he⟩ | ⟨_, _, hc⟩
      · rw [he] at h
        exact absurd (congrArg Prod.fst h) (by simp)
      · rw [hc] at h
        simp only at h
        rw [ih _ _ h]
        have : decide (isOrphan ids cm) = true := by simpa [isOrphan] using ho
        simp [List.filter_cons, this]
    · simp only [ho, if_false] at h
      rw [ih _ _ h]
      have : decide (isOrphan ids cm) = false := by simpa [isOrphan] using ho
      simp [List.filter_cons, this]

theorem deletedObjs_map_delete (l : List ConfigMap) :
    deletedObjs (l.map (fun cm => Call.delete cm none)) = l := by
  induction l with
  | nil => rfl
  | cons a l ih =>
    simp only [deletedObjs, List.map_cons, List.filterMap_cons] at ih ⊢
    rw [ih]

theorem listedItems_map_delete (l : List ConfigMap) :
    listedItems (l.map (fun cm => Call.delete cm none)) = [] := by
  induction l with
  | nil => rfl
  | cons a l ih =>
    simp only [listedItems, List.map_cons, List.filterMap_cons] at ih ⊢
    rw [ih]

/-! ## The store after a successful pass -/

theorem lastEntry_snoc (done : List Tenant) (t : Tenant) (id : String) :
    lastEntry (done ++ [t]) id = if t.TenantID = id then some t else lastEntry done id := by
  unfold lastEntry
  by_cases h : t.TenantID = id
  · simp [List.filter_append, List.filter_cons, h]
  · simp [List.filter_append, List.filter_cons, h]

theorem lastEntry_some {ts : List Tenant} {id : String} {t : Tenant}
    (h : lastEntry ts id = some t) : t ∈ ts ∧ t.TenantID = id := by
  unfold lastEntry at h
  have := List.mem_of_getLast?_eq_some h
  simpa using this

theorem lastEntry_none {ts : List Tenant} {id : String}
    (h : lastEntry ts id = none) : ∀ t ∈ ts, t.TenantID ≠ id := by
  unfold lastEntry at h
  rw [List.getLast?_eq_none_iff] at h
  intro t ht hid
  have : t ∈ ts.filter (fun t => decide (t.TenantID = id)) := by simp [ht, hid]
  rw [h] at this
  simp at this

theorem lastEntry_isSome {ts : List Tenant} {t : Tenant} (h : t ∈ ts) :
    ∃ t', lastEntry ts t.TenantID = some t' := by
  cases hl : lastEntry ts t.TenantID with
  | some t' => exact ⟨t', rfl⟩
  | none => exact absurd rfl (lastEntry_none hl t h)

theorem childKey_eq_iff {req : Request} {t : Tenant} {id : String} :
    childKey req t = ⟨req.Namespace, cmName id⟩ ↔ t.TenantID = id := by
  unfold childKey
  constructor
  · intro h
    injection h with _ h
    exact cmName_injective h
  · intro h
    rw [h]

theorem childAfter_childAfter (owner : TenantInfo) (gvk : GroupVersionKind) (req : Request)
    (t tp : Tenant) (before : Option ConfigMap) (h : tp.TenantID = t.TenantID) :
    childAfter owner gvk req t (some (childAfter owner gvk req tp before)) =
      childAfter owner gvk req t before := by
  cases before with
  | none => simp [childAfter, withData, ownedConfigMap, newConfigMap, h]
  | some found => rfl

theorem LoopInv.step {scheme : Scheme} {owner : TenantInfo} {req : Request} {st0 : Store}
    {done : List Tenant} {t : Tenant} {w w' : World}
    (hI : LoopInv scheme owner req st0 done w)
    (hs : TenantStep scheme owner req t w none w') :
    LoopInv scheme owner req st0 (done ++ [t]) w' := by
  obtain ⟨hA, hB, hC⟩ := hI
  obtain ⟨gvk, hgvk, hkey, hframe, hti⟩ := hs.lookup_of_ok
  refine ⟨?_, ?_, hti.trans hC⟩
  · intro k hk
    have hk1 : k ≠ childKey req t := hk t (by simp)
    rw [hframe k hk1]
    exact hA k (fun t' ht' => hk t' (by simp [ht']))
  · intro id t2 hlast
    rw [lastEntry_snoc] at hlast
    by_cases hid : t.TenantID = id
    · rw [if_pos hid] at hlast
      injection hlast with hlast
      subst hlast
      have hkeq : childKey req t = ⟨req.Namespace, cmName id⟩ := childKey_eq_iff.2 hid
      refine ⟨gvk, hgvk, ?_⟩
      rw [← hkeq, hkey]
      cases hprev : lastEntry done id with
      | none =>
        have hne : ∀ t' ∈ done, childKey req t ≠ childKey req t' := by
          intro t' ht' heq
          rw [hkeq] at heq
          exact lastEntry_none hprev t' ht' (childKey_eq_iff.1 heq.symm)
        rw [hA _ hne]
      | some tp =>
        obtain ⟨gvk', hgvk', hl⟩ := hB id tp hprev
        have hg : gvk' = gvk := by
          rw [hgvk] at hgvk'
          injection hgvk' with h
          exact h.symm
        subst hg
        rw [hkeq, hl, ← hkeq, childAfter_childAfter]
        exact (lastEntry_some hprev).2.trans hid.symm
    · rw [if_neg hid] at hlast
      obtain ⟨gvk', hgvk', hl⟩ := hB id t2 hlast
      refine ⟨gvk', hgvk', ?_⟩
      rw [hframe _ (fun h => hid (childKey_eq_iff.1 h.symm))]
      exact hl

theorem Delete_store {F : Faults} {cm : ConfigMap} {w w' : World} {r : Option Err}
    (hd : Delete F cm w = (r, w')) :
    w'.store = w.store ∨ (r = none ∧ w'.store = w.store.remove cm.key) := by
  rcases Delete_cases F cm w with ⟨e, he⟩ | ⟨_, _, hc⟩
  · rw [he] at hd
    injection hd with _ h2
    subst h2
    exact Or.inl rfl
  · rw [hc] at hd
    injection hd with h1 h2
    subst h2
    exact Or.inr ⟨h1.symm, rfl⟩

/-- The deletion loop leaves alone every key whose derived identifier is recorded,
and all parents. -/
theorem deleteLoop_lookup_kept {F : Faults} {ids : List String} {l : List ConfigMap}
    {w w' : World} {r : Option Err} (hD : deleteLoop F ids l w = (r, w')) :
    (∀ k : NamespacedName, tenantIDOf k.Name ∈ ids → w'.store.lookup k = w.store.lookup k) ∧
    w'.store.tenantInfos = w.store.tenantInfos := by
  have hstep : ∀ (cm : ConfigMap) (w1 w1' : World) (r1 : Option Err),
      ((∀ k : NamespacedName, tenantIDOf k.Name ∈ ids → w1.store.lookup k = w.store.lookup k) ∧
        w1.store.tenantInfos = w.store.tenantInfos) →
      isOrphan ids cm → Delete F cm w1 = (r1, w1') →
      ((∀ k : NamespacedName, tenantIDOf k.Name ∈ ids →
          w1'.store.lookup k = w.store.lookup k) ∧
        w1'.store.tenantInfos = w.store.tenantInfos) := by
    intro cm w1 w1' r1 hI ho hd
    rcases Delete_store hd with h | ⟨_, h⟩
    · rw [h]
      exact hI
    · rw [h]
      refine ⟨fun k hk => ?_, hI.2⟩
      rw [lookup_remove]
      have : k ≠ cm.key := by
        intro heq
        subst heq
        exact ho hk
      rw [if_neg this]
      exact hI.1 k hk
  have := deleteLoop_rule_eq F ids
    (fun w1 => (∀ k : NamespacedName, tenantIDOf k.Name ∈ ids →
        w1.store.lookup k = w.store.lookup k) ∧ w1.store.tenantInfos = w.store.tenantInfos)
    (fun _ w1 => (∀ k : NamespacedName, tenantIDOf k.Name ∈ ids →
        w1.store.lookup k = w.store.lookup k) ∧ w1.store.tenantInfos = w.store.tenantInfos)
    l
    (fun cm w1 w1' _ hI ho hd => hstep cm w1 w1' none hI ho hd)
    (fun cm w1 e w1' _ hI ho hd => hstep cm w1 w1' (some e) hI ho hd)
    hD ⟨fun _ _ => rfl, rfl⟩
  cases r with
  | none => exact this.1 rfl
  | some e => exact this.2 e rfl

/-- The parts of a pass that fetched the parent and succeeded. -/
theorem run_ok_parts {F : Faults} {scheme : Scheme} {req : Request} {st : Store}
    {parent : TenantInfo}
    (hget : (GetTenantInfo F req.NamespacedName ⟨st, []⟩).1 = .ok parent)
    (hok : (run F scheme req st).err = none) :
    ∃ ids w2 items,
      tenantLoop F scheme parent req parent.Spec.Tenants []
        ⟨st, [.getTenantInfo req.NamespacedName (.ok parent)]⟩ = (none, ids, w2) ∧
      (∀ id, id ∈ ids ↔ ∃ t ∈ parent.Spec.Tenants, t.TenantID = id) ∧
      items = w2.store.configMaps.filter (InNamespace req.Namespace) ∧
      (ListConfigMaps F req.Namespace w2).1 = .ok items ∧
      deleteLoop F ids (filterByOwner parent.UID items)
        ⟨w2.store, w2.trace ++ [.list req.Namespace (.ok items)]⟩ =
          (none, (run F scheme req st).world) := by
  obtain ⟨r, ids, w2, hL, hcases⟩ := run_phases scheme hget
  rcases hcases with
    ⟨e, _, herr, _⟩ | ⟨_, e, _, herr, _⟩ | ⟨hr, items, dr, w4, hli, hitems, hD, herr, hworld⟩
  · rw [herr] at hok
    exact Option.noConfusion hok
  · rw [herr] at hok
    exact Option.noConfusion hok
  · rw [herr] at hok
    subst hok
    subst hr
    have hids := tenantLoop_ids F scheme parent req parent.Spec.Tenants []
      ⟨st, [.getTenantInfo req.NamespacedName (.ok parent)]⟩ (by rw [hL])
    rw [hL] at hids
    refine ⟨ids, w2, items, hL, ?_, hitems, hli, ?_⟩
    · intro id
      rw [hids]
      simp
    · rw [hworld]
      exact hD

/-- After a pass that fetched the parent and succeeded, the key of every tenant
identifier of the spec holds `childAfter` of the last entry with that identifier,
computed from what the initial store held under that key. -/
theorem run_ok_child {F : Faults} {scheme : Scheme} {req : Request} {st : Store}
    {parent : TenantInfo}
    (hget : (GetTenantInfo F req.NamespacedName ⟨st, []⟩).1 = .ok parent)
    (hok : (run F scheme req st).err = none)
    {id : String} {t : Tenant} (hlast : lastEntry parent.Spec.Tenants id = some t) :
    ∃ gvk, scheme.tenantInfoKind = some gvk ∧
      (run F scheme req st).world.store.lookup ⟨req.Namespace, cmName id⟩ =
        some (childAfter parent gvk req t (st.lookup ⟨req.Namespace, cmName id⟩)) := by
  obtain ⟨ids, w2, items, hL, hids, _, _, hD⟩ := run_ok_parts hget hok
  have hloop := tenantLoop_rule_eq F scheme parent req
    (LoopInv scheme parent req st) (fun _ _ _ => True)
    (fun done t w w' hI hs => hI.step hs)
    (fun _ _ _ _ _ _ _ => trivial)
    hL ⟨fun _ _ => rfl, fun id t h => by simp [lastEntry] at h, rfl⟩
  obtain ⟨gvk, hgvk, hl⟩ := (hloop.1 rfl).2.1 id t hlast
  refine ⟨gvk, hgvk, ?_⟩
  have hmem : tenantIDOf (cmName id) ∈ ids := by
    rw [tenantIDOf_cmName, hids]
    exact ⟨t, lastEntry_some hlast⟩
  rw [(deleteLoop_lookup_kept hD).1 ⟨req.Namespace, cmName id⟩ hmem]
  exact hl

/-- The deletion loop only removes children. -/
theorem deleteLoop_mem {F : Faults} {ids : List String} {l : List ConfigMap}
    {w w' : World} {r : Option Err} (hD : deleteLoop F ids l w = (r, w')) :
    ∀ c ∈ w'.store.configMaps, c ∈ w.store.configMaps := by
  have hstep : ∀ (cm : ConfigMap) (w1 w1' : World) (r1 : Option Err),
      (∀ c ∈ w1.store.configMaps, c ∈ w.store.configMaps) →
      Delete F cm w1 = (r1, w1') → ∀ c ∈ w1'.store.configMaps, c ∈ w.store.configMaps := by
    intro cm w1 w1' r1 hI hd c hc
    rcases Delete_store hd with h | ⟨_, h⟩
    · rw [h] at hc
      exact hI c hc
    · rw [h] at hc
      exact hI c (mem_remove.1 hc).1
  have := deleteLoop_rule_eq F ids
    (fun w1 => ∀ c ∈ w1.store.configMaps, c ∈ w.store.configMaps)
    (fun _ w1 => ∀ c ∈ w1.store.configMaps, c ∈ w.store.configMaps)
    l
    (fun cm w1 w1' _ hI _ hd => hstep cm w1 w1' none hI hd)
    (fun cm w1 e w1' _ hI _ hd => hstep cm w1 w1' (some e) hI hd)
    hD (fun _ h => h)
  cases r with
  | none => exact this.1 rfl
  | some e => exact this.2 e rfl

/-- After a deletion loop that ran to the end, no child is stored under the key
of an orphan of the list. -/
theorem deleteLoop_orphans_gone (F : Faults) (ids : List String) :
    ∀ (l : List ConfigMap) (w w' : World), deleteLoop F ids l w = (none, w') →
      ∀ cm ∈ l, isOrphan ids cm → ∀ c ∈ w'.store.configMaps, c.key ≠ cm.key := by
  intro l
  induction l with
  | nil => intro w w' _ cm hcm; simp at hcm
  | cons a rest ih =>
    intro w w' h cm hcm ho c hc
    unfold deleteLoop at h
    by_cases hoa : tenantIDOf a.Name ∉ ids
    · simp only [hoa, not_false_eq_true, if_true] at h
      rcases Delete_cases F a w with ⟨e, he⟩ | ⟨_, _, hdel⟩
      · rw [he] at h
        exact absurd (congrArg Prod.fst h) (by simp)
      · rw [hdel] at h
        simp only at h
        rcases List.mem_cons.1 hcm with rfl | hrest
        · exact (mem_remove.1 (deleteLoop_mem h c hc)).2
        · exact ih _ _ h cm hrest ho c hc
    · simp only [hoa, if_false] at h
      rcases List.mem_cons.1 hcm with rfl | hrest
      · exact absurd ho hoa
      · exact ih _ _ h cm hrest ho c hc

/-- After a pass that fetched the parent and succeeded, every child that the
list call selects and that carries the parent's UID has a name whose derived
identifier is a tenant identifier of the spec. -/
theorem run_ok_no_orphan_listed {F : Faults} {scheme : Scheme} {req : Request} {st : Store}
    {parent : TenantInfo}
    (hget : (GetTenantInfo F req.NamespacedName ⟨st, []⟩).1 = .ok parent)
    (hok : (run F scheme req st).err = none)
    {c : ConfigMap} (hc : c ∈ (run F scheme req st).world.store.configMaps)
    (hns : InNamespace req.Namespace c = true) (hown : hasOwner parent.UID c) :
    ∃ t ∈ parent.Spec.Tenants, t.TenantID = tenantIDOf c.Name := by
  obtain ⟨ids, w2, items, hL, hids, hitems, _, hD⟩ := run_ok_parts hget hok
  have hc2 : c ∈ w2.store.configMaps := deleteLoop_mem hD c hc
  have hcl : c ∈ filterByOwner parent.UID items := by
    rw [mem_filterByOwner, hitems]
    exact ⟨List.mem_filter.2 ⟨hc2, hns⟩, hown⟩
  by_cases ho : isOrphan ids c
  · exact absurd rfl (deleteLoop_orphans_gone F ids _ _ _ hD c hcl ho c hc)
  · have : tenantIDOf c.Name ∈ ids := by
      unfold isOrphan at ho
      exact not_not.1 ho
    exact (hids _).1 this

/-- After a pass that fetched the parent and succeeded, every child of the
namespace that carries the parent's UID has a name whose derived identifier is a
tenant identifier of the spec. -/
theorem run_ok_no_orphan {F : Faults} {scheme : Scheme} {req : Request} {st : Store}
    {parent : TenantInfo}
    (hget : (GetTenantInfo F req.NamespacedName ⟨st, []⟩).1 = .ok parent)
    (hok : (run F scheme req st).err = none)
    {c : ConfigMap} (hc : c ∈ (run F scheme req st).world.store.configMaps)
    (hns : c.Namespace = req.Namespace) (hown : hasOwner parent.UID c) :
    ∃ t ∈ parent.Spec.Tenants, t.TenantID = tenantIDOf c.Name :=
  run_ok_no_orphan_listed hget hok hc (InNamespace_of_eq hns) hown

theorem mem_ownedNames {uid : UID} {ns : String} {st : Store} {n : String} :
    n ∈ ownedNames uid ns st ↔
      ∃ c ∈ st.configMaps, c.Namespace = ns ∧ hasOwner uid c ∧ c.Name = n := by
  simp [ownedNames, and_assoc]

/-! ## A pass over a store that already holds the desired children -/

theorem GetTenantInfo_noFaults {key : NamespacedName} {w : World} {parent : TenantInfo}
    (h : w.store.lookupTenantInfo key = some parent) :
    (GetTenantInfo noFaults key w).1 = .ok parent := by
  simp [GetTenantInfo, noFaults, h]

theorem GetConfigMap_noFaults {key : NamespacedName} {w : World} {found : ConfigMap}
    (h : w.store.lookup key = some found) :
    GetConfigMap noFaults key w =
      (.ok found, { w with trace := w.trace ++ [.getConfigMap key (.ok found)] }) := by
  simp [GetConfigMap, noFaults, h]

theorem ListConfigMaps_noFaults (ns : String) (w : World) :
    (ListConfigMaps noFaults ns w).1 =
      .ok (w.store.configMaps.filter (InNamespace ns)) := by
  simp [ListConfigMaps, noFaults]

/-- An iteration that finds the child with the desired data only fetches it. -/
theorem reconcileTenant_found_equal {F : Faults} {scheme : Scheme} {owner : TenantInfo}
    {req : Request} {tenant : Tenant} {w : World} {found cm : ConfigMap}
    (href : SetControllerReference owner (newConfigMap req tenant) scheme = .ok cm)
    (hget : (GetConfigMap F ⟨req.Namespace, cmName tenant.TenantID⟩ w).1 = .ok found)
    (hdata : found.Data = desiredData tenant) :
    reconcileTenant F scheme owner req tenant w =
      (none, { w with trace := w.trace ++
        [.getConfigMap ⟨req.Namespace, cmName tenant.TenantID⟩ (.ok found)] }) := by
  obtain ⟨gvk, hgvk, rfl⟩ := SetControllerReference_new_ok href
  have hw := GetConfigMap_world F ⟨req.Namespace, cmName tenant.TenantID⟩ w
  rw [hget] at hw
  have hpair : GetConfigMap F ⟨req.Namespace, cmName tenant.TenantID⟩ w = (.ok found, _) :=
    Prod.ext hget hw
  unfold reconcileTenant
  simp only
  rw [href]
  simp [newConfigMap, hpair, hdata]

/-- An iteration that finds the child with other data passes the fetched child,
with only its data replaced, to `Update`, and returns what `Update` returned. -/
theorem reconcileTenant_found_differs {F : Faults} {scheme : Scheme} {owner : TenantInfo}
    {req : Request} {tenant : Tenant} {w : World} {found cm : ConfigMap}
    (href : SetControllerReference owner (newConfigMap req tenant) scheme = .ok cm)
    (hget : (GetConfigMap F ⟨req.Namespace, cmName tenant.TenantID⟩ w).1 = .ok found)
    (hdata : found.Data ≠ desiredData tenant) :
    ∃ r, reconcileTenant F scheme owner req tenant w =
        (r, (reconcileTenant F scheme owner req tenant w).2) ∧
      (reconcileTenant F scheme owner req tenant w).2.trace =
        w.trace ++ [.getConfigMap ⟨req.Namespace, cmName tenant.TenantID⟩ (.ok found),
          .update (withData found (desiredData tenant)) r] := by
  obtain ⟨gvk, hgvk, rfl⟩ := SetControllerReference_new_ok href
  have hw := GetConfigMap_world F ⟨req.Namespace, cmName tenant.TenantID⟩ w
  rw [hget] at hw
  have hpair : GetConfigMap F ⟨req.Namespace, cmName tenant.TenantID⟩ w = (.ok found, _) :=
    Prod.ext hget hw
  unfold reconcileTenant
  simp only
  rw [href]
  simp only [newConfigMap, hpair, ne_eq, hdata, not_false_eq_true, if_true]
  rcases Update_cases F (withData found (desiredData tenant))
    { w with trace := w.trace ++
      [.getConfigMap ⟨req.Namespace, cmName tenant.TenantID⟩ (.ok found)] } with
    ⟨e', he'⟩ | ⟨_, _, hc⟩
  · simp only [withData] at he'
    simp only [he']
    exact ⟨some e', rfl, by simp [withData]⟩
  · simp only [withData] at hc
    simp only [hc]
    exact ⟨none, rfl, by simp [withData]⟩

/-- Over a store that holds, for every entry, a child with the desired data, the
tenant loop without faults runs to the end, issues no write and leaves the store
as it is. -/
theorem tenantLoop_stable (scheme : Scheme) (owner : TenantInfo) (req : Request) :
    ∀ (ts : List Tenant) (ids : List String) (w : World),
      (∀ t ∈ ts, ∃ cm, SetControllerReference owner (newConfigMap req t) scheme = .ok cm) →
      (∀ t ∈ ts, ∃ c, w.store.lookup (childKey req t) = some c ∧ c.Data = desiredData t) →
      ∃ ids' tr, tenantLoop noFaults scheme owner req ts ids w =
          (none, ids', ⟨w.store, w.trace ++ tr⟩) ∧
        ∀ c ∈ tr, c.isWrite = false := by
  intro ts
  induction ts with
  | nil =>
    intro ids w _ _
    exact ⟨ids, [], by simp [tenantLoop], by simp⟩
  | cons t rest ih =>
    intro ids w href hchild
    obtain ⟨cm, hcm⟩ := href t (List.mem_cons_self _ _)
    obtain ⟨c, hc, hdata⟩ := hchild t (List.mem_cons_self _ _)
    have hget := GetConfigMap_noFaults (w := w) hc
    have hstep := reconcileTenant_found_equal (F := noFaults) hcm
      (congrArg Prod.fst hget) hdata
    obtain ⟨ids', tr, hrest, htr⟩ := ih (t.TenantID :: ids)
      { w with trace := w.trace ++ [.getConfigMap (childKey req t) (.ok c)] }
      (fun t' ht' => href t' (List.mem_cons_of_mem _ ht'))
      (fun t' ht' => hchild t' (List.mem_cons_of_mem _ ht'))
    refine ⟨ids', .getConfigMap (childKey req t) (.ok c) :: tr, ?_, ?_⟩
    · unfold tenantLoop
      simp only [hstep]
      rw [show (⟨req.Namespace, cmName t.TenantID⟩ : NamespacedName) = childKey req t from rfl,
        hrest]
      simp
    · intro c' hc'
      rcases List.mem_cons.1 hc' with rfl | h
      · rfl
      · exact htr c' h

/-- A deletion loop over a list without orphans does nothing. -/
theorem deleteLoop_no_orphans (F : Faults) (ids : List String) :
    ∀ (l : List ConfigMap) (w : World), (∀ cm ∈ l, ¬ isOrphan ids cm) →
      deleteLoop F ids l w = (none, w) := by
  intro l
  induction l with
  | nil => intro w _; rfl
  | cons a rest ih =>
    intro w h
    unfold deleteLoop
    have ha : ¬ tenantIDOf a.Name ∉ ids := h a (List.mem_cons_self _ _)
    simp only [ha, if_false]
    exact ih w (fun cm hcm => h cm (List.mem_cons_of_mem _ hcm))

/-- A pass without faults over a store that holds, for every entry of the spec,
a child with the desired data: it reaches the deletion loop without a write and
with the store as it was. -/
theorem run_stable {scheme : Scheme} {req : Request} {st : Store} {parent : TenantInfo}
    (hparent : st.lookupTenantInfo req.NamespacedName = some parent)
    (href : ∀ t ∈ parent.Spec.Tenants,
      ∃ cm, SetControllerReference parent (newConfigMap req t) scheme = .ok cm)
    (hchild : ∀ t ∈ parent.Spec.Tenants,
      ∃ c, st.lookup (childKey req t) = some c ∧ c.Data = desiredData t) :
    ∃ ids tr, (∀ id, id ∈ ids ↔ ∃ t ∈ parent.Spec.Tenants, t.TenantID = id) ∧
      (∀ c ∈ tr, c.isWrite = false) ∧
      (run noFaults scheme req st).err =
        (deleteLoop noFaults ids (filterByOwner parent.UID
          (st.configMaps.filter (InNamespace req.Namespace)))
          ⟨st, tr⟩).1 ∧
      (run noFaults scheme req st).world =
        (deleteLoop noFaults ids (filterByOwner parent.UID
          (st.configMaps.filter (InNamespace req.Namespace)))
          ⟨st, tr⟩).2 := by
  have hget : (GetTenantInfo noFaults req.NamespacedName ⟨st, []⟩).1 = .ok parent :=
    GetTenantInfo_noFaults hparent
  obtain ⟨r, ids, w2, hL, hcases⟩ := run_phases scheme hget
  obtain ⟨ids', tr, hst, htr⟩ := tenantLoop_stable scheme parent req parent.Spec.Tenants []
    ⟨st, [.getTenantInfo req.NamespacedName (.ok parent)]⟩ href hchild
  simp only at hst
  rw [hst] at hL
  injection hL with hr hL
  injection hL with hids hw2
  subst hr
  subst hids
  subst hw2
  have hids := tenantLoop_ids noFaults scheme parent req parent.Spec.Tenants []
    ⟨st, [.getTenantInfo req.NamespacedName (.ok parent)]⟩ (by rw [hst])
  rw [hst] at hids
  rcases hcases with
    ⟨e, hr, _, _⟩ | ⟨_, e, hli, _, _⟩ | ⟨_, items, dr, w4, _, hitems, hD, herr, hworld⟩
  · exact Option.noConfusion hr
  · rw [ListConfigMaps_noFaults] at hli
    exact Res.noConfusion hli
  · subst hitems
    refine ⟨ids', ([.getTenantInfo req.NamespacedName (.ok parent)] ++ tr) ++
        [.list req.Namespace (.ok (st.configMaps.filter
          (InNamespace req.Namespace)))],
      fun id => by rw [hids]; simp, ?_, ?_, ?_⟩
    · intro c hc
      simp only [List.mem_append, List.mem_singleton] at hc
      rcases hc with (rfl | hc) | rfl
      · rfl
      · exact htr c hc
      · rfl
    · rw [herr]
      simp only at hD
      rw [hD]
    · rw [hworld]
      simp only at hD
      rw [hD]

/-- A pass that fetched the parent and succeeded leaves the parents untouched. -/
theorem run_ok_tenantInfos {F : Faults} {scheme : Scheme} {req : Request} {st : Store}
    {parent : TenantInfo}
    (hget : (GetTenantInfo F req.NamespacedName ⟨st, []⟩).1 = .ok parent)
    (hok : (run F scheme req st).err = none) :
    (run F scheme req st).world.store.tenantInfos = st.tenantInfos := by
  obtain ⟨ids, w2, items, hL, _, _, _, hD⟩ := run_ok_parts hget hok
  have hloop := tenantLoop_rule_eq F scheme parent req
    (LoopInv scheme parent req st) (fun _ _ _ => True)
    (fun done t w w' hI hs => hI.step hs)
    (fun _ _ _ _ _ _ _ => trivial)
    hL ⟨fun _ _ => rfl, fun id t h => by simp [lastEntry] at h, rfl⟩
  rw [(deleteLoop_lookup_kept hD).2]
  exact (hloop.1 rfl).2.2

theorem UrlsAgree.lastEntry {tenants : List Tenant} (h : UrlsAgree tenants) {t : Tenant}
    (ht : t ∈ tenants) : lastEntry tenants t.TenantID = some t := by
  obtain ⟨t', ht'⟩ := lastEntry_isSome ht
  have h1 := lastEntry_some ht'
  have hurl := h t' h1.1 t ht h1.2
  have : t' = t := by
    cases t
    cases t'
    simp only [Tenant.mk.injEq]
    exact ⟨h1.2, hurl⟩
  rw [ht', this]

/-- After a successful pass over a spec whose URLs agree, the store holds for
every entry a child with the desired data, the owner reference can be attached
for every entry, and no child of the namespace carrying the parent's UID is an
orphan. -/
theorem run_ok_stable {F : Faults} {scheme : Scheme} {req : Request} {st : Store}
    {parent : TenantInfo}
    (hget : (GetTenantInfo F req.NamespacedName ⟨st, []⟩).1 = .ok parent)
    (hok : (run F scheme req st).err = none)
    (hagree : UrlsAgree parent.Spec.Tenants) :
    (∀ t ∈ parent.Spec.Tenants,
      ∃ cm, SetControllerReference parent (newConfigMap req t) scheme = .ok cm) ∧
    (∀ t ∈ parent.Spec.Tenants, ∃ c,
      (run F scheme req st).world.store.lookup (childKey req t) = some c ∧
        c.Data = desiredData t) := by
  constructor
  · intro t ht
    obtain ⟨gvk, hgvk, _⟩ := run_ok_child hget hok (hagree.lastEntry ht)
    have hns : parent.Namespace = req.Namespace := (GetTenantInfo_ok hget).2.1
    have hs : scheme = ⟨some gvk⟩ := by
      cases scheme
      simp only at hgvk
      rw [hgvk]
    rw [hs]
    exact ⟨_, SetControllerReference_new parent req t gvk hns⟩
  · intro t ht
    obtain ⟨gvk, _, hl⟩ := run_ok_child hget hok (hagree.lastEntry ht)
    refine ⟨_, hl, ?_⟩
    cases st.lookup ⟨req.Namespace, cmName t.TenantID⟩ <;> rfl

/-! ## Stores with unique keys, and a change of the spec -/

theorem Store.WF.eq_of_key {st : Store} (h : st.WF) {c1 c2 : ConfigMap}
    (h1 : c1 ∈ st.configMaps) (h2 : c2 ∈ st.configMaps) (hk : c1.key = c2.key) : c1 = c2 :=
  List.inj_on_of_nodup_map h h1 h2 hk

theorem Store.WF.add {st : Store} (h : st.WF) {obj : ConfigMap}
    (hnone : st.lookup obj.key = none) : (st.add obj).WF := by
  unfold Store.WF Store.add at *
  rw [List.map_append, List.nodup_append]
  refine ⟨h, by simp, ?_⟩
  intro k hk hk'
  simp only [List.map_cons, List.map_nil, List.mem_singleton] at hk'
  subst hk'
  obtain ⟨c, hc, hkc⟩ := List.mem_map.1 hk
  exact lookup_eq_none_iff.1 hnone c hc hkc

theorem Store.WF.replace {st : Store} (h : st.WF) (obj : ConfigMap) : (st.replace obj).WF := by
  unfold Store.WF Store.replace at *
  have : (st.configMaps.map (fun cm => if hasKey obj.key cm then obj else cm)).map
      ConfigMap.key = st.configMaps.map ConfigMap.key := by
    rw [List.map_map]
    apply List.map_congr_left
    intro c _
    by_cases hk : hasKey obj.key c = true
    · simp [hk, (hasKey_iff _ _).1 hk]
    · simp [hk]
  rw [this]
  exact h

theorem Store.WF.remove {st : Store} (h : st.WF) (k : NamespacedName) : (st.remove k).WF := by
  unfold Store.WF Store.remove at *
  exact h.sublist ((List.filter_sublist _).map _)

theorem TenantStep.wf {scheme : Scheme} {owner : TenantInfo} {req : Request}
    {tenant : Tenant} {w w' : World} {r : Option Err}
    (h : TenantStep scheme owner req tenant w r w') (hwf : w.store.WF) : w'.store.WF := by
  cases h with
  | refFailed e href => exact hwf
  | getFailed gvk e hgvk hnf => exact hwf
  | createFailed gvk e e' hgvk hnf => exact hwf
  | unchanged gvk found hgvk hfound hdata => exact hwf
  | updateFailed gvk found e hgvk hfound hdata => exact hwf
  | created gvk e hgvk hnf hnone => exact hwf.add hnone
  | updated gvk found hgvk hfound hdata => exact hwf.replace _

/-- A pass that fetched the parent and succeeded keeps the keys of the store unique. -/
theorem run_ok_wf {F : Faults} {scheme : Scheme} {req : Request} {st : Store}
    {parent : TenantInfo}
    (hget : (GetTenantInfo F req.NamespacedName ⟨st, []⟩).1 = .ok parent)
    (hok : (run F scheme req st).err = none) (hwf : st.WF) :
    (run F scheme req st).world.store.WF := by
  obtain ⟨ids, w2, items, hL, _, _, _, hD⟩ := run_ok_parts hget hok
  have hloop := tenantLoop_rule_eq F scheme parent req
    (fun _ w => w.store.WF) (fun _ _ _ => True)
    (fun done t w w' hI hs => hs.wf hI)
    (fun _ _ _ _ _ _ _ => trivial)
    hL hwf
  have hdel := deleteLoop_rule_eq F ids
    (fun w => w.store.WF) (fun _ _ => True) _
    (fun cm w w' _ hI _ hd => by
      rcases Delete_store hd with h | ⟨_, h⟩
      · rw [h]; exact hI
      · rw [h]; exact Store.WF.remove hI _)
    (fun _ _ _ _ _ _ _ _ => trivial)
    hD (hloop.1 rfl)
  exact hdel.1 rfl

theorem lookupTenantInfo_setTenants (st : Store) (key : NamespacedName)
    (tenants : List Tenant) :
    (st.setTenants key tenants).lookupTenantInfo key =
      (st.lookupTenantInfo key).map (fun p => { p with Spec := ⟨tenants⟩ }) := by
  unfold Store.lookupTenantInfo Store.setTenants
  simp only
  induction st.tenantInfos with
  | nil => rfl
  | cons p rest ih =>
    by_cases hp : p.Namespace = key.Namespace ∧ p.Name = key.Name
    · simp [List.find?_cons, hp]
    · simp only [List.map_cons, List.find?_cons, hp, if_false, decide_False]
      exact ih

theorem Delete_noFaults {obj c : ConfigMap} {w : World}
    (h : w.store.lookup obj.key = some c) :
    Delete noFaults obj w =
      (none, ⟨w.store.remove obj.key, w.trace ++ [.delete obj none]⟩) := by
  simp [Delete, noFaults, h]

/-- A deletion loop without faults over a duplicate-free list whose only orphan
is the stored child `child` deletes that child and nothing else. -/
theorem deleteLoop_single (ids : List String) (child : ConfigMap) :
    ∀ (l : List ConfigMap) (w : World), child ∈ l → l.Nodup → isOrphan ids child →
      (∀ cm ∈ l, isOrphan ids cm → cm = child) →
      (∃ c, w.store.lookup child.key = some c) →
      deleteLoop noFaults ids l w =
        (none, ⟨w.store.remove child.key, w.trace ++ [.delete child none]⟩) := by
  intro l
  induction l with
  | nil => intro w h; simp at h
  | cons a rest ih =>
    intro w hmem hnd ho honly hlook
    rw [List.nodup_cons] at hnd
    by_cases ha : a = child
    · subst ha
      obtain ⟨c, hc⟩ := hlook
      unfold deleteLoop
      have ho' : tenantIDOf a.Name ∉ ids := ho
      simp only [ho', not_false_eq_true, if_true, Delete_noFaults hc]
      apply deleteLoop_no_orphans
      intro cm hcm hocm
      have := honly cm (List.mem_cons_of_mem _ hcm) hocm
      subst this
      exact hnd.1 hcm
    · have hna : ¬ isOrphan ids a := fun h => ha (honly a (List.mem_cons_self _ _) h)
      have hna' : ¬ tenantIDOf a.Name ∉ ids := hna
      unfold deleteLoop
      simp only [hna', if_false]
      rcases List.mem_cons.1 hmem with h | h
      · exact absurd h.symm ha
      · exact ih w h hnd.2 ho (fun cm hcm => honly cm (List.mem_cons_of_mem _ hcm)) hlook

/-! ## Registration with the manager -/

/-- A successful `SetupWithManager` added exactly one index, the one built from
the literal arguments of the `IndexField` call. -/
theorem SetupWithManager_ok {mgr mgr' : Manager} (h : SetupWithManager mgr = (none, mgr')) :
    mgr'.indexes =
      mgr.indexes ++ [⟨"ConfigMap", "metadata.ownerReferences.uid", ownerUIDExtractor⟩] := by
  unfold SetupWithManager IndexField at h
  split at h
  · rename_i err mgr1 heq
    exact absurd (congrArg Prod.fst h) (by simp)
  · rename_i mgr1 heq
    split at heq
    · exact absurd (congrArg Prod.fst heq) (by simp)
    · injection heq with _ hm
      subst hm
      unfold Complete at h
      split at h
      · exact absurd (congrArg Prod.fst h) (by simp)
      · injection h with _ hm
        subst hm
        rfl

/-! ## The calls of a pass -/

theorem LoopCall.mono {scheme : Scheme} {owner : TenantInfo} {req : Request}
    {ts ts' : List Tenant} {c : Call} (h : LoopCall scheme owner req ts c)
    (hsub : ∀ t ∈ ts, t ∈ ts') : LoopCall scheme owner req ts' c := by
  rcases h with ⟨t, ht, h⟩ | ⟨t, ht, h⟩ | ⟨t, ht, h⟩
  · exact Or.inl ⟨t, hsub t ht, h⟩
  · exact Or.inr (Or.inl ⟨t, hsub t ht, h⟩)
  · exact Or.inr (Or.inr ⟨t, hsub t ht, h⟩)

/-- The calls one iteration adds to the trace are loop calls for its entry. -/
theorem TenantStep.calls {scheme : Scheme} {owner : TenantInfo} {req : Request}
    {tenant : Tenant} {w w' : World} {r : Option Err}
    (h : TenantStep scheme owner req tenant w r w') :
    ∀ c ∈ w'.trace, c ∈ w.trace ∨ LoopCall scheme owner req [tenant] c := by
  intro c hc
  cases h with
  | refFailed e href => exact Or.inl hc
  | getFailed gvk e hgvk hnf =>
    rcases List.mem_append.1 hc with h | h
    · exact Or.inl h
    · simp only [List.mem_singleton] at h
      exact Or.inr (Or.inl ⟨tenant, by simp, _, h⟩)
  | unchanged gvk found hgvk hfound hdata =>
    rcases List.mem_append.1 hc with h | h
    · exact Or.inl h
    · simp only [List.mem_singleton] at h
      exact Or.inr (Or.inl ⟨tenant, by simp, _, h⟩)
  | createFailed gvk e e' hgvk hnf =>
    rcases List.mem_append.1 hc with h | h
    · exact Or.inl h
    · simp only [List.mem_cons, List.mem_singleton, List.not_mem_nil, or_false] at h
      rcases h with h | h
      · exact Or.inr (Or.inl ⟨tenant, by simp, _, h⟩)
      · exact Or.inr (Or.inr (Or.inl ⟨tenant, by simp, gvk, _, hgvk, h⟩))
  | created gvk e hgvk hnf hnone =>
    rcases List.mem_append.1 hc with h | h
    · exact Or.inl h
    · simp only [List.mem_cons, List.mem_singleton, List.not_mem_nil, or_false] at h
      rcases h with h | h
      · exact Or.inr (Or.inl ⟨tenant, by simp, _, h⟩)
      · exact Or.inr (Or.inr (Or.inl ⟨tenant, by simp, gvk, _, hgvk, h⟩))
  | updateFailed gvk found e hgvk hfound hdata =>
    rcases List.mem_append.1 hc with h | h
    · exact Or.inl h
    · simp only [List.mem_cons, List.mem_singleton, List.not_mem_nil, or_false] at h
      rcases h with h | h
      · exact Or.inr (Or.inl ⟨tenant, by simp, _, h⟩)
      · exact Or.inr (Or.inr (Or.inr
          ⟨tenant, by simp, found, _, (lookup_eq_some hfound).2, hdata, h⟩))
  | updated gvk found hgvk hfound hdata =>
    rcases List.mem_append.1 hc with h | h
    · exact Or.inl h
    · simp only [List.mem_cons, List.mem_singleton, List.not_mem_nil, or_false] at h
      rcases h with h | h
      · exact Or.inr (Or.inl ⟨tenant, by simp, _, h⟩)
      · exact Or.inr (Or.inr (Or.inr
          ⟨tenant, by simp, found, _, (lookup_eq_some hfound).2, hdata, h⟩))

theorem Delete_trace {F : Faults} {cm : ConfigMap} {w w' : World} {r : Option Err}
    (hd : Delete F cm w = (r, w')) : w'.trace = w.trace ++ [.delete cm r] := by
  rcases Delete_cases F cm w with ⟨e, he⟩ | ⟨_, _, hc⟩
  · rw [he] at hd
    injection hd with h1 h2
    subst h1
    subst h2
    rfl
  · rw [hc] at hd
    injection hd with h1 h2
    subst h1
    subst h2
    rfl

/-- Every call of a pass that fetched the parent is one of the calls listed by
`RunCall`, whatever the fault schedule and whether the pass succeeds or aborts. -/
theorem run_calls {F : Faults} {scheme : Scheme} {req : Request} {st : Store}
    {parent : TenantInfo}
    (hget : (GetTenantInfo F req.NamespacedName ⟨st, []⟩).1 = .ok parent) :
    ∀ c ∈ (run F scheme req st).world.trace, RunCall scheme parent req c := by
  obtain ⟨r, ids, w2, hL, hcases⟩ := run_phases scheme hget
  have hstep : ∀ (done : List Tenant) (t : Tenant) (w w' : World) (r : Option Err),
      (∀ c ∈ w.trace, c = .getTenantInfo req.NamespacedName (.ok parent) ∨
        LoopCall scheme parent req done c) →
      TenantStep scheme parent req t w r w' →
      ∀ c ∈ w'.trace, c = .getTenantInfo req.NamespacedName (.ok parent) ∨
        LoopCall scheme parent req (done ++ [t]) c := by
    intro done t w w' r hI hs c hc
    rcases hs.calls c hc with h | h
    · rcases hI c h with h' | h'
      · exact Or.inl h'
      · exact Or.inr (h'.mono (fun t ht => by simp [ht]))
    · exact Or.inr (h.mono (fun t ht => by simp at ht; simp [ht]))
  have hloop := tenantLoop_rule_eq F scheme parent req
    (fun done w => ∀ c ∈ w.trace, c = .getTenantInfo req.NamespacedName (.ok parent) ∨
      LoopCall scheme parent req done c)
    (fun done _ w => ∀ c ∈ w.trace, c = .getTenantInfo req.NamespacedName (.ok parent) ∨
      LoopCall scheme parent req done c)
    (fun done t w w' hI hs => hstep done t w w' none hI hs)
    (fun done t w e w' hI hs => hstep done t w w' (some e) hI hs)
    hL (by intro c hc; simp only [List.mem_singleton] at hc; exact Or.inl hc)
  have hw2 : ∀ c ∈ w2.trace, RunCall scheme parent req c := by
    intro c hc
    cases r with
    | none =>
      rcases hloop.1 rfl c hc with h | h
      · exact Or.inl h
      · exact Or.inr (Or.inl h)
    | some e =>
      obtain ⟨pre, hpre, hE⟩ := hloop.2 e rfl
      rcases hE c hc with h | h
      · exact Or.inl h
      · exact Or.inr (Or.inl (h.mono (fun t ht => hpre.subset ht)))
  rcases hcases with
    ⟨e, _, _, hworld⟩ | ⟨_, e, _, _, hworld⟩ | ⟨hr, items, dr, w4, _, hitems, hD, _, hworld⟩
  · rw [hworld]
    exact hw2
  · rw [hworld]
    intro c hc
    rcases List.mem_append.1 hc with h | h
    · exact hw2 c h
    · simp only [List.mem_singleton] at h
      exact Or.inr (Or.inr (Or.inl ⟨_, h⟩))
  · subst hr
    have hids := tenantLoop_ids F scheme parent req parent.Spec.Tenants []
      ⟨st, [.getTenantInfo req.NamespacedName (.ok parent)]⟩ (by rw [hL])
    rw [hL] at hids
    have hw3 : ∀ c ∈ w2.trace ++ [Call.list req.Namespace (.ok items)],
        RunCall scheme parent req c := by
      intro c hc
      rcases List.mem_append.1 hc with h | h
      · exact hw2 c h
      · simp only [List.mem_singleton] at h
        exact Or.inr (Or.inr (Or.inl ⟨_, h⟩))
    have hdstep : ∀ (cm : ConfigMap) (w w' : World) (r : Option Err),
        cm ∈ filterByOwner parent.UID items →
        (∀ c ∈ w.trace, RunCall scheme parent req c) → isOrphan ids cm →
        Delete F cm w = (r, w') → ∀ c ∈ w'.trace, RunCall scheme parent req c := by
      intro cm w w' r hcm hI ho hd c hc
      rw [Delete_trace hd] at hc
      rcases List.mem_append.1 hc with h | h
      · exact hI c h
      · simp only [List.mem_singleton] at h
        rw [mem_filterByOwner, hitems, List.mem_filter] at hcm
        refine Or.inr (Or.inr (Or.inr ⟨cm, r, hcm.1.2, hcm.2, ?_, h⟩))
        intro t ht hid
        apply ho
        rw [hids]
        exact Or.inr ⟨t, ht, hid⟩
    have hdel := deleteLoop_rule_eq F ids
      (fun w => ∀ c ∈ w.trace, RunCall scheme parent req c)
      (fun _ w => ∀ c ∈ w.trace, RunCall scheme parent req c)
      (filterByOwner parent.UID items)
      (fun cm w w' hcm hI ho hd => hdstep cm w w' none hcm hI ho hd)
      (fun cm w e w' hcm hI ho hd => hdstep cm w w' (some e) hcm hI ho hd)
      hD hw3
    rw [hworld]
    cases dr with
    | none => exact hdel.1 rfl
    | some e => exact hdel.2 e rfl

theorem mem_deletedObjs {tr : List Call} {obj : ConfigMap} :
    obj ∈ deletedObjs tr ↔ ∃ r, Call.delete obj r ∈ tr := by
  unfold deletedObjs
  rw [List.mem_filterMap]
  constructor
  · rintro ⟨c, hc, h⟩
    cases c <;> simp at h
    subst h
    exact ⟨_, hc⟩
  · rintro ⟨r, h⟩
    exact ⟨_, h, rfl⟩

/-- Every object a pass passes to `Delete` is a child selected by the list call
that carries the parent's UID and whose derived identifier is not in the spec. -/
theorem run_deleted {F : Faults} {scheme : Scheme} {req : Request} {st : Store}
    {parent : TenantInfo}
    (hget : (GetTenantInfo F req.NamespacedName ⟨st, []⟩).1 = .ok parent)
    {obj : ConfigMap} (hobj : obj ∈ deletedObjs (run F scheme req st).world.trace) :
    InNamespace req.Namespace obj = true ∧ hasOwner parent.UID obj ∧
      ∀ t ∈ parent.Spec.Tenants, t.TenantID ≠ tenantIDOf obj.Name := by
  obtain ⟨r, hr⟩ := mem_deletedObjs.1 hobj
  rcases run_calls hget _ hr with h | h | h | h
  · exact Call.noConfusion h
  · rcases h with ⟨_, _, _, h⟩ | ⟨_, _, _, _, _, h⟩ | ⟨_, _, _, _, _, _, h⟩ <;>
      exact Call.noConfusion h
  · obtain ⟨_, h⟩ := h
    exact Call.noConfusion h
  · obtain ⟨cm, r', hns, hown, hid, h⟩ := h
    injection h with h1 _
    subst h1
    exact ⟨hns, hown, hid⟩

/-- An iteration whose child fetch answers not-found passes the freshly built
child, owner reference attached, to `Create`, and returns what `Create` returned. -/
theorem reconcileTenant_not_found {F : Faults} {scheme : Scheme} {owner : TenantInfo}
    {req : Request} {tenant : Tenant} {w : World} {cm : ConfigMap} {e : Err}
    (href : SetControllerReference owner (newConfigMap req tenant) scheme = .ok cm)
    (hget : (GetConfigMap F ⟨req.Namespace, cmName tenant.TenantID⟩ w).1 = .error e)
    (hnf : IsNotFound e = true) :
    ∃ r gvk, scheme.tenantInfoKind = some gvk ∧
      (reconcileTenant F scheme owner req tenant w).1 = r ∧
      (reconcileTenant F scheme owner req tenant w).2.trace =
        w.trace ++ [.getConfigMap ⟨req.Namespace, cmName tenant.TenantID⟩ (.error e),
          .create (ownedConfigMap owner gvk req tenant) r] := by
  obtain ⟨gvk, hgvk, rfl⟩ := SetControllerReference_new_ok href
  have hw := GetConfigMap_world F ⟨req.Namespace, cmName tenant.TenantID⟩ w
  rw [hget] at hw
  have hpair : GetConfigMap F ⟨req.Namespace, cmName tenant.TenantID⟩ w = (.error e, _) :=
    Prod.ext hget hw
  unfold reconcileTenant
  simp only
  rw [href]
  simp only [newConfigMap, hpair, hnf, if_true]
  rcases Create_cases F (ownedConfigMap owner gvk req tenant)
    { w with trace := w.trace ++
      [.getConfigMap ⟨req.Namespace, cmName tenant.TenantID⟩ (.error e)] } with
    ⟨e', he'⟩ | ⟨_, _, hc⟩
  · simp only [ownedConfigMap, newConfigMap] at he'
    simp only [he']
    exact ⟨some e', gvk, hgvk, rfl, by simp [ownedConfigMap, newConfigMap]⟩
  · simp only [ownedConfigMap, newConfigMap] at hc
    simp only [hc]
    exact ⟨none, gvk, hgvk, rfl, by simp [ownedConfigMap, newConfigMap]⟩

/-- Whether the owner reference can be attached to the freshly built child does
not depend on the tenant entry. -/
theorem SetControllerReference_new_error {owner : TenantInfo} {req : Request}
    {scheme : Scheme} {t : Tenant} {e : Err}
    (h : SetControllerReference owner (newConfigMap req t) scheme = .error e) (t' : Tenant) :
    SetControllerReference owner (newConfigMap req t') scheme = .error e := by
  unfold SetControllerReference at h ⊢
  simp only [newConfigMap, List.find?_nil] at h ⊢
  split at h
  · rename_i h1
    rw [if_pos h1]
    exact h
  · rename_i h1
    rw [if_neg h1]
    split at h
    · rename_i h2
      rw [if_pos h2]
      exact h
    · rename_i h2
      rw [if_neg h2]
      cases hk : scheme.tenantInfoKind with
      | none =>
        rw [hk] at h
        exact h
      | some gvk =>
        rw [hk] at h
        exact Res.noConfusion h

/-- An iteration in which the owner reference cannot be attached returns the
error and issues no call. -/
theorem reconcileTenant_ref_error {F : Faults} {scheme : Scheme} {owner : TenantInfo}
    {req : Request} {tenant : Tenant} {w : World} {e : Err}
    (href : SetControllerReference owner (newConfigMap req tenant) scheme = .error e) :
    reconcileTenant F scheme owner req tenant w = (some e, w) := by
  unfold reconcileTenant
  simp only
  rw [href]

/-! ## The write frame -/

/-- An iteration keeps a child under every occupied key, with the owner
references it had. -/
theorem TenantStep.kept_refs {scheme : Scheme} {owner : TenantInfo} {req : Request}
    {tenant : Tenant} {w w' : World} {r : Option Err}
    (h : TenantStep scheme owner req tenant w r w') (hwf : w.store.WF)
    {c : ConfigMap} (hc : c ∈ w.store.configMaps) :
    ∃ c' ∈ w'.store.configMaps, c'.key = c.key ∧ c'.OwnerReferences = c.OwnerReferences := by
  cases h with
  | refFailed e href => exact ⟨c, hc, rfl, rfl⟩
  | getFailed gvk e hgvk hnf => exact ⟨c, hc, rfl, rfl⟩
  | createFailed gvk e e' hgvk hnf => exact ⟨c, hc, rfl, rfl⟩
  | unchanged gvk found hgvk hfound hdata => exact ⟨c, hc, rfl, rfl⟩
  | updateFailed gvk found e hgvk hfound hdata => exact ⟨c, hc, rfl, rfl⟩
  | created gvk e hgvk hnf hnone => exact ⟨c, mem_add.2 (Or.inl hc), rfl, rfl⟩
  | updated gvk found hgvk hfound hdata =>
    have hf := lookup_eq_some hfound
    by_cases hk : c.key = childKey req tenant
    · have hcf : c = found := hwf.eq_of_key hc hf.1 (hk.trans hf.2.symm)
      subst hcf
      exact ⟨withData c (desiredData tenant),
        mem_replace.2 (Or.inr ⟨rfl, c, hc, rfl⟩), rfl, rfl⟩
    · refine ⟨c, mem_replace.2 (Or.inl ⟨hc, ?_⟩), rfl, rfl⟩
      rw [withData_key, hf.2]
      exact hk

/-- An iteration adds no child outside the request's namespace. -/
theorem TenantStep.mem_after_ns {scheme : Scheme} {owner : TenantInfo} {req : Request}
    {tenant : Tenant} {w w' : World} {r : Option Err}
    (h : TenantStep scheme owner req tenant w r w') {c : ConfigMap}
    (hc : c ∈ w'.store.configMaps) (hns : c.Namespace ≠ req.Namespace) :
    c ∈ w.store.configMaps := by
  rcases h.mem_after hc with h1 | ⟨_, gvk, _, rfl⟩ | ⟨found, _, hk, rfl⟩
  · exact h1
  · exact absurd rfl hns
  · exact absurd (congrArg NamespacedName.Namespace hk) hns

theorem ne_childKey_of_ns {req : Request} {t : Tenant} {c : ConfigMap}
    (hns : c.Namespace ≠ req.Namespace) : c.key ≠ childKey req t :=
  fun h => hns (congrArg NamespacedName.Namespace h)

theorem ne_childKey_of_name {req : Request} {t : Tenant} {c : ConfigMap}
    (hname : c.Name ≠ cmName t.TenantID) : c.key ≠ childKey req t :=
  fun h => hname (congrArg NamespacedName.Name h)

theorem FrameInv.tenantStep {st : Store} {scheme : Scheme} {owner : TenantInfo} {req : Request}
    {done : List Tenant} {t : Tenant} {w w' : World} {r : Option Err}
    (hI : FrameInv st owner.UID req.Namespace done w)
    (hs : TenantStep scheme owner req t w r w') :
    FrameInv st owner.UID req.Namespace (done ++ [t]) w' := by
  obtain ⟨hwf, hout, hkeep, hrefs⟩ := hI
  refine ⟨hs.wf hwf, ?_, ?_, ?_⟩
  · intro c hns hor
    rw [← hout c hns hor]
    exact ⟨fun h => hs.mem_after_ns h hns, fun h => hs.mem_before h (ne_childKey_of_ns hns)⟩
  · intro c hc hns hown hname
    have h1 := hkeep c hc hns hown (fun t' ht' => hname t' (by simp [ht']))
    exact hs.mem_before h1 (ne_childKey_of_name (hname t (by simp)))
  · intro c hc hown
    obtain ⟨c', hc', hk, hr⟩ := hrefs c hc hown
    obtain ⟨c'', hc'', hk', hr'⟩ := hs.kept_refs hwf hc'
    exact ⟨c'', hc'', hk'.trans hk, hr'.trans hr⟩

theorem FrameInv.weaken {st : Store} {uid : UID} {ns : String} {done done' : List Tenant}
    {w : World} (hI : FrameInv st uid ns done w) (hsub : ∀ t ∈ done, t ∈ done') :
    FrameInv st uid ns done' w :=
  ⟨hI.1, hI.2.1, fun c hc hns hown hname =>
    hI.2.2.1 c hc hns hown (fun t ht => hname t (hsub t ht)), hI.2.2.2⟩

theorem hasOwner_congr {uid : UID} {c c' : ConfigMap}
    (h : c'.OwnerReferences = c.OwnerReferences) : hasOwner uid c' ↔ hasOwner uid c := by
  unfold hasOwner
  rw [h]

/-- The deletion loop, run on the children listed from the store `w2` with unique
keys, keeps the frame. -/
theorem FrameInv.deleteLoop {st : Store} {uid : UID} {ns : String} {ts : List Tenant}
    {F : Faults} {ids : List String} {w2 w' : World} {tr : List Call} {r : Option Err}
    (hI : FrameInv st uid ns ts w2)
    (hD : deleteLoop F ids (filterByOwner uid
      (w2.store.configMaps.filter (InNamespace ns)))
      ⟨w2.store, tr⟩ = (r, w')) :
    FrameInv st uid ns ts w' := by
  have hstep : ∀ (cm : ConfigMap) (w1 w1' : World) (r1 : Option Err),
      cm ∈ filterByOwner uid
        (w2.store.configMaps.filter (InNamespace ns)) →
      (FrameInv st uid ns ts w1 ∧ ∀ c ∈ w1.store.configMaps, c ∈ w2.store.configMaps) →
      Delete F cm w1 = (r1, w1') →
      (FrameInv st uid ns ts w1' ∧ ∀ c ∈ w1'.store.configMaps, c ∈ w2.store.configMaps) := by
    intro cm w1 w1' r1 hcm hI1 hd
    unfold FrameInv at hI1 ⊢
    rcases Delete_store hd with h | ⟨_, h⟩
    · rw [h]
      exact hI1
    · obtain ⟨⟨hwf, hout, hkeep, hrefs⟩, hsub⟩ := hI1
      rw [mem_filterByOwner, List.mem_filter] at hcm
      obtain ⟨⟨hcm2, hcmns⟩, hcmown⟩ := hcm
      have hne : ∀ c ∈ w1.store.configMaps, ¬ hasOwner uid c → c.key ≠ cm.key := by
        intro c hc hown hk
        have : c = cm := hI.1.eq_of_key (hsub c hc) hcm2 hk
        exact hown (this ▸ hcmown)
      rw [h]
      refine ⟨⟨hwf.remove _, ?_, ?_, ?_⟩, fun c hc => hsub c (mem_remove.1 hc).1⟩
      · intro c hns hor
        rw [← hout c hns hor, mem_remove]
        constructor
        · exact fun h => h.1
        · intro h
          refine ⟨h, ?_⟩
          rcases hor with hne' | hown
          · intro hk
            apply hns
            rw [← (InNamespace_nonempty hne' cm).1 hcmns]
            exact congrArg NamespacedName.Namespace hk
          · exact hne c h hown
      · intro c hc hns hown hname
        have hc1 := hkeep c hc hns hown hname
        exact mem_remove.2 ⟨hc1, hne c hc1 hown⟩
      · intro c hc hown
        obtain ⟨c', hc', hk, hr⟩ := hrefs c hc hown
        refine ⟨c', mem_remove.2 ⟨hc', hne c' hc' ?_⟩, hk, hr⟩
        exact fun h => hown ((hasOwner_congr hr).1 h)
  have := deleteLoop_rule_eq F ids
    (fun w1 => FrameInv st uid ns ts w1 ∧ ∀ c ∈ w1.store.configMaps, c ∈ w2.store.configMaps)
    (fun _ w1 => FrameInv st uid ns ts w1 ∧
      ∀ c ∈ w1.store.configMaps, c ∈ w2.store.configMaps)
    _
    (fun cm w1 w1' hcm hI1 _ hd => hstep cm w1 w1' none hcm hI1 hd)
    (fun cm w1 e w1' hcm hI1 _ hd => hstep cm w1 w1' (some e) hcm hI1 hd)
    hD ⟨hI, fun _ h => h⟩
  cases r with
  | none => exact (this.1 rfl).1
  | some e => exact (this.2 e rfl).1

/-- Every pass that fetched the parent, whether it succeeds or aborts, keeps the
frame of a store with unique keys. -/
theorem run_frame {F : Faults} (scheme : Scheme) {req : Request} {st : Store}
    {parent : TenantInfo}
    (hget : (GetTenantInfo F req.NamespacedName ⟨st, []⟩).1 = .ok parent)
    (hwf : st.WF) :
    FrameInv st parent.UID req.Namespace parent.Spec.Tenants (run F scheme req st).world := by
  obtain ⟨r, ids, w2, hL, hcases⟩ := run_phases scheme hget
  have hloop := tenantLoop_rule_eq F scheme parent req
    (fun done w => FrameInv st parent.UID req.Namespace done w)
    (fun done _ w => FrameInv st parent.UID req.Namespace done w)
    (fun done t w w' hI hs => hI.tenantStep hs)
    (fun done t w e w' hI hs => hI.tenantStep hs)
    hL ⟨hwf, fun _ _ _ => Iff.rfl, fun c hc _ _ _ => hc, fun c hc _ => ⟨c, hc, rfl, rfl⟩⟩
  have hw2 : FrameInv st parent.UID req.Namespace parent.Spec.Tenants w2 := by
    cases r with
    | none => exact hloop.1 rfl
    | some e =>
      obtain ⟨pre, hpre, hE⟩ := hloop.2 e rfl
      exact hE.weaken (fun t ht => hpre.subset ht)
  rcases hcases with
    ⟨e, _, _, hworld⟩ | ⟨_, e, _, _, hworld⟩ | ⟨_, items, dr, w4, _, hitems, hD, _, hworld⟩
  · rw [hworld]
    exact hw2
  · rw [hworld]
    exact hw2
  · rw [hworld]
    subst hitems
    exact hw2.deleteLoop hD

/-! ## Keys that the tenant loop does not touch -/

/-- The deletion loop leaves alone every key under which the list holds no orphan. -/
theorem deleteLoop_lookup_other {F : Faults} {ids : List String} {l : List ConfigMap}
    {w w' : World} {r : Option Err} (hD : deleteLoop F ids l w = (r, w'))
    {k : NamespacedName} (hk : ∀ cm ∈ l, isOrphan ids cm → cm.key ≠ k) :
    w'.store.lookup k = w.store.lookup k := by
  have hstep : ∀ (cm : ConfigMap) (w1 w1' : World) (r1 : Option Err),
      cm ∈ l → w1.store.lookup k = w.store.lookup k → isOrphan ids cm →
      Delete F cm w1 = (r1, w1') → w1'.store.lookup k = w.store.lookup k := by
    intro cm w1 w1' r1 hcm hI ho hd
    rcases Delete_store hd with h | ⟨_, h⟩
    · rw [h]
      exact hI
    · rw [h, lookup_remove, if_neg (fun heq => hk cm hcm ho heq.symm)]
      exact hI
  have := deleteLoop_rule_eq F ids
    (fun w1 => w1.store.lookup k = w.store.lookup k)
    (fun _ w1 => w1.store.lookup k = w.store.lookup k)
    l
    (fun cm w1 w1' hcm hI ho hd => hstep cm w1 w1' none hcm hI ho hd)
    (fun cm w1 e w1' hcm hI ho hd => hstep cm w1 w1' (some e) hcm hI ho hd)
    hD rfl
  cases r with
  | none => exact this.1 rfl
  | some e => exact this.2 e rfl

/-- The tenant loop neither adds nor removes a child under a key that is not the
key of one of its entries. -/
theorem tenantLoop_mem_other {F : Faults} {scheme : Scheme} {owner : TenantInfo}
    {req : Request} {ts : List Tenant} {ids ids' : List String} {w w' : World}
    {r : Option Err} (hL : tenantLoop F scheme owner req ts ids w = (r, ids', w'))
    {c : ConfigMap} (hc : ∀ t ∈ ts, c.key ≠ childKey req t) :
    c ∈ w'.store.configMaps ↔ c ∈ w.store.configMaps := by
  have hstep : ∀ (done : List Tenant) (t : Tenant) (w1 w1' : World) (r1 : Option Err),
      ((∀ t ∈ done, c.key ≠ childKey req t) →
        (c ∈ w1.store.configMaps ↔ c ∈ w.store.configMaps)) →
      TenantStep scheme owner req t w1 r1 w1' →
      ((∀ t' ∈ done ++ [t], c.key ≠ childKey req t') →
        (c ∈ w1'.store.configMaps ↔ c ∈ w.store.configMaps)) := by
    intro done t w1 w1' r1 hI hs hne
    rw [← hI (fun t' ht' => hne t' (by simp [ht']))]
    have hkt : c.key ≠ childKey req t := hne t (by simp)
    constructor
    · intro h
      rcases hs.mem_after h with h1 | ⟨_, gvk, _, rfl⟩ | ⟨found, _, hk, rfl⟩
      · exact h1
      · exact absurd rfl hkt
      · exact absurd hk hkt
    · exact fun h => hs.mem_before h hkt
  have := tenantLoop_rule_eq F scheme owner req
    (fun done w1 => (∀ t ∈ done, c.key ≠ childKey req t) →
      (c ∈ w1.store.configMaps ↔ c ∈ w.store.configMaps))
    (fun done _ w1 => (∀ t ∈ done, c.key ≠ childKey req t) →
      (c ∈ w1.store.configMaps ↔ c ∈ w.store.configMaps))
    (fun done t w1 w1' hI hs => hstep done t w1 w1' none hI hs)
    (fun done t w1 e w1' hI hs => hstep done t w1 w1' (some e) hI hs)
    hL (fun _ => Iff.rfl)
  cases r with
  | none => exact this.1 rfl hc
  | some e =>
    obtain ⟨pre, hpre, hE⟩ := this.2 e rfl
    exact hE (fun t ht => hc t (hpre.subset ht))

/-- After a pass that fetched the parent and succeeded, a key that is not the
key of an entry of the spec is empty if the initial store held under it a child
selected by the list call that carries the parent's UID and whose derived
identifier is not in the spec, and holds what the initial store held otherwise. -/
theorem run_ok_other_key {F : Faults} {scheme : Scheme} {req : Request} {st : Store}
    {parent : TenantInfo}
    (hget : (GetTenantInfo F req.NamespacedName ⟨st, []⟩).1 = .ok parent)
    (hok : (run F scheme req st).err = none)
    {k : NamespacedName} (hk : ∀ t ∈ parent.Spec.Tenants, k ≠ childKey req t) :
    ((∃ c ∈ st.configMaps, c.key = k ∧ InNamespace req.Namespace c = true ∧
        hasOwner parent.UID c ∧ ∀ t ∈ parent.Spec.Tenants, t.TenantID ≠ tenantIDOf c.Name) →
      (run F scheme req st).world.store.lookup k = none) ∧
    ((¬ ∃ c ∈ st.configMaps, c.key = k ∧ InNamespace req.Namespace c = true ∧
        hasOwner parent.UID c ∧ ∀ t ∈ parent.Spec.Tenants, t.TenantID ≠ tenantIDOf c.Name) →
      (run F scheme req st).world.store.lookup k = st.lookup k) := by
  obtain ⟨ids, w2, items, hL, hids, hitems, _, hD⟩ := run_ok_parts hget hok
  have hloop := tenantLoop_rule_eq F scheme parent req
    (LoopInv scheme parent req st) (fun _ _ _ => True)
    (fun done t w w' hI hs => hI.step hs)
    (fun _ _ _ _ _ _ _ => trivial)
    hL ⟨fun _ _ => rfl, fun id t h => by simp [lastEntry] at h, rfl⟩
  have hl2 : w2.store.lookup k = st.lookup k := (hloop.1 rfl).1 k hk
  have hmem : ∀ c : ConfigMap, c.key = k →
      (c ∈ w2.store.configMaps ↔ c ∈ st.configMaps) := by
    intro c hck
    exact tenantLoop_mem_other hL (fun t ht => by rw [hck]; exact hk t ht)
  have horph : ∀ c : ConfigMap, isOrphan ids c ↔
      ∀ t ∈ parent.Spec.Tenants, t.TenantID ≠ tenantIDOf c.Name := by
    intro c
    unfold isOrphan
    rw [hids]
    simp
  constructor
  · rintro ⟨c, hc, hck, hns, hown, hid⟩
    have hc2 : c ∈ w2.store.configMaps := (hmem c hck).2 hc
    have hcl : c ∈ filterByOwner parent.UID items := by
      rw [mem_filterByOwner, hitems]
      exact ⟨List.mem_filter.2 ⟨hc2, hns⟩, hown⟩
    rw [lookup_eq_none_iff]
    intro c' hc' hk'
    exact deleteLoop_orphans_gone F ids _ _ _ hD c hcl ((horph c).2 hid) c' hc'
      (hk'.trans hck.symm)
  · intro hno
    rw [← hl2]
    apply deleteLoop_lookup_other hD
    intro cm hcm ho hck
    rw [mem_filterByOwner, hitems, List.mem_filter] at hcm
    exact hno ⟨cm, (hmem cm hck).1 hcm.1.1, hck, hcm.1.2, hcm.2,
      (horph cm).1 ho⟩

theorem childAfter_owner_congr {owner owner' : TenantInfo} (gvk : GroupVersionKind)
    (req : Request) (t : Tenant) (before : Option ConfigMap)
    (hname : owner.Name = owner'.Name) (huid : owner.UID = owner'.UID) :
    childAfter owner gvk req t before = childAfter owner' gvk req t before := by
  cases before with
  | none => simp [childAfter, ownedConfigMap, controllerRef, hname, huid]
  | some found => rfl

theorem Store.WF.mem_iff_lookup {st : Store} (h : st.WF) {c : ConfigMap} :
    c ∈ st.configMaps ↔ st.lookup c.key = some c := by
  constructor
  · intro hc
    obtain ⟨c', hc'⟩ := lookup_isSome_of_mem hc
    have := lookup_eq_some hc'
    rw [hc', h.eq_of_key this.1 hc this.2]
  · intro hl
    exact (lookup_eq_some hl).1

/-- Two stores with unique keys that hold the same child under every key hold the
same children, up to their order in the store. -/
theorem Store.WF.perm_of_lookup {st st' : Store} (h : st.WF) (h' : st'.WF)
    (hl : ∀ k, st.lookup k = st'.lookup k) : st.configMaps.Perm st'.configMaps := by
  rw [List.perm_ext_iff_of_nodup (List.Nodup.of_map _ h) (List.Nodup.of_map _ h')]
  intro c
  rw [h.mem_iff_lookup, h'.mem_iff_lookup, hl]

/-! ## Sequences of passes -/

theorem keys_replace (st : Store) (obj : ConfigMap) :
    (st.replace obj).configMaps.map ConfigMap.key = st.configMaps.map ConfigMap.key := by
  unfold Store.replace
  simp only [List.map_map]
  apply List.map_congr_left
  intro c _
  by_cases hk : hasKey obj.key c = true
  · simp [hk, (hasKey_iff _ _).1 hk]
  · simp [hk]

theorem Store.WFIn.eq_of_key_in {ns : String} {st : Store} (h : st.WFIn ns) {c1 c2 : ConfigMap}
    (h1 : c1 ∈ st.configMaps) (h2 : c2 ∈ st.configMaps) (hns : c1.Namespace = ns)
    (hk : c1.key = c2.key) : c1 = c2 := by
  unfold Store.WFIn at h
  rw [List.filter_map] at h
  have hns2 : c2.Namespace = ns := by
    rw [← hns]
    exact (congrArg NamespacedName.Namespace hk).symm
  refine List.inj_on_of_nodup_map h (List.mem_filter.2 ⟨h1, ?_⟩)
    (List.mem_filter.2 ⟨h2, ?_⟩) hk
  · simpa [ConfigMap.key] using hns
  · simpa [ConfigMap.key] using hns2

theorem Store.WFIn.add_in {ns : String} {st : Store} (h : st.WFIn ns) {obj : ConfigMap}
    (hnone : st.lookup obj.key = none) : (st.add obj).WFIn ns := by
  unfold Store.WFIn Store.add at *
  rw [List.map_append, List.filter_append, List.nodup_append]
  refine ⟨h, (List.nodup_singleton obj.key).sublist (List.filter_sublist _), ?_⟩
  intro k hk hk'
  have hk1 := (List.mem_filter.1 hk).1
  have hk2 := (List.mem_filter.1 hk').1
  simp only [List.map_cons, List.map_nil, List.mem_singleton] at hk2
  subst hk2
  obtain ⟨c, hc, hkc⟩ := List.mem_map.1 hk1
  exact lookup_eq_none_iff.1 hnone c hc hkc

theorem Store.WFIn.replace_in {ns : String} {st : Store} (h : st.WFIn ns) (obj : ConfigMap) :
    (st.replace obj).WFIn ns := by
  unfold Store.WFIn at *
  rw [keys_replace]
  exact h

theorem Store.WFIn.remove_in {ns : String} {st : Store} (h : st.WFIn ns) (k : NamespacedName) :
    (st.remove k).WFIn ns := by
  unfold Store.WFIn Store.remove at *
  exact h.sublist (((List.filter_sublist _).map _).filter _)

theorem TenantStep.wfIn {scheme : Scheme} {owner : TenantInfo} {req : Request}
    {tenant : Tenant} {w w' : World} {r : Option Err}
    (h : TenantStep scheme owner req tenant w r w') {ns : String} (hwf : w.store.WFIn ns) :
    w'.store.WFIn ns := by
  cases h with
  | refFailed e href => exact hwf
  | getFailed gvk e hgvk hnf => exact hwf
  | createFailed gvk e e' hgvk hnf => exact hwf
  | unchanged gvk found hgvk hfound hdata => exact hwf
  | updateFailed gvk found e hgvk hfound hdata => exact hwf
  | created gvk e hgvk hnf hnone => exact hwf.add_in hnone
  | updated gvk found hgvk hfound hdata => exact hwf.replace_in _

/-- The shape of the children of the namespace that `Reached` asks for. -/
theorem TenantStep.shape {scheme : Scheme} {owner : TenantInfo} {req : Request}
    {tenant : Tenant} {w w' : World} {r : Option Err}
    (h : TenantStep scheme owner req tenant w r w')
    (hI : ∀ c ∈ w.store.configMaps, c.Namespace = req.Namespace →
      (∃ x, c.Name = cmName x) ∧ ∃ ref, c.OwnerReferences = [ref] ∧ ref.UID = owner.UID) :
    ∀ c ∈ w'.store.configMaps, c.Namespace = req.Namespace →
      (∃ x, c.Name = cmName x) ∧ ∃ ref, c.OwnerReferences = [ref] ∧ ref.UID = owner.UID := by
  intro c hc hns
  rcases h.mem_after hc with h1 | ⟨_, gvk, _, rfl⟩ | ⟨found, hf, hk, rfl⟩
  · exact hI c h1 hns
  · exact ⟨⟨tenant.TenantID, rfl⟩, controllerRef owner gvk, rfl, rfl⟩
  · exact hI found hf (congrArg NamespacedName.Namespace hk)

/-- A pass that fetched the parent and succeeded keeps the invariant `Reached`. -/
theorem run_ok_reached {F : Faults} {scheme : Scheme} {req : Request} {st : Store}
    {parent : TenantInfo}
    (hget : (GetTenantInfo F req.NamespacedName ⟨st, []⟩).1 = .ok parent)
    (hok : (run F scheme req st).err = none)
    (hI : Reached parent.UID req st) :
    Reached parent.UID req (run F scheme req st).world.store := by
  obtain ⟨⟨p, hp, hpu⟩, hwf, hshape⟩ := hI
  obtain ⟨ids, w2, items, hL, _, _, _, hD⟩ := run_ok_parts hget hok
  have hloop := tenantLoop_rule_eq F scheme parent req
    (fun _ w => w.store.WFIn req.Namespace ∧
      ∀ c ∈ w.store.configMaps, c.Namespace = req.Namespace →
        (∃ x, c.Name = cmName x) ∧ ∃ ref, c.OwnerReferences = [ref] ∧ ref.UID = parent.UID)
    (fun _ _ _ => True)
    (fun done t w w' hI hs => ⟨hs.wfIn hI.1, hs.shape hI.2⟩)
    (fun _ _ _ _ _ _ _ => trivial)
    hL ⟨hwf, hshape⟩
  have hdel := deleteLoop_rule_eq F ids
    (fun w => w.store.WFIn req.Namespace) (fun _ _ => True) _
    (fun cm w w' _ hI _ hd => by
      rcases Delete_store hd with h | ⟨_, h⟩
      · rw [h]; exact hI
      · rw [h]; exact Store.WFIn.remove_in hI _)
    (fun _ _ _ _ _ _ _ _ => trivial)
    hD (hloop.1 rfl).1
  refine ⟨⟨p, ?_, hpu⟩, hdel.1 rfl, ?_⟩
  · unfold Store.lookupTenantInfo
    rw [run_ok_tenantInfos hget hok]
    exact hp
  · intro c hc hns
    exact (hloop.1 rfl).2 c (deleteLoop_mem hD c hc) hns

theorem pass_some {scheme : Scheme} {req : Request} {st st' : Store} {F : Faults}
    {S : List Tenant} (h : pass scheme req st (F, S) = some st') :
    (∃ p, (GetTenantInfo F req.NamespacedName
        ⟨st.setTenants req.NamespacedName S, []⟩).1 = .ok p) ∧
    (run F scheme req (st.setTenants req.NamespacedName S)).err = none ∧
    st' = (run F scheme req (st.setTenants req.NamespacedName S)).world.store := by
  unfold pass at h
  simp only at h
  split at h
  · rename_i p hp herr
    injection h with h
    exact ⟨⟨p, hp⟩, herr, h.symm⟩
  · exact Option.noConfusion h

theorem passes_snoc {scheme : Scheme} {req : Request} :
    ∀ (ps : List (Faults × List Tenant)) (st stN : Store) (p : Faults × List Tenant),
      passes scheme req st (ps ++ [p]) = some stN →
      ∃ stM, passes scheme req st ps = some stM ∧ pass scheme req stM p = some stN := by
  intro ps
  induction ps with
  | nil =>
    intro st stN p h
    simp only [List.nil_append, passes] at h
    refine ⟨st, rfl, ?_⟩
    cases hp : pass scheme req st p with
    | none => rw [hp] at h; exact Option.noConfusion h
    | some st' =>
      rw [hp] at h
      simp only [passes] at h
      exact h
  | cons q rest ih =>
    intro st stN p h
    simp only [List.cons_append, passes] at h ⊢
    cases hq : pass scheme req st q with
    | none => rw [hq] at h; exact Option.noConfusion h
    | some st' =>
      rw [hq] at h
      simp only at h ⊢
      exact ih st' stN p h

/-- The edit of the spec keeps the invariant `Reached`. -/
theorem Reached.edit {uid : UID} {req : Request} {st : Store} (h : Reached uid req st)
    (S : List Tenant) : Reached uid req (st.setTenants req.NamespacedName S) := by
  obtain ⟨⟨p, hp, hpu⟩, hwf, hshape⟩ := h
  refine ⟨⟨{ p with Spec := ⟨S⟩ }, ?_, hpu⟩, hwf, hshape⟩
  rw [lookupTenantInfo_setTenants, hp]
  rfl

theorem Reached.of_pass {uid : UID} {scheme : Scheme} {req : Request} {st st' : Store}
    {p : Faults × List Tenant} (h : Reached uid req st)
    (hp : pass scheme req st p = some st') : Reached uid req st' := by
  obtain ⟨F, S⟩ := p
  obtain ⟨⟨parent, hget⟩, hok, rfl⟩ := pass_some hp
  have h1 := h.edit S
  have hu : parent.UID = uid := by
    obtain ⟨⟨q, hq, hqu⟩, _, _⟩ := h1
    have := (GetTenantInfo_ok hget).1
    rw [hq] at this
    injection this with this
    rw [← this]
    exact hqu
  subst hu
  exact run_ok_reached hget hok h1

theorem Reached.of_passes {uid : UID} {scheme : Scheme} {req : Request} :
    ∀ (ps : List (Faults × List Tenant)) (st st' : Store), Reached uid req st →
      passes scheme req st ps = some st' → Reached uid req st' := by
  intro ps
  induction ps with
  | nil =>
    intro st st' h hp
    simp only [passes] at hp
    injection hp with hp
    rw [← hp]
    exact h
  | cons q rest ih =>
    intro st st' h hp
    simp only [passes] at hp
    cases hq : pass scheme req st q with
    | none => rw [hq] at hp; exact Option.noConfusion hp
    | some st1 =>
      rw [hq] at hp
      exact ih st1 st' (h.of_pass hq) hp

theorem length_eq_one_of_all_eq {α : Type} {l : List α} {a : α} (hnd : l.Nodup)
    (hmem : a ∈ l) (hall : ∀ b ∈ l, b = a) : l.length = 1 := by
  cases l with
  | nil => simp at hmem
  | cons x rest =>
    cases rest with
    | nil => rfl
    | cons y rest' =>
      have hx : x = a := hall x (by simp)
      have hy : y = a := hall y (by simp)
      rw [List.nodup_cons] at hnd
      exact absurd (by simp [hx, hy]) hnd.1

theorem Store.WFIn.nodup_filter {ns : String} {st : Store} (h : st.WFIn ns) :
    (st.configMaps.filter (fun c => decide (c.Namespace = ns))).Nodup := by
  unfold Store.WFIn at h
  rw [List.filter_map] at h
  exact List.Nodup.of_map _ h

/-- A store without children in the request's namespace that holds the parent
satisfies the invariant `Reached`. -/
theorem Reached.start {req : Request} {st : Store} {parent : TenantInfo}
    (hparent : st.lookupTenantInfo req.NamespacedName = some parent)
    (hempty : ∀ c ∈ st.configMaps, c.Namespace ≠ req.Namespace) :
    Reached parent.UID req st := by
  refine ⟨⟨parent, hparent, rfl⟩, ?_, fun c hc hns => absurd hns (hempty c hc)⟩
  unfold Store.WFIn
  have : (st.configMaps.map ConfigMap.key).filter
      (fun k => decide (k.Namespace = req.Namespace)) = [] := by
    rw [List.filter_eq_nil_iff]
    intro k hk
    obtain ⟨c, hc, rfl⟩ := List.mem_map.1 hk
    simpa [ConfigMap.key] using hempty c hc
  rw [this]
  exact List.nodup_nil

/-- The deletion phase, for any listed children: a pass that fetched the parent
and succeeded issued exactly one list call, and the objects it passed to `Delete`
are, in list order, exactly the listed children that carry some owner reference,
at any position, with the parent's UID and whose derived identifier is not a
tenant identifier of the spec. -/
theorem run_deletes_any_owner (F : Faults) (scheme : Scheme) (req : Request)
    (st : Store) (parent : TenantInfo)
    (hget : (GetTenantInfo F req.NamespacedName ⟨st, []⟩).1 = .ok parent)
    (hok : (run F scheme req st).err = none) :
    ∃ items, listedItems (run F scheme req st).world.trace = [items] ∧
      deletedObjs (run F scheme req st).world.trace =
        items.filter (fun cm => decide (hasOwner parent.UID cm ∧
          ∀ t ∈ parent.Spec.Tenants, t.TenantID ≠ tenantIDOf cm.Name)) := by
  obtain ⟨r, ids, w2, hL, hcases⟩ := run_phases scheme hget
  have hloop := tenantLoop_rule_eq F scheme parent req
    (fun _ w => deletedObjs w.trace = [] ∧ listedItems w.trace = [])
    (fun _ _ _ => True)
    (fun done t w w' hI hs => by
      beta_reduce at hI ⊢
      rw [hs.no_list_delete.1, hs.no_list_delete.2]
      exact hI)
    (fun _ _ _ _ _ _ _ => trivial)
    hL ⟨rfl, rfl⟩
  rcases hcases with
    ⟨e, _, herr, _⟩ | ⟨_, e, _, herr, _⟩ | ⟨hr, items, dr, w4, _, _, hD, herr, hworld⟩
  · rw [herr] at hok
    exact Option.noConfusion hok
  · rw [herr] at hok
    exact Option.noConfusion hok
  · rw [herr] at hok
    subst hok
    subst hr
    have hI2 := hloop.1 rfl
    have hids := tenantLoop_ids F scheme parent req parent.Spec.Tenants []
      ⟨st, [.getTenantInfo req.NamespacedName (.ok parent)]⟩ (by rw [hL])
    rw [hL] at hids
    have htr := deleteLoop_trace_ok F ids _ _ _ hD
    refine ⟨items, ?_, ?_⟩
    · rw [hworld, htr]
      simp only [] at hI2 ⊢
      unfold listedItems at hI2 ⊢
      rw [List.filterMap_append, List.filterMap_append, hI2.2]
      have := listedItems_map_delete
        ((filterByOwner parent.UID items).filter (fun cm => decide (isOrphan ids cm)))
      unfold listedItems at this
      rw [this]
      rfl
    · rw [hworld, htr]
      simp only [] at hI2 ⊢
      unfold deletedObjs at hI2 ⊢
      rw [List.filterMap_append, List.filterMap_append, hI2.1]
      have := deletedObjs_map_delete
        ((filterByOwner parent.UID items).filter (fun cm => decide (isOrphan ids cm)))
      unfold deletedObjs at this
      rw [this, filterByOwner_eq, List.filter_filter]
      simp only [List.filterMap_cons, List.filterMap_nil, List.nil_append]
      apply List.filter_congr
      intro c _
      rw [Bool.eq_iff_iff]
      simp only [Bool.and_eq_true, decide_eq_true_eq, isOrphan]
      rw [and_comm]
      apply and_congr_right
      intro _
      rw [hids]
      simp only [List.not_mem_nil, false_or, not_exists, not_and]

/-- The deletion phase on the store `exStoreSecondOwner`. -/
theorem run_deletes_any_owner_example :
    ∃ items, listedItems (run noFaults exScheme exReq exStoreSecondOwner).world.trace = [items] ∧
      deletedObjs (run noFaults exScheme exReq exStoreSecondOwner).world.trace =
        items.filter (fun cm => decide (hasOwner (exParent []).UID cm ∧
          ∀ t ∈ (exParent []).Spec.Tenants, t.TenantID ≠ tenantIDOf cm.Name)) :=
  run_deletes_any_owner noFaults exScheme exReq exStoreSecondOwner (exParent [])
    (by decide) (by decide)

/-- The field index that a successful `SetupWithManager` registers for the child
kind is registered under the index key `"metadata.ownerReferences.uid"`. -/
theorem SetupWithManager_registered_key (mgr mgr' : Manager)
    (h : SetupWithManager mgr = (none, mgr')) :
    ∃ idx, mgr'.indexes = mgr.indexes ++ [idx] ∧ idx.kind = "ConfigMap" ∧
      idx.field = "metadata.ownerReferences.uid" :=
  ⟨_, SetupWithManager_ok h, rfl, rfl⟩

/-- The index key on a manager without indexes and controllers. -/
theorem SetupWithManager_registered_key_example :
    ∃ idx, (SetupWithManager ⟨[], []⟩).2.indexes = ([] : List FieldIndex) ++ [idx] ∧
      idx.kind = "ConfigMap" ∧ idx.field = "metadata.ownerReferences.uid" :=
  SetupWithManager_registered_key ⟨[], []⟩ (SetupWithManager ⟨[], []⟩).2 rfl

/-! ## Claims -/

/-- C5 (no-op on missing parent): when the parent fetch returns a not-found error,
`Reconcile` returns the empty result and no error, the parent fetch is the only
client call it issues (no list, create, update or delete), and the store is
unchanged. -/
theorem Reconcile_missing_parent_noop (F : Faults) (scheme : Scheme) (req : Request)
    (st : Store) (e : Err)
    (hget : (GetTenantInfo F req.NamespacedName ⟨st, []⟩).1 = .error e)
    (hnf : IsNotFound e = true) :
    (run F scheme req st).result = {} ∧
    (run F scheme req st).err = none ∧
    (run F scheme req st).world.trace = [.getTenantInfo req.NamespacedName (.error e)] ∧
    (run F scheme req st).world.store = st := by
  unfold run
  rw [Reconcile_of_missing hget]
  simp [hnf]

/-- Witness for C5: a store without the requested parent. -/
theorem Reconcile_missing_parent_noop_witness :
    (run noFaults ⟨none⟩ ⟨⟨"ns", "ti"⟩⟩ ⟨[], []⟩).result = {} ∧
    (run noFaults ⟨none⟩ ⟨⟨"ns", "ti"⟩⟩ ⟨[], []⟩).err = none ∧
    (run noFaults ⟨none⟩ ⟨⟨"ns", "ti"⟩⟩ ⟨[], []⟩).world.trace =
      [.getTenantInfo ⟨"ns", "ti"⟩ (.error (.notFound "ti"))] ∧
    (run noFaults ⟨none⟩ ⟨⟨"ns", "ti"⟩⟩ ⟨[], []⟩).world.store = ⟨[], []⟩ :=
  Reconcile_missing_parent_noop noFaults ⟨none⟩ ⟨⟨"ns", "ti"⟩⟩ ⟨[], []⟩ (.notFound "ti")
    (by decide) (by decide)

/-- C7 (error propagation and abort): in every run of `Reconcile`, under every
fault schedule, a client call that returns an error `e` (a not-found answer to a
get apart) is the last call of the run and `Reconcile` returns exactly `e`; the
final store is the initial store with the successful writes of the run applied,
so the writes completed before the failing call remain. -/
theorem Reconcile_error_propagation (F : Faults) (scheme : Scheme) (req : Request)
    (st : Store) :
    (∀ (i : Nat) (hi : i < (run F scheme req st).world.trace.length) (e : Err),
      ((run F scheme req st).world.trace.get ⟨i, hi⟩).failure = some e →
        i + 1 = (run F scheme req st).world.trace.length ∧
        (run F scheme req st).err = some e) ∧
    (run F scheme req st).world.store = replay st (run F scheme req st).world.trace := by
  obtain ⟨hst, hok, herr⟩ := run_trace_inv F scheme req st
  refine ⟨?_, hst⟩
  intro i hi e hf
  cases hr : (run F scheme req st).err with
  | none =>
    have := hok hr _ (List.get_mem _ i hi)
    rw [this] at hf
    exact Option.noConfusion hf
  | some e0 =>
    obtain ⟨h1, h2⟩ := (herr e0 hr).last i hi e hf
    exact ⟨h1, by rw [h2]⟩

/-- C8 as stated fails: with the spec `[(a, http://a1), (a, http://a2)]` and no
child stored, one pass issues two writes for `tenant-a-config` (a create, then an
update), not at most one. -/
theorem write_bound_counterexample :
    ¬ ((run noFaults exScheme exReq exStoreRepeated).world.trace.countP
        (Call.writesTo (cmName "a")) ≤ 1) := by
  decide

/-- C8, amended (write bound): in one pass, under every fault schedule, the number
of create and update calls issued for the child `tenant-<id>-config` is at most
the number of entries of the tenant sequence whose identifier is `id`; so it is
at most one when `id` occurs once. -/
theorem Reconcile_write_bound (F : Faults) (scheme : Scheme) (req : Request) (st : Store)
    (parent : TenantInfo) (id : String)
    (hparent : st.lookupTenantInfo req.NamespacedName = some parent) :
    (run F scheme req st).world.trace.countP (Call.writesTo (cmName id)) ≤
      parent.Spec.Tenants.countP (fun t => decide (t.TenantID = id)) := by
  cases hget : (GetTenantInfo F req.NamespacedName ⟨st, []⟩).1 with
  | error e =>
    unfold run
    rw [Reconcile_of_missing hget]
    simp [Call.writesTo]
  | ok parent' =>
    have hp : parent' = parent := by
      have := (GetTenantInfo_ok hget).1
      rw [hparent] at this
      injection this with this
      exact this.symm
    subst hp
    obtain ⟨r, ids, w2, hL, hcases⟩ := run_phases scheme hget
    have hloop := tenantLoop_rule_eq F scheme parent' req
      (fun done w => w.trace.countP (Call.writesTo (cmName id)) ≤
        done.countP (fun t => decide (t.TenantID = id)))
      (fun done _ w => w.trace.countP (Call.writesTo (cmName id)) ≤
        done.countP (fun t => decide (t.TenantID = id)))
      (fun done t w w' hI hs => by
        have := hs.writes_le id
        beta_reduce at hI ⊢
        rw [List.countP_append]
        omega)
      (fun done t w e w' hI hs => by
        have := hs.writes_le id
        beta_reduce at hI ⊢
        rw [List.countP_append]
        omega)
      hL (by simp [Call.writesTo])
    rcases hcases with
      ⟨e, hr, _, hworld⟩ | ⟨hr, e, _, _, hworld⟩ | ⟨hr, items, dr, w4, _, _, hD, _, hworld⟩
    · obtain ⟨pre, hpre, hE⟩ := hloop.2 e hr
      rw [hworld]
      exact le_trans hE (hpre.sublist.countP_le _)
    · have hI2 := hloop.1 hr
      rw [hworld]
      simpa [List.countP_append, List.countP_cons, Call.writesTo] using hI2
    · have hI2 := hloop.1 hr
      have hI3 : (w2.trace ++ [Call.list req.Namespace (.ok items)]).countP
          (Call.writesTo (cmName id)) ≤
          parent'.Spec.Tenants.countP (fun t => decide (t.TenantID = id)) := by
        simpa [List.countP_append, List.countP_cons, Call.writesTo] using hI2
      have hdel := deleteLoop_rule_eq F ids
        (fun w => w.trace.countP (Call.writesTo (cmName id)) ≤
          parent'.Spec.Tenants.countP (fun t => decide (t.TenantID = id)))
        (fun _ w => w.trace.countP (Call.writesTo (cmName id)) ≤
          parent'.Spec.Tenants.countP (fun t => decide (t.TenantID = id)))
        (filterByOwner parent'.UID items)
        (fun cm w w' _ hI _ hd => by beta_reduce at hI ⊢; rw [Delete_writes hd]; exact hI)
        (fun cm w e w' _ hI _ hd => by beta_reduce at hI ⊢; rw [Delete_writes hd]; exact hI)
        hD hI3
      rw [hworld]
      cases dr with
      | none => exact hdel.1 rfl
      | some e => exact hdel.2 e rfl

/-- Witness for C8: a spec with one entry for `a`, run on a store without children. -/
theorem Reconcile_write_bound_witness :
    (run noFaults exScheme exReq ⟨[exParent [⟨"a", "http://a"⟩]], []⟩).world.trace.countP
        (Call.writesTo (cmName "a")) ≤
      (exParent [⟨"a", "http://a"⟩]).Spec.Tenants.countP (fun t => decide (t.TenantID = "a")) :=
  Reconcile_write_bound noFaults exScheme exReq ⟨[exParent [⟨"a", "http://a"⟩]], []⟩
    (exParent [⟨"a", "http://a"⟩]) "a" (by decide)

/-- C9 (update frame): in the iteration for a tenant entry, when the owner
reference could be attached and the child fetch returns `found`: if the data of
`found` differs from the desired data, the next call is an update whose object has
the name, namespace and owner references of `found` and the desired two-key map
as data, and the iteration returns what that update returned; if the data is
equal, the fetch is the only call of the iteration, which succeeds and leaves the
store as it is. -/
theorem reconcileTenant_update_frame (F : Faults) (scheme : Scheme) (owner : TenantInfo)
    (req : Request) (tenant : Tenant) (w : World) (found cm : ConfigMap)
    (href : SetControllerReference owner (newConfigMap req tenant) scheme = .ok cm)
    (hget : (GetConfigMap F ⟨req.Namespace, cmName tenant.TenantID⟩ w).1 = .ok found) :
    (found.Data ≠ Finmap.insert "tenantID" tenant.TenantID
          (Finmap.singleton "webserviceURL" tenant.WebserviceURL) →
      ∃ r, reconcileTenant F scheme owner req tenant w =
        (r, (reconcileTenant F scheme owner req tenant w).2) ∧
        (reconcileTenant F scheme owner req tenant w).2.trace =
          w.trace ++ [.getConfigMap ⟨req.Namespace, cmName tenant.TenantID⟩ (.ok found),
            .update
              { Name := found.Name, Namespace := found.Namespace,
                OwnerReferences := found.OwnerReferences,
                Data := Finmap.insert "tenantID" tenant.TenantID
                  (Finmap.singleton "webserviceURL" tenant.WebserviceURL) } r]) ∧
    (found.Data = Finmap.insert "tenantID" tenant.TenantID
          (Finmap.singleton "webserviceURL" tenant.WebserviceURL) →
      reconcileTenant F scheme owner req tenant w =
        (none, { w with trace := w.trace ++
          [.getConfigMap ⟨req.Namespace, cmName tenant.TenantID⟩ (.ok found)] })) := by
  constructor
  · intro hdata
    obtain ⟨r, h1, h2⟩ := reconcileTenant_found_differs href hget hdata
    exact ⟨r, h1, h2⟩
  · intro hdata
    exact reconcileTenant_found_equal href hget hdata

/-- Witness for C9: the stored child `tenant-a-config` has tampered data, an extra
key and two owner references; the spec entry is `(a, http://a)`. -/
theorem reconcileTenant_update_frame_witness :
    (exTamperedChild.Data ≠ Finmap.insert "tenantID" "a"
          (Finmap.singleton "webserviceURL" "http://a") →
      ∃ r, reconcileTenant noFaults exScheme (exParent [⟨"a", "http://a"⟩]) exReq
          ⟨"a", "http://a"⟩ ⟨⟨[], [exTamperedChild]⟩, []⟩ =
        (r, (reconcileTenant noFaults exScheme (exParent [⟨"a", "http://a"⟩]) exReq
          ⟨"a", "http://a"⟩ ⟨⟨[], [exTamperedChild]⟩, []⟩).2) ∧
        (reconcileTenant noFaults exScheme (exParent [⟨"a", "http://a"⟩]) exReq
          ⟨"a", "http://a"⟩ ⟨⟨[], [exTamperedChild]⟩, []⟩).2.trace =
          [] ++ [.getConfigMap ⟨"default", cmName "a"⟩ (.ok exTamperedChild),
            .update
              { Name := exTamperedChild.Name, Namespace := exTamperedChild.Namespace,
                OwnerReferences := exTamperedChild.OwnerReferences,
                Data := Finmap.insert "tenantID" "a"
                  (Finmap.singleton "webserviceURL" "http://a") } r]) ∧
    (exTamperedChild.Data = Finmap.insert "tenantID" "a"
          (Finmap.singleton "webserviceURL" "http://a") →
      reconcileTenant noFaults exScheme (exParent [⟨"a", "http://a"⟩]) exReq
          ⟨"a", "http://a"⟩ ⟨⟨[], [exTamperedChild]⟩, []⟩ =
        (none, ⟨⟨[], [exTamperedChild]⟩,
          [] ++ [.getConfigMap ⟨"default", cmName "a"⟩ (.ok exTamperedChild)]⟩)) :=
  reconcileTenant_update_frame noFaults exScheme (exParent [⟨"a", "http://a"⟩]) exReq
    ⟨"a", "http://a"⟩ ⟨⟨[], [exTamperedChild]⟩, []⟩ exTamperedChild
    (ownedConfigMap (exParent [⟨"a", "http://a"⟩])
      ⟨"multitenancy-management.example.com", "v1", "TenantInfo"⟩ exReq ⟨"a", "http://a"⟩)
    (by decide) (by decide)

/-- C10 (code defect, evaluated at the store `exStoreSecondOwner`): the child
`default/tenant-b-config` has the owner references `[uid-2, uid-1]` and the
parent `default/tenants` has the UID `uid-1` and an empty spec.  The first owner
reference of the child is not the parent's, and the extractor of the ownership
index, which the filter of `Reconcile` stands in for, gives the child the single
key `uid-2`.  The filter of `Reconcile` nevertheless selects the child, and the
pass, which succeeds, passes it to `Delete` and removes it from the store. -/
theorem orphan_filter_second_owner_deleted :
    (exParent []).UID = "uid-1" ∧
    exSecondOwnerChild.OwnerReferences.head?.map (fun ref => ref.UID) = some "uid-2" ∧
    ownerUIDExtractor exSecondOwnerChild = ["uid-2"] ∧
    filterByOwner (exParent []).UID [exSecondOwnerChild] = [exSecondOwnerChild] ∧
    (run noFaults exScheme exReq exStoreSecondOwner).err = none ∧
    listedItems (run noFaults exScheme exReq exStoreSecondOwner).world.trace =
      [[exSecondOwnerChild]] ∧
    deletedObjs (run noFaults exScheme exReq exStoreSecondOwner).world.trace =
      [exSecondOwnerChild] ∧
    (run noFaults exScheme exReq exStoreSecondOwner).world.store.configMaps = [] := by
  decide

/-- C3 (drift correction, last write wins): after a pass that fetched the parent
and returned success, under every fault schedule and from every initial store,
for every tenant identifier `id` of the spec the store holds (and `Get` returns) a
child named `"tenant-" ++ id ++ "-config"` in the request's namespace whose data is
exactly the two-key map `{tenantID: id, webserviceURL: u}`, where `u` is the URL
of the last entry of the sequence with identifier `id`. -/
theorem Reconcile_drift_correction (F : Faults) (scheme : Scheme) (req : Request)
    (st : Store) (parent : TenantInfo)
    (hget : (GetTenantInfo F req.NamespacedName ⟨st, []⟩).1 = .ok parent)
    (hok : (run F scheme req st).err = none)
    (id : String) (hid : ∃ t ∈ parent.Spec.Tenants, t.TenantID = id) :
    ∃ u c,
      ((parent.Spec.Tenants.filter (fun t => decide (t.TenantID = id))).getLast?).map
        (fun t => t.WebserviceURL) = some u ∧
      c ∈ (run F scheme req st).world.store.configMaps ∧
      (run F scheme req st).world.store.lookup ⟨req.Namespace, "tenant-" ++ id ++ "-config"⟩ =
        some c ∧
      c.Name = "tenant-" ++ id ++ "-config" ∧ c.Namespace = req.Namespace ∧
      c.Data = Finmap.insert "tenantID" id (Finmap.singleton "webserviceURL" u) := by
  obtain ⟨t0, ht0, hid0⟩ := hid
  subst hid0
  obtain ⟨t, hlast⟩ := lastEntry_isSome ht0
  obtain ⟨gvk, _, hl⟩ := run_ok_child hget hok hlast
  have hk := lookup_eq_some hl
  refine ⟨t.WebserviceURL, _, ?_, hk.1, hl, congrArg NamespacedName.Name hk.2,
    congrArg NamespacedName.Namespace hk.2, ?_⟩
  · have : (parent.Spec.Tenants.filter (fun t => decide (t.TenantID = t0.TenantID))).getLast? =
        some t := hlast
    rw [this]
    rfl
  · have hidt := (lastEntry_some hlast).2
    cases hb : st.lookup ⟨req.Namespace, cmName t0.TenantID⟩ <;>
      simp [childAfter, ownedConfigMap, newConfigMap, withData, desiredData, hidt]

/-- Witness for C3: the stored child has tampered data and an extra key, and the
spec lists tenant `a` twice. -/
theorem Reconcile_drift_correction_witness :
    ∃ u c,
      (((exParent [⟨"a", "http://old"⟩, ⟨"a", "http://a"⟩]).Spec.Tenants.filter
        (fun t => decide (t.TenantID = "a"))).getLast?).map
        (fun t => t.WebserviceURL) = some u ∧
      c ∈ (run noFaults exScheme exReq exStoreTampered).world.store.configMaps ∧
      (run noFaults exScheme exReq exStoreTampered).world.store.lookup
        ⟨exReq.Namespace, "tenant-" ++ "a" ++ "-config"⟩ = some c ∧
      c.Name = "tenant-" ++ "a" ++ "-config" ∧ c.Namespace = exReq.Namespace ∧
      c.Data = Finmap.insert "tenantID" "a" (Finmap.singleton "webserviceURL" u) :=
  Reconcile_drift_correction noFaults exScheme exReq exStoreTampered
    (exParent [⟨"a", "http://old"⟩, ⟨"a", "http://a"⟩]) (by decide) (by decide) "a"
    ⟨⟨"a", "http://a"⟩, by decide, rfl⟩

/-- C6 as stated fails: the child `tenant-a-config` exists before the pass without
owner references; the pass succeeds, overwrites its data and leaves it without
any owner reference, so it does not carry the parent's UID. -/
theorem owner_reference_counterexample :
    (run noFaults exScheme exReq exStoreUnowned).err = none ∧
    (run noFaults exScheme exReq exStoreUnowned).world.store.lookup
        ⟨"default", cmName "a"⟩ =
      some ⟨"tenant-a-config", "default", [], desiredData ⟨"a", "http://a"⟩⟩ ∧
    ¬ hasOwner "uid-1" ⟨"tenant-a-config", "default", [], desiredData ⟨"a", "http://a"⟩⟩ := by
  decide

/-- C6, amended (owner reference): after a pass that fetched the parent and
returned success, for every tenant identifier `id` of the spec the child
`tenant-<id>-config` exists; if no child was stored under that name before the
pass (the pass created it) its owner references are exactly the one controller
reference to the parent, with the parent's UID; if a child was stored under that
name, the child keeps the owner references that one had. -/
theorem Reconcile_owner_reference (F : Faults) (scheme : Scheme) (req : Request)
    (st : Store) (parent : TenantInfo)
    (hget : (GetTenantInfo F req.NamespacedName ⟨st, []⟩).1 = .ok parent)
    (hok : (run F scheme req st).err = none)
    (id : String) (hid : ∃ t ∈ parent.Spec.Tenants, t.TenantID = id) :
    ∃ c, (run F scheme req st).world.store.lookup ⟨req.Namespace, cmName id⟩ = some c ∧
      (st.lookup ⟨req.Namespace, cmName id⟩ = none →
        (∃ gvk, scheme.tenantInfoKind = some gvk ∧
          c.OwnerReferences = [controllerRef parent gvk]) ∧
        c.OwnerReferences.map (fun ref => ref.UID) = [parent.UID] ∧
        hasOwner parent.UID c) ∧
      (∀ c0, st.lookup ⟨req.Namespace, cmName id⟩ = some c0 →
        c.OwnerReferences = c0.OwnerReferences) := by
  obtain ⟨t0, ht0, hid0⟩ := hid
  subst hid0
  obtain ⟨t, hlast⟩ := lastEntry_isSome ht0
  obtain ⟨gvk, hgvk, hl⟩ := run_ok_child hget hok hlast
  refine ⟨_, hl, ?_, ?_⟩
  · intro hnone
    rw [hnone]
    refine ⟨⟨gvk, hgvk, rfl⟩, rfl, ?_⟩
    exact ⟨controllerRef parent gvk, by simp [childAfter, ownedConfigMap], rfl⟩
  · intro c0 hsome
    rw [hsome]
    rfl

/-- Witness for C6: a store without children; the pass creates `tenant-a-config`. -/
theorem Reconcile_owner_reference_witness :
    ∃ c, (run noFaults exScheme exReq ⟨[exParent [⟨"a", "http://a"⟩]], []⟩).world.store.lookup
        ⟨exReq.Namespace, cmName "a"⟩ = some c ∧
      ((⟨[exParent [⟨"a", "http://a"⟩]], []⟩ : Store).lookup ⟨exReq.Namespace, cmName "a"⟩ =
          none →
        (∃ gvk, exScheme.tenantInfoKind = some gvk ∧
          c.OwnerReferences = [controllerRef (exParent [⟨"a", "http://a"⟩]) gvk]) ∧
        c.OwnerReferences.map (fun ref => ref.UID) = [(exParent [⟨"a", "http://a"⟩]).UID] ∧
        hasOwner (exParent [⟨"a", "http://a"⟩]).UID c) ∧
      (∀ c0, (⟨[exParent [⟨"a", "http://a"⟩]], []⟩ : Store).lookup
          ⟨exReq.Namespace, cmName "a"⟩ = some c0 →
        c.OwnerReferences = c0.OwnerReferences) :=
  Reconcile_owner_reference noFaults exScheme exReq ⟨[exParent [⟨"a", "http://a"⟩]], []⟩
    (exParent [⟨"a", "http://a"⟩]) (by decide) (by decide) "a" ⟨⟨"a", "http://a"⟩, by decide, rfl⟩

/-- C2 as stated fails: with spec `[(a, http://a)]`, a stored `tenant-a-config`
without owner reference and a stored child `a` that carries the parent's UID, the
pass succeeds and the names of the children carrying the parent's UID are `["a"]`,
not `{"tenant-a-config"}`. -/
theorem convergence_counterexample :
    (run noFaults exScheme exReq exStoreForeign).err = none ∧
    ¬ (∀ n, n ∈ ownedNames "uid-1" "default"
          (run noFaults exScheme exReq exStoreForeign).world.store ↔
        ∃ t ∈ (exParent [⟨"a", "http://a"⟩]).Spec.Tenants, n = cmName t.TenantID) := by
  refine ⟨by decide, fun h => ?_⟩
  obtain ⟨t, ht, hn⟩ := (h "a").1 (by decide)
  have : t = ⟨"a", "http://a"⟩ := by simpa [exParent] using ht
  subst this
  revert hn
  decide

/-- C2, amended (convergence): let the initial store be such that every child of
the namespace that carries the parent's UID has a name of the form
`tenant-<x>-config`, and every child of the namespace named `tenant-<id>-config`
for a tenant identifier `id` of the spec carries the parent's UID.  Then after a
pass that fetched the parent and returned success, the names of the children of
the namespace that carry an owner reference with the parent's UID are exactly the
names `"tenant-" ++ id ++ "-config"` for the tenant identifiers `id` of the spec. -/
theorem Reconcile_convergence (F : Faults) (scheme : Scheme) (req : Request)
    (st : Store) (parent : TenantInfo)
    (hget : (GetTenantInfo F req.NamespacedName ⟨st, []⟩).1 = .ok parent)
    (hok : (run F scheme req st).err = none)
    (hnames : ∀ c ∈ st.configMaps, c.Namespace = req.Namespace → hasOwner parent.UID c →
      ∃ x, c.Name = cmName x)
    (howned : ∀ c ∈ st.configMaps, c.Namespace = req.Namespace →
      (∃ t ∈ parent.Spec.Tenants, c.Name = cmName t.TenantID) → hasOwner parent.UID c)
    (n : String) :
    n ∈ ownedNames parent.UID req.Namespace (run F scheme req st).world.store ↔
      ∃ t ∈ parent.Spec.Tenants, n = cmName t.TenantID := by
  rw [mem_ownedNames]
  constructor
  · rintro ⟨c, hc, hns, hown, rfl⟩
    obtain ⟨t, ht, hid⟩ := run_ok_no_orphan hget hok hc hns hown
    refine ⟨t, ht, ?_⟩
    obtain ⟨ids, w2, items, hL, _, _, _, hD⟩ := run_ok_parts hget hok
    have hloop := tenantLoop_rule_eq F scheme parent req
      (fun _ w => ∀ c ∈ w.store.configMaps, c.Namespace = req.Namespace →
        hasOwner parent.UID c → ∃ x, c.Name = cmName x)
      (fun _ _ _ => True)
      (fun done t w w' hI hs c hc hns hown => by
        rcases hs.mem_after hc with h | ⟨_, gvk, _, rfl⟩ | ⟨found, hf, hk, rfl⟩
        · exact hI c h hns hown
        · exact ⟨t.TenantID, rfl⟩
        · exact ⟨t.TenantID, congrArg NamespacedName.Name hk⟩)
      (fun _ _ _ _ _ _ _ => trivial)
      hL hnames
    obtain ⟨x, hx⟩ := hloop.1 rfl c (deleteLoop_mem hD c hc) hns hown
    rw [hx, tenantIDOf_cmName] at hid
    rw [hx, hid]
  · rintro ⟨t0, ht0, rfl⟩
    obtain ⟨t, hlast⟩ := lastEntry_isSome ht0
    obtain ⟨gvk, hgvk, hl⟩ := run_ok_child hget hok hlast
    have hk := lookup_eq_some hl
    refine ⟨_, hk.1, congrArg NamespacedName.Namespace hk.2, ?_,
      congrArg NamespacedName.Name hk.2⟩
    cases hb : st.lookup ⟨req.Namespace, cmName t0.TenantID⟩ with
    | none => exact ⟨controllerRef parent gvk, by simp [childAfter, ownedConfigMap], rfl⟩
    | some c0 =>
      have hk0 := lookup_eq_some hb
      have := howned c0 hk0.1 (congrArg NamespacedName.Namespace hk0.2)
        ⟨t0, ht0, congrArg NamespacedName.Name hk0.2⟩
      exact this

/-- Witness for C2: a store without children and the spec `[(a, http://a)]`. -/
theorem Reconcile_convergence_witness :
    "tenant-a-config" ∈ ownedNames (exParent [⟨"a", "http://a"⟩]).UID exReq.Namespace
        (run noFaults exScheme exReq ⟨[exParent [⟨"a", "http://a"⟩]], []⟩).world.store ↔
      ∃ t ∈ (exParent [⟨"a", "http://a"⟩]).Spec.Tenants, "tenant-a-config" = cmName t.TenantID :=
  Reconcile_convergence noFaults exScheme exReq ⟨[exParent [⟨"a", "http://a"⟩]], []⟩
    (exParent [⟨"a", "http://a"⟩]) (by decide) (by decide)
    (fun c hc => by simp at hc) (fun c hc => by simp at hc) "tenant-a-config"

/-- C1 as stated fails: with the spec `[(a, http://a1), (a, http://a2)]` the first
pass succeeds on a store without faults, and the second pass on the resulting
store issues writes again (it updates `tenant-a-config` to the first URL and then
back to the second). -/
theorem idempotence_counterexample :
    (run noFaults exScheme exReq exStoreRepeated).err = none ∧
    (run noFaults exScheme exReq
      (run noFaults exScheme exReq exStoreRepeated).world.store).world.trace.filter
        Call.isWrite ≠ [] := by
  decide

/-- C1, amended (idempotence): for every parent whose tenant sequence has no
identifier with two different URLs, and every initial store, if `Reconcile` runs
to success on a store whose operations do not fail, then running it again on the
resulting store with the same parent succeeds, issues no create, update or delete
call, and leaves the store unchanged. -/
theorem Reconcile_idempotent (scheme : Scheme) (req : Request) (st : Store)
    (parent : TenantInfo)
    (hparent : st.lookupTenantInfo req.NamespacedName = some parent)
    (hagree : ∀ t ∈ parent.Spec.Tenants, ∀ t' ∈ parent.Spec.Tenants,
      t.TenantID = t'.TenantID → t.WebserviceURL = t'.WebserviceURL)
    (hok : (run noFaults scheme req st).err = none) :
    (run noFaults scheme req (run noFaults scheme req st).world.store).err = none ∧
    (run noFaults scheme req (run noFaults scheme req st).world.store).world.trace.filter
      Call.isWrite = [] ∧
    (run noFaults scheme req (run noFaults scheme req st).world.store).world.store =
      (run noFaults scheme req st).world.store := by
  have hget : (GetTenantInfo noFaults req.NamespacedName ⟨st, []⟩).1 = .ok parent :=
    GetTenantInfo_noFaults hparent
  have hparent1 : (run noFaults scheme req st).world.store.lookupTenantInfo
      req.NamespacedName = some parent := by
    unfold Store.lookupTenantInfo
    rw [run_ok_tenantInfos hget hok]
    exact hparent
  obtain ⟨href, hchild⟩ := run_ok_stable hget hok hagree
  obtain ⟨ids, tr, hids, htr, herr, hworld⟩ := run_stable hparent1 href hchild
  have hno : ∀ cm ∈ filterByOwner parent.UID
      ((run noFaults scheme req st).world.store.configMaps.filter
        (InNamespace req.Namespace)), ¬ isOrphan ids cm := by
    intro cm hcm ho
    rw [mem_filterByOwner, List.mem_filter] at hcm
    obtain ⟨⟨hmem, hns⟩, hown⟩ := hcm
    obtain ⟨t, ht, hid⟩ := run_ok_no_orphan_listed hget hok hmem hns hown
    exact ho ((hids _).2 ⟨t, ht, hid⟩)
  rw [deleteLoop_no_orphans noFaults ids _ _ hno] at herr hworld
  refine ⟨herr, ?_, by rw [hworld]⟩
  rw [hworld]
  simp only [List.filter_eq_nil_iff]
  intro c hc
  rw [htr c hc]
  exact Bool.noConfusion

/-- Witness for C1: a store that already holds a tampered `tenant-a-config`; the
spec lists tenant `a` once. -/
theorem Reconcile_idempotent_witness :
    (run noFaults exScheme exReq (run noFaults exScheme exReq
      ⟨[exParent [⟨"a", "http://a"⟩]], [exTamperedChild]⟩).world.store).err = none ∧
    (run noFaults exScheme exReq (run noFaults exScheme exReq
      ⟨[exParent [⟨"a", "http://a"⟩]], [exTamperedChild]⟩).world.store).world.trace.filter
      Call.isWrite = [] ∧
    (run noFaults exScheme exReq (run noFaults exScheme exReq
      ⟨[exParent [⟨"a", "http://a"⟩]], [exTamperedChild]⟩).world.store).world.store =
      (run noFaults exScheme exReq
        ⟨[exParent [⟨"a", "http://a"⟩]], [exTamperedChild]⟩).world.store :=
  Reconcile_idempotent exScheme exReq ⟨[exParent [⟨"a", "http://a"⟩]], [exTamperedChild]⟩
    (exParent [⟨"a", "http://a"⟩]) (by decide) (by decide) (by decide)

/-- C4 as stated fails: `tenant-a-config` was stored without owner reference
before the first pass, which succeeds and leaves it without one; after tenant `a`
is removed from the spec, the next pass succeeds, issues no write, and the child
is still stored. -/
theorem selective_deletion_counterexample :
    (run noFaults exScheme exReq exStoreUnowned).err = none ∧
    (run noFaults exScheme exReq
      ((run noFaults exScheme exReq exStoreUnowned).world.store.setTenants exReq.NamespacedName
        ((exParent [⟨"a", "http://a"⟩]).Spec.Tenants.filter
          (fun t => decide (t.TenantID ≠ "a"))))).err = none ∧
    (run noFaults exScheme exReq
      ((run noFaults exScheme exReq exStoreUnowned).world.store.setTenants exReq.NamespacedName
        ((exParent [⟨"a", "http://a"⟩]).Spec.Tenants.filter
          (fun t => decide (t.TenantID ≠ "a"))))).world.trace.filter Call.isWrite = [] ∧
    (run noFaults exScheme exReq
      ((run noFaults exScheme exReq exStoreUnowned).world.store.setTenants exReq.NamespacedName
        ((exParent [⟨"a", "http://a"⟩]).Spec.Tenants.filter
          (fun t => decide (t.TenantID ≠ "a"))))).world.store.lookup ⟨"default", cmName "a"⟩ =
      some ⟨"tenant-a-config", "default", [], desiredData ⟨"a", "http://a"⟩⟩ := by
  decide

/-- C4, amended (selective deletion): let the request's namespace be non-empty
and let `st1` result from a successful pass, without faults, over a store with
unique keys, for a parent whose tenant sequence `S` has no identifier with two
different URLs.  Let `id` be a tenant identifier
of `S` whose child `tenant-<id>-config` carries the parent's UID in `st1` and is
the only child of the namespace carrying the parent's UID whose name strips to
`id`.  Then the pass for `S` with all entries for `id` removed succeeds, its only
write is the delete of that child, and the resulting store is `st1` (with the
edited spec) without that child: every other child is present and unchanged. -/
theorem Reconcile_selective_deletion (scheme : Scheme) (req : Request) (st : Store)
    (parent : TenantInfo) (id : String)
    (hnsne : req.Namespace ≠ "")
    (hwf : st.WF)
    (hparent : st.lookupTenantInfo req.NamespacedName = some parent)
    (hagree : ∀ t ∈ parent.Spec.Tenants, ∀ t' ∈ parent.Spec.Tenants,
      t.TenantID = t'.TenantID → t.WebserviceURL = t'.WebserviceURL)
    (hok : (run noFaults scheme req st).err = none)
    (hid : ∃ t ∈ parent.Spec.Tenants, t.TenantID = id)
    (hown : ∀ c, (run noFaults scheme req st).world.store.lookup
      ⟨req.Namespace, cmName id⟩ = some c → hasOwner parent.UID c)
    (honly : ∀ c ∈ (run noFaults scheme req st).world.store.configMaps,
      c.Namespace = req.Namespace → hasOwner parent.UID c → tenantIDOf c.Name = id →
        c.Name = cmName id) :
    ∃ child,
      (run noFaults scheme req st).world.store.lookup ⟨req.Namespace, cmName id⟩ =
        some child ∧
      (run noFaults scheme req
        ((run noFaults scheme req st).world.store.setTenants req.NamespacedName
          (parent.Spec.Tenants.filter (fun t => decide (t.TenantID ≠ id))))).err = none ∧
      (run noFaults scheme req
        ((run noFaults scheme req st).world.store.setTenants req.NamespacedName
          (parent.Spec.Tenants.filter (fun t => decide (t.TenantID ≠ id))))).world.trace.filter
          Call.isWrite = [.delete child none] ∧
      (run noFaults scheme req
        ((run noFaults scheme req st).world.store.setTenants req.NamespacedName
          (parent.Spec.Tenants.filter (fun t => decide (t.TenantID ≠ id))))).world.store =
        ((run noFaults scheme req st).world.store.setTenants req.NamespacedName
          (parent.Spec.Tenants.filter (fun t => decide (t.TenantID ≠ id)))).remove
            ⟨req.Namespace, cmName id⟩ ∧
      (∀ c ∈ (run noFaults scheme req st).world.store.configMaps, c ≠ child →
        c ∈ (run noFaults scheme req
          ((run noFaults scheme req st).world.store.setTenants req.NamespacedName
            (parent.Spec.Tenants.filter
              (fun t => decide (t.TenantID ≠ id))))).world.store.configMaps) := by
  have hget : (GetTenantInfo noFaults req.NamespacedName ⟨st, []⟩).1 = .ok parent :=
    GetTenantInfo_noFaults hparent
  obtain ⟨st1, hst1⟩ : ∃ st1, st1 = (run noFaults scheme req st).world.store := ⟨_, rfl⟩
  rw [← hst1] at hown honly ⊢
  obtain ⟨S', hS'⟩ : ∃ S', S' = parent.Spec.Tenants.filter (fun t => decide (t.TenantID ≠ id)) :=
    ⟨_, rfl⟩
  rw [← hS']
  have hwf1 : st1.WF := by rw [hst1]; exact run_ok_wf hget hok hwf
  have hparent1 : st1.lookupTenantInfo req.NamespacedName = some parent := by
    unfold Store.lookupTenantInfo
    rw [hst1, run_ok_tenantInfos hget hok]
    exact hparent
  obtain ⟨_, hchild⟩ := run_ok_stable hget hok hagree
  rw [← hst1] at hchild
  obtain ⟨t0, ht0, hid0⟩ := hid
  have hagree' : UrlsAgree parent.Spec.Tenants := hagree
  obtain ⟨gvk, hgvk, hl⟩ := run_ok_child hget hok (hagree'.lastEntry ht0)
  rw [hid0, ← hst1] at hl
  obtain ⟨child, hchildeq⟩ : ∃ child, child =
      childAfter parent gvk req t0 (st.lookup ⟨req.Namespace, cmName id⟩) := ⟨_, rfl⟩
  rw [← hchildeq] at hl
  have hck := lookup_eq_some hl
  have hsch : scheme = ⟨some gvk⟩ := by
    cases scheme
    simp only at hgvk
    rw [hgvk]
  -- the edited parent and the store that holds it
  have hparent' : (st1.setTenants req.NamespacedName S').lookupTenantInfo req.NamespacedName =
      some { parent with Spec := ⟨S'⟩ } := by
    rw [lookupTenantInfo_setTenants, hparent1]
    rfl
  have hsub : ∀ t ∈ S', t ∈ parent.Spec.Tenants ∧ t.TenantID ≠ id := by
    intro t ht
    rw [hS', List.mem_filter] at ht
    exact ⟨ht.1, by simpa using ht.2⟩
  have href' : ∀ t ∈ ({ parent with Spec := ⟨S'⟩ } : TenantInfo).Spec.Tenants,
      ∃ cm, SetControllerReference { parent with Spec := ⟨S'⟩ } (newConfigMap req t) scheme =
        .ok cm := by
    intro t _
    rw [hsch]
    exact ⟨_, SetControllerReference_new _ req t gvk (GetTenantInfo_ok hget).2.1⟩
  have hchild' : ∀ t ∈ ({ parent with Spec := ⟨S'⟩ } : TenantInfo).Spec.Tenants,
      ∃ c, (st1.setTenants req.NamespacedName S').lookup (childKey req t) = some c ∧
        c.Data = desiredData t := fun t ht => hchild t (hsub t ht).1
  obtain ⟨ids, tr, hids, htr, herr, hworld⟩ := run_stable hparent' href' hchild'
  -- the deletion loop meets exactly one orphan
  have hlist : ∀ cm, cm ∈ filterByOwner parent.UID
      (st1.configMaps.filter (InNamespace req.Namespace)) ↔
      cm ∈ st1.configMaps ∧ cm.Namespace = req.Namespace ∧ hasOwner parent.UID cm := by
    intro cm
    rw [mem_filterByOwner, List.mem_filter, InNamespace_nonempty hnsne, and_assoc]
  have hidnot : id ∉ ids := by
    rw [hids]
    rintro ⟨t, ht, htid⟩
    exact (hsub t ht).2 htid
  have horph : isOrphan ids child := by
    unfold isOrphan
    have hname : child.Name = cmName id := congrArg NamespacedName.Name hck.2
    rw [hname, tenantIDOf_cmName]
    exact hidnot
  have hsingle := deleteLoop_single ids child
    (filterByOwner parent.UID
      (st1.configMaps.filter (InNamespace req.Namespace)))
    ⟨st1.setTenants req.NamespacedName S', tr⟩
    ((hlist child).2 ⟨hck.1, congrArg NamespacedName.Namespace hck.2, hown child hl⟩)
    (by
      unfold filterByOwner
      exact ((List.Nodup.of_map _ hwf1).filter _).filter _)
    horph
    (by
      intro cm hcm hocm
      obtain ⟨hmem, hns, hownc⟩ := (hlist cm).1 hcm
      obtain ⟨t, ht, htid⟩ := run_ok_no_orphan hget hok (by rw [← hst1]; exact hmem) hns hownc
      have hcid : tenantIDOf cm.Name = id := by
        by_contra hne
        apply hocm
        rw [hids]
        refine ⟨t, ?_, htid⟩
        rw [hS', List.mem_filter]
        exact ⟨ht, by simpa [htid] using hne⟩
      have hname := honly cm hmem hns hownc hcid
      apply hwf1.eq_of_key hmem hck.1
      rw [hck.2]
      unfold ConfigMap.key
      rw [hns, hname])
    ⟨child, by rw [hck.2]; exact hl⟩
  have hsingle' : deleteLoop noFaults ids
      (filterByOwner ({ parent with Spec := ⟨S'⟩ } : TenantInfo).UID
        ((st1.setTenants req.NamespacedName S').configMaps.filter
          (InNamespace req.Namespace)))
      ⟨st1.setTenants req.NamespacedName S', tr⟩ = _ := hsingle
  rw [hsingle'] at herr hworld
  refine ⟨child, hl, herr, ?_, ?_, ?_⟩
  · rw [hworld]
    simp only [List.filter_append]
    have : tr.filter Call.isWrite = [] := by
      rw [List.filter_eq_nil_iff]
      intro c hc
      rw [htr c hc]
      exact Bool.noConfusion
    rw [this]
    rfl
  · rw [hworld, hck.2]
  · intro c hc hne
    rw [hworld]
    apply mem_remove.2
    refine ⟨hc, fun hk => hne (hwf1.eq_of_key hc hck.1 hk)⟩

/-- Witness for C4: the first pass creates `tenant-a-config` and
`tenant-b-config`; tenant `a` is then removed from the spec. -/
theorem Reconcile_selective_deletion_witness :
    ∃ child,
      (run noFaults exScheme exReq exStoreTwo).world.store.lookup
        ⟨exReq.Namespace, cmName "a"⟩ = some child ∧
      (run noFaults exScheme exReq
        ((run noFaults exScheme exReq exStoreTwo).world.store.setTenants exReq.NamespacedName
          ((exParent [⟨"a", "http://a"⟩, ⟨"b", "http://b"⟩]).Spec.Tenants.filter
            (fun t => decide (t.TenantID ≠ "a"))))).err = none ∧
      (run noFaults exScheme exReq
        ((run noFaults exScheme exReq exStoreTwo).world.store.setTenants exReq.NamespacedName
          ((exParent [⟨"a", "http://a"⟩, ⟨"b", "http://b"⟩]).Spec.Tenants.filter
            (fun t => decide (t.TenantID ≠ "a"))))).world.trace.filter
          Call.isWrite = [.delete child none] ∧
      (run noFaults exScheme exReq
        ((run noFaults exScheme exReq exStoreTwo).world.store.setTenants exReq.NamespacedName
          ((exParent [⟨"a", "http://a"⟩, ⟨"b", "http://b"⟩]).Spec.Tenants.filter
            (fun t => decide (t.TenantID ≠ "a"))))).world.store =
        ((run noFaults exScheme exReq exStoreTwo).world.store.setTenants exReq.NamespacedName
          ((exParent [⟨"a", "http://a"⟩, ⟨"b", "http://b"⟩]).Spec.Tenants.filter
            (fun t => decide (t.TenantID ≠ "a")))).remove
            ⟨exReq.Namespace, cmName "a"⟩ ∧
      (∀ c ∈ (run noFaults exScheme exReq exStoreTwo).world.store.configMaps, c ≠ child →
        c ∈ (run noFaults exScheme exReq
          ((run noFaults exScheme exReq exStoreTwo).world.store.setTenants exReq.NamespacedName
            ((exParent [⟨"a", "http://a"⟩, ⟨"b", "http://b"⟩]).Spec.Tenants.filter
              (fun t => decide (t.TenantID ≠ "a"))))).world.store.configMaps) :=
  Reconcile_selective_deletion exScheme exReq exStoreTwo
    (exParent [⟨"a", "http://a"⟩, ⟨"b", "http://b"⟩]) "a"
    (by decide) (by decide) (by decide) (by decide) (by decide)
    ⟨⟨"a", "http://a"⟩, by decide, rfl⟩
    (by
      intro c hc
      have hl : (run noFaults exScheme exReq exStoreTwo).world.store.lookup
          ⟨exReq.Namespace, cmName "a"⟩ =
          some (ownedConfigMap (exParent [⟨"a", "http://a"⟩, ⟨"b", "http://b"⟩])
            ⟨"multitenancy-management.example.com", "v1", "TenantInfo"⟩ exReq
            ⟨"a", "http://a"⟩) := by decide
      rw [hl] at hc
      injection hc with hc
      subst hc
      decide)
    (by decide)

/-- C11 (ownership index extractor): the index that a successful
`SetupWithManager` registers is for the child kind, and its extractor returns the
one-element list holding the UID of the child's first owner reference when the
child has an owner reference, and no key when it has none. -/
theorem SetupWithManager_extractor (mgr mgr' : Manager)
    (h : SetupWithManager mgr = (none, mgr')) :
    ∃ idx, mgr'.indexes = mgr.indexes ++ [idx] ∧ idx.kind = "ConfigMap" ∧
      ∀ cm : ConfigMap,
        (cm.OwnerReferences = [] → idx.extractValue cm = []) ∧
        (∀ ref rest, cm.OwnerReferences = ref :: rest → idx.extractValue cm = [ref.UID]) := by
  refine ⟨_, SetupWithManager_ok h, rfl, fun cm => ⟨?_, ?_⟩⟩
  · intro hnil
    simp [ownerUIDExtractor, hnil]
  · intro ref rest hcons
    simp [ownerUIDExtractor, hcons]

/-- Witness for C11: a manager without indexes and controllers. -/
theorem SetupWithManager_extractor_witness :
    ∃ idx, (SetupWithManager ⟨[], []⟩).2.indexes = ([] : List FieldIndex) ++ [idx] ∧
      idx.kind = "ConfigMap" ∧
      ∀ cm : ConfigMap,
        (cm.OwnerReferences = [] → idx.extractValue cm = []) ∧
        (∀ ref rest, cm.OwnerReferences = ref :: rest → idx.extractValue cm = [ref.UID]) :=
  SetupWithManager_extractor ⟨[], []⟩ (SetupWithManager ⟨[], []⟩).2 rfl

/-- C12 (code defect, evaluated at a manager with no index registered):
`SetupWithManager` succeeds and leaves exactly one index registered, under the
key `"metadata.ownerReferences.uid"`; no index is registered under the key
`"ownerReferences.uid"`, the key that the comment above the registration names. -/
theorem SetupWithManager_index_key_mismatch :
    (SetupWithManager ⟨[], []⟩).1 = none ∧
    (SetupWithManager ⟨[], []⟩).2.indexes.map (fun idx => (idx.kind, idx.field)) =
      [("ConfigMap", "metadata.ownerReferences.uid")] ∧
    ¬ ∃ idx ∈ (SetupWithManager ⟨[], []⟩).2.indexes, idx.field = "ownerReferences.uid" := by
  decide

/-- C14 (create path): in the iteration for a tenant entry `(id, url)`, when the
owner reference could be attached and the child fetch returns a not-found error,
the next call is a create whose object has the name `"tenant-" ++ id ++ "-config"`,
the request's namespace, the data `{tenantID: id, webserviceURL: url}` and exactly
one owner reference, with the parent's UID (so the reference is attached before
the call).  Moreover every object that a pass passes to create, under any fault
schedule, has this form for some entry of the spec. -/
theorem Reconcile_create_path (F : Faults) (scheme : Scheme) (req : Request)
    (st : Store) (parent : TenantInfo)
    (hget : (GetTenantInfo F req.NamespacedName ⟨st, []⟩).1 = .ok parent) :
    (∀ (tenant : Tenant) (w : World) (cm : ConfigMap) (e : Err),
      SetControllerReference parent (newConfigMap req tenant) scheme = .ok cm →
      (GetConfigMap F ⟨req.Namespace, cmName tenant.TenantID⟩ w).1 = .error e →
      IsNotFound e = true →
      ∃ r ref, ref.UID = parent.UID ∧
        (reconcileTenant F scheme parent req tenant w).1 = r ∧
        (reconcileTenant F scheme parent req tenant w).2.trace =
          w.trace ++ [.getConfigMap ⟨req.Namespace, cmName tenant.TenantID⟩ (.error e),
            .create
              { Name := "tenant-" ++ tenant.TenantID ++ "-config",
                Namespace := req.Namespace,
                OwnerReferences := [ref],
                Data := Finmap.insert "tenantID" tenant.TenantID
                  (Finmap.singleton "webserviceURL" tenant.WebserviceURL) } r]) ∧
    (∀ obj r, Call.create obj r ∈ (run F scheme req st).world.trace →
      ∃ t ∈ parent.Spec.Tenants, ∃ ref, ref.UID = parent.UID ∧
        obj = { Name := "tenant-" ++ t.TenantID ++ "-config",
                Namespace := req.Namespace,
                OwnerReferences := [ref],
                Data := Finmap.insert "tenantID" t.TenantID
                  (Finmap.singleton "webserviceURL" t.WebserviceURL) }) := by
  constructor
  · intro tenant w cm e href hgetc hnf
    obtain ⟨r, gvk, _, h1, h2⟩ := reconcileTenant_not_found href hgetc hnf
    exact ⟨r, controllerRef parent gvk, rfl, h1, h2⟩
  · intro obj r hobj
    rcases run_calls hget _ hobj with h | h | h | h
    · exact Call.noConfusion h
    · rcases h with ⟨_, _, _, h⟩ | ⟨t, ht, gvk, r', _, h⟩ | ⟨_, _, _, _, _, _, h⟩
      · exact Call.noConfusion h
      · injection h with h1 _
        exact ⟨t, ht, controllerRef parent gvk, rfl, h1⟩
      · exact Call.noConfusion h
    · obtain ⟨_, h⟩ := h
      exact Call.noConfusion h
    · obtain ⟨_, _, _, _, _, h⟩ := h
      exact Call.noConfusion h

/-- Witness for C14: a store without children and the spec `[(a, http://a)]`; the
pass creates the child of tenant `a`. -/
theorem Reconcile_create_path_witness :
    ∃ t ∈ (exParent [⟨"a", "http://a"⟩]).Spec.Tenants, ∃ ref,
      ref.UID = (exParent [⟨"a", "http://a"⟩]).UID ∧
      ownedConfigMap (exParent [⟨"a", "http://a"⟩])
          ⟨"multitenancy-management.example.com", "v1", "TenantInfo"⟩ exReq ⟨"a", "http://a"⟩ =
        { Name := "tenant-" ++ t.TenantID ++ "-config",
          Namespace := exReq.Namespace,
          OwnerReferences := [ref],
          Data := Finmap.insert "tenantID" t.TenantID
            (Finmap.singleton "webserviceURL" t.WebserviceURL) } :=
  (Reconcile_create_path noFaults exScheme exReq ⟨[exParent [⟨"a", "http://a"⟩]], []⟩
    (exParent [⟨"a", "http://a"⟩]) (by decide)).2
    (ownedConfigMap (exParent [⟨"a", "http://a"⟩])
      ⟨"multitenancy-management.example.com", "v1", "TenantInfo"⟩ exReq ⟨"a", "http://a"⟩)
    none (by decide)

/-- C15 (reference-construction failure): if attaching the owner reference fails
with error `e` for an entry of the spec, then `Reconcile` returns `e`, the parent
fetch is the only call of the pass (no store call for that entry or a later one,
no list, no delete) and the store is unchanged, whatever the store holds.  (The
outcome of attaching the reference does not depend on the entry, so the pass
stops in its first iteration.) -/
theorem Reconcile_reference_failure (F : Faults) (scheme : Scheme) (req : Request)
    (st : Store) (parent : TenantInfo) (t : Tenant) (e : Err)
    (hget : (GetTenantInfo F req.NamespacedName ⟨st, []⟩).1 = .ok parent)
    (ht : t ∈ parent.Spec.Tenants)
    (href : SetControllerReference parent (newConfigMap req t) scheme = .error e) :
    (run F scheme req st).err = some e ∧
    (run F scheme req st).world.trace = [.getTenantInfo req.NamespacedName (.ok parent)] ∧
    (run F scheme req st).world.store = st := by
  obtain ⟨r, ids, w2, hL, hcases⟩ := run_phases scheme hget
  cases hts : parent.Spec.Tenants with
  | nil => rw [hts] at ht; simp at ht
  | cons t0 rest =>
    rw [hts] at hL
    unfold tenantLoop at hL
    simp only [reconcileTenant_ref_error (SetControllerReference_new_error href t0)] at hL
    injection hL with hr hL
    injection hL with _ hw2
    subst hr
    subst hw2
    rcases hcases with ⟨e', hr, herr, hworld⟩ | ⟨hr, _⟩ | ⟨hr, _⟩
    · injection hr with hr
      subst hr
      exact ⟨herr, by rw [hworld], by rw [hworld]⟩
    · exact Option.noConfusion hr
    · exact Option.noConfusion hr

/-- Witness for C15: the scheme does not know the parent kind. -/
theorem Reconcile_reference_failure_witness :
    (run noFaults ⟨none⟩ exReq exStoreUnowned).err =
      some (.other "no kind is registered for the type v1.TenantInfo") ∧
    (run noFaults ⟨none⟩ exReq exStoreUnowned).world.trace =
      [.getTenantInfo exReq.NamespacedName (.ok (exParent [⟨"a", "http://a"⟩]))] ∧
    (run noFaults ⟨none⟩ exReq exStoreUnowned).world.store = exStoreUnowned :=
  Reconcile_reference_failure noFaults ⟨none⟩ exReq exStoreUnowned
    (exParent [⟨"a", "http://a"⟩]) ⟨"a", "http://a"⟩
    (.other "no kind is registered for the type v1.TenantInfo")
    (by decide) (by decide) (by decide)

/-- C17 (name round trip): for every string `id`, stripping the prefix `"tenant-"`
and then the suffix `"-config"` from `"tenant-" ++ id ++ "-config"` gives `id`;
hence the name derivation is injective, and no object that a pass passes to
`Delete`, under any fault schedule, has the derived name of a tenant identifier
of the spec. -/
theorem name_round_trip (F : Faults) (scheme : Scheme) (req : Request)
    (st : Store) (parent : TenantInfo)
    (hget : (GetTenantInfo F req.NamespacedName ⟨st, []⟩).1 = .ok parent) :
    (∀ id : String,
      TrimSuffix (TrimPrefix ("tenant-" ++ id ++ "-config") "tenant-") "-config" = id) ∧
    (∀ a b : String, "tenant-" ++ a ++ "-config" = "tenant-" ++ b ++ "-config" → a = b) ∧
    (∀ obj ∈ deletedObjs (run F scheme req st).world.trace,
      ∀ t ∈ parent.Spec.Tenants, obj.Name ≠ "tenant-" ++ t.TenantID ++ "-config") := by
  refine ⟨tenantIDOf_cmName, fun a b h => cmName_injective h, ?_⟩
  intro obj hobj t ht hname
  have h := (run_deleted hget hobj).2.2 t ht
  apply h
  have : obj.Name = cmName t.TenantID := hname
  rw [this, tenantIDOf_cmName]

/-- Witness for C17: tenant `a` was removed from the spec, tenant `b` is kept; the
store holds the children of both. -/
theorem name_round_trip_witness :
    (∀ id : String,
      TrimSuffix (TrimPrefix ("tenant-" ++ id ++ "-config") "tenant-") "-config" = id) ∧
    (∀ a b : String, "tenant-" ++ a ++ "-config" = "tenant-" ++ b ++ "-config" → a = b) ∧
    (∀ obj ∈ deletedObjs (run noFaults exScheme exReq
        ((run noFaults exScheme exReq exStoreTwo).world.store.setTenants exReq.NamespacedName
          [⟨"b", "http://b"⟩])).world.trace,
      ∀ t ∈ (exParent [⟨"b", "http://b"⟩]).Spec.Tenants,
        obj.Name ≠ "tenant-" ++ t.TenantID ++ "-config") :=
  name_round_trip noFaults exScheme exReq
    ((run noFaults exScheme exReq exStoreTwo).world.store.setTenants exReq.NamespacedName
      [⟨"b", "http://b"⟩])
    (exParent [⟨"b", "http://b"⟩]) (by decide)

/-- C18 as stated fails: the request has the empty namespace, so the list call
returns the children of every namespace; the child `default/tenant-z-config`
lies outside the request's namespace and carries the parent's UID, the spec is
empty, and the pass, which succeeds, passes the child to `Delete` and removes it
from the store. -/
theorem write_frame_counterexample :
    exStoreAll.WF ∧
    exStoreAll.lookupTenantInfo exReqAll.NamespacedName = some exParentAll ∧
    exChildElsewhere.Namespace ≠ exReqAll.Namespace ∧
    exChildElsewhere ∈ exStoreAll.configMaps ∧
    (run noFaults exScheme exReqAll exStoreAll).err = none ∧
    listedItems (run noFaults exScheme exReqAll exStoreAll).world.trace =
      [[exChildElsewhere]] ∧
    deletedObjs (run noFaults exScheme exReqAll exStoreAll).world.trace =
      [exChildElsewhere] ∧
    exChildElsewhere ∉ (run noFaults exScheme exReqAll exStoreAll).world.store.configMaps := by
  decide

/-- C18, amended (write frame): for every parent and every initial store with
unique keys, under every fault schedule and whether `Reconcile` succeeds or
aborts: the children outside the request's namespace are exactly those of the
initial store, as far as the request's namespace is not empty or the child has
no owner reference with the parent's UID; every child of the
namespace that has no owner reference with the parent's UID and whose name is not
`"tenant-" ++ id ++ "-config"` for a tenant identifier `id` of the spec is still
stored, unchanged; every object passed to `Delete` carries the parent's UID; and
every child without the parent's UID still has a child stored under its namespace
and name, with the same owner references. -/
theorem Reconcile_write_frame (F : Faults) (scheme : Scheme) (req : Request) (st : Store)
    (parent : TenantInfo) (hwf : st.WF)
    (hparent : st.lookupTenantInfo req.NamespacedName = some parent) :
    (∀ c : ConfigMap, c.Namespace ≠ req.Namespace →
      (req.Namespace ≠ "" ∨ ¬ hasOwner parent.UID c) →
      (c ∈ (run F scheme req st).world.store.configMaps ↔ c ∈ st.configMaps)) ∧
    (∀ c ∈ st.configMaps, c.Namespace = req.Namespace → ¬ hasOwner parent.UID c →
      (∀ t ∈ parent.Spec.Tenants, c.Name ≠ "tenant-" ++ t.TenantID ++ "-config") →
      c ∈ (run F scheme req st).world.store.configMaps) ∧
    (∀ obj ∈ deletedObjs (run F scheme req st).world.trace, hasOwner parent.UID obj) ∧
    (∀ c ∈ st.configMaps, ¬ hasOwner parent.UID c →
      ∃ c' ∈ (run F scheme req st).world.store.configMaps,
        c'.Namespace = c.Namespace ∧ c'.Name = c.Name ∧
        c'.OwnerReferences = c.OwnerReferences) := by
  cases hget : (GetTenantInfo F req.NamespacedName ⟨st, []⟩).1 with
  | error e =>
    unfold run
    rw [Reconcile_of_missing hget]
    refine ⟨fun _ _ _ => Iff.rfl, fun c hc _ _ _ => hc, ?_,
      fun c hc _ => ⟨c, hc, rfl, rfl, rfl⟩⟩
    intro obj hobj
    simp [deletedObjs] at hobj
  | ok parent' =>
    have hp : parent' = parent := by
      have := (GetTenantInfo_ok hget).1
      rw [hparent] at this
      injection this with this
      exact this.symm
    subst hp
    obtain ⟨_, hout, hkeep, hrefs⟩ := run_frame scheme hget hwf
    refine ⟨hout, hkeep, fun obj hobj => (run_deleted hget hobj).2.1, ?_⟩
    intro c hc hown
    obtain ⟨c', hc', hk, hr⟩ := hrefs c hc hown
    exact ⟨c', hc', congrArg NamespacedName.Namespace hk, congrArg NamespacedName.Name hk, hr⟩

/-- Witness for C18: the store `exStoreFrame` and the request for the namespace
`default`; the pass deletes the owned orphan of the namespace, creates
`tenant-a-config`, and leaves the child of the other namespace alone. -/
theorem Reconcile_write_frame_witness :
    exReq.Namespace ≠ "" ∧
    ((∀ c : ConfigMap, c.Namespace ≠ exReq.Namespace →
      (exReq.Namespace ≠ "" ∨ ¬ hasOwner (exParent [⟨"a", "http://a"⟩]).UID c) →
      (c ∈ (run noFaults exScheme exReq exStoreFrame).world.store.configMaps ↔
        c ∈ exStoreFrame.configMaps)) ∧
    (∀ c ∈ exStoreFrame.configMaps, c.Namespace = exReq.Namespace →
      ¬ hasOwner (exParent [⟨"a", "http://a"⟩]).UID c →
      (∀ t ∈ (exParent [⟨"a", "http://a"⟩]).Spec.Tenants,
        c.Name ≠ "tenant-" ++ t.TenantID ++ "-config") →
      c ∈ (run noFaults exScheme exReq exStoreFrame).world.store.configMaps) ∧
    (∀ obj ∈ deletedObjs (run noFaults exScheme exReq exStoreFrame).world.trace,
      hasOwner (exParent [⟨"a", "http://a"⟩]).UID obj) ∧
    (∀ c ∈ exStoreFrame.configMaps, ¬ hasOwner (exParent [⟨"a", "http://a"⟩]).UID c →
      ∃ c' ∈ (run noFaults exScheme exReq exStoreFrame).world.store.configMaps,
        c'.Namespace = c.Namespace ∧ c'.Name = c.Name ∧
        c'.OwnerReferences = c.OwnerReferences)) :=
  ⟨by decide,
    Reconcile_write_frame noFaults exScheme exReq exStoreFrame (exParent [⟨"a", "http://a"⟩])
      (by decide) (by decide)⟩

/-- C16 (order independence): for every initial store and every two tenant
sequences that are permutations of each other with pairwise distinct identifiers,
successful passes over a store without faults leave the same child under every
key; for a store with unique keys the two final stores hold the same children, up
to the order in which the store lists them. -/
theorem Reconcile_order_independent (scheme : Scheme) (req : Request) (st : Store)
    (parent : TenantInfo) (S1 S2 : List Tenant)
    (hparent : st.lookupTenantInfo req.NamespacedName = some parent)
    (hperm : S1.Perm S2)
    (hnodup : (S1.map (fun t => t.TenantID)).Nodup)
    (hok1 : (run noFaults scheme req (st.setTenants req.NamespacedName S1)).err = none)
    (hok2 : (run noFaults scheme req (st.setTenants req.NamespacedName S2)).err = none) :
    (∀ k, (run noFaults scheme req (st.setTenants req.NamespacedName S1)).world.store.lookup k =
      (run noFaults scheme req (st.setTenants req.NamespacedName S2)).world.store.lookup k) ∧
    (st.WF →
      (run noFaults scheme req (st.setTenants req.NamespacedName S1)).world.store.configMaps.Perm
        (run noFaults scheme req
          (st.setTenants req.NamespacedName S2)).world.store.configMaps) := by
  have hp : ∀ S : List Tenant, (st.setTenants req.NamespacedName S).lookupTenantInfo
      req.NamespacedName = some { parent with Spec := ⟨S⟩ } := by
    intro S
    rw [lookupTenantInfo_setTenants, hparent]
    rfl
  have hget1 := GetTenantInfo_noFaults (w := ⟨st.setTenants req.NamespacedName S1, []⟩) (hp S1)
  have hget2 := GetTenantInfo_noFaults (w := ⟨st.setTenants req.NamespacedName S2, []⟩) (hp S2)
  have hnodup2 : (S2.map (fun t => t.TenantID)).Nodup := (hperm.map _).nodup_iff.1 hnodup
  have hlast : ∀ (S : List Tenant), (S.map (fun t => t.TenantID)).Nodup → ∀ t ∈ S,
      lastEntry S t.TenantID = some t := by
    intro S hS t ht
    obtain ⟨t', ht'⟩ := lastEntry_isSome ht
    have h1 := lastEntry_some ht'
    rw [ht', List.inj_on_of_nodup_map hS h1.1 ht h1.2]
  have hlookup : ∀ k,
      (run noFaults scheme req (st.setTenants req.NamespacedName S1)).world.store.lookup k =
      (run noFaults scheme req (st.setTenants req.NamespacedName S2)).world.store.lookup k := by
    intro k
    by_cases hk : ∃ t ∈ S1, k = childKey req t
    · obtain ⟨t, ht, rfl⟩ := hk
      obtain ⟨gvk1, hg1, hl1⟩ := run_ok_child hget1 hok1 (hlast S1 hnodup t ht)
      obtain ⟨gvk2, hg2, hl2⟩ := run_ok_child hget2 hok2
        (hlast S2 hnodup2 t (hperm.subset ht))
      have hg : gvk1 = gvk2 := by
        rw [hg1] at hg2
        injection hg2
      subst hg
      show (run noFaults scheme req (st.setTenants req.NamespacedName S1)).world.store.lookup
          ⟨req.Namespace, cmName t.TenantID⟩ =
        (run noFaults scheme req (st.setTenants req.NamespacedName S2)).world.store.lookup
          ⟨req.Namespace, cmName t.TenantID⟩
      rw [hl1, hl2]
      exact congrArg some (childAfter_owner_congr gvk1 req t _ rfl rfl)
    · have hk1 : ∀ t ∈ ({ parent with Spec := ⟨S1⟩ } : TenantInfo).Spec.Tenants,
          k ≠ childKey req t := fun t ht h => hk ⟨t, ht, h⟩
      have hk2 : ∀ t ∈ ({ parent with Spec := ⟨S2⟩ } : TenantInfo).Spec.Tenants,
          k ≠ childKey req t := fun t ht h => hk ⟨t, hperm.symm.subset ht, h⟩
      obtain ⟨ha1, hb1⟩ := run_ok_other_key hget1 hok1 hk1
      obtain ⟨ha2, hb2⟩ := run_ok_other_key hget2 hok2 hk2
      by_cases hex : ∃ c ∈ st.configMaps, c.key = k ∧ InNamespace req.Namespace c = true ∧
          hasOwner parent.UID c ∧ ∀ t ∈ S1, t.TenantID ≠ tenantIDOf c.Name
      · have hex2 : ∃ c ∈ st.configMaps, c.key = k ∧ InNamespace req.Namespace c = true ∧
            hasOwner parent.UID c ∧ ∀ t ∈ S2, t.TenantID ≠ tenantIDOf c.Name := by
          obtain ⟨c, hc, h1, h2, h3, h4⟩ := hex
          exact ⟨c, hc, h1, h2, h3, fun t ht => h4 t (hperm.symm.subset ht)⟩
        rw [ha1 hex, ha2 hex2]
      · have hex2 : ¬ ∃ c ∈ st.configMaps, c.key = k ∧ InNamespace req.Namespace c = true ∧
            hasOwner parent.UID c ∧ ∀ t ∈ S2, t.TenantID ≠ tenantIDOf c.Name := by
          rintro ⟨c, hc, h1, h2, h3, h4⟩
          exact hex ⟨c, hc, h1, h2, h3, fun t ht => h4 t (hperm.subset ht)⟩
        rw [hb1 hex, hb2 hex2]
        rfl
  refine ⟨hlookup, fun hwf => ?_⟩
  have hwf1 : (st.setTenants req.NamespacedName S1).WF := hwf
  have hwf2 : (st.setTenants req.NamespacedName S2).WF := hwf
  exact Store.WF.perm_of_lookup (run_ok_wf hget1 hok1 hwf1) (run_ok_wf hget2 hok2 hwf2) hlookup

/-- Witness for C16: the sequences `[a, b]` and `[b, a]` on a store that holds a
tampered `tenant-a-config`. -/
theorem Reconcile_order_independent_witness :
    (∀ k, (run noFaults exScheme exReq (exStoreTampered.setTenants exReq.NamespacedName
        [⟨"a", "http://a"⟩, ⟨"b", "http://b"⟩])).world.store.lookup k =
      (run noFaults exScheme exReq (exStoreTampered.setTenants exReq.NamespacedName
        [⟨"b", "http://b"⟩, ⟨"a", "http://a"⟩])).world.store.lookup k) ∧
    (exStoreTampered.WF →
      (run noFaults exScheme exReq (exStoreTampered.setTenants exReq.NamespacedName
        [⟨"a", "http://a"⟩, ⟨"b", "http://b"⟩])).world.store.configMaps.Perm
        (run noFaults exScheme exReq (exStoreTampered.setTenants exReq.NamespacedName
          [⟨"b", "http://b"⟩, ⟨"a", "http://a"⟩])).world.store.configMaps) :=
  Reconcile_order_independent exScheme exReq exStoreTampered
    (exParent [⟨"a", "http://old"⟩, ⟨"a", "http://a"⟩])
    [⟨"a", "http://a"⟩, ⟨"b", "http://b"⟩] [⟨"b", "http://b"⟩, ⟨"a", "http://a"⟩]
    (by decide) (List.Perm.swap _ _ _) (by decide) (by decide) (by decide)

/-- C13 (reachable-state invariant for a single parent): start from a store that
holds the parent and no child in its namespace, and let any finite, non-empty
sequence of passes run, each for its own tenant sequence and under its own fault
schedule, each fetching the parent and returning success.  Then every child of
the namespace is the child `"tenant-" ++ id ++ "-config"` of a tenant identifier
`id` of the last sequence, with exactly one owner reference, which carries the
parent's UID, and with the data of the last entry for `id` in that sequence; and
for every tenant identifier of the last sequence the namespace holds exactly one
child of that name. -/
theorem Reconcile_reachable_invariant (scheme : Scheme) (req : Request) (st0 stN : Store)
    (parent : TenantInfo) (ps : List (Faults × List Tenant)) (F : Faults) (S : List Tenant)
    (hparent : st0.lookupTenantInfo req.NamespacedName = some parent)
    (hempty : ∀ c ∈ st0.configMaps, c.Namespace ≠ req.Namespace)
    (hpasses : passes scheme req st0 (ps ++ [(F, S)]) = some stN) :
    (∀ c ∈ stN.configMaps, c.Namespace = req.Namespace →
      ∃ t ref, t ∈ S ∧
        (S.filter (fun t' => decide (t'.TenantID = t.TenantID))).getLast? = some t ∧
        ref.UID = parent.UID ∧
        c = { Name := "tenant-" ++ t.TenantID ++ "-config",
              Namespace := req.Namespace,
              OwnerReferences := [ref],
              Data := Finmap.insert "tenantID" t.TenantID
                (Finmap.singleton "webserviceURL" t.WebserviceURL) }) ∧
    (∀ id, (∃ t ∈ S, t.TenantID = id) →
      (stN.configMaps.filter (fun c =>
        decide (c.Namespace = req.Namespace ∧ c.Name = "tenant-" ++ id ++ "-config"))).length
        = 1) := by
  obtain ⟨stM, hM, hlastpass⟩ := passes_snoc ps st0 stN (F, S) hpasses
  have hRM : Reached parent.UID req stM :=
    Reached.of_passes ps st0 stM (Reached.start hparent hempty) hM
  obtain ⟨⟨parent', hget⟩, hok, rfl⟩ := pass_some hlastpass
  have hR1 := hRM.edit S
  have hp' : parent'.UID = parent.UID ∧ parent'.Spec.Tenants = S := by
    obtain ⟨⟨q, hq, hqu⟩, _, _⟩ := hRM
    have h1 := (GetTenantInfo_ok hget).1
    rw [lookupTenantInfo_setTenants, hq] at h1
    injection h1 with h1
    rw [← h1]
    exact ⟨hqu, rfl⟩
  obtain ⟨hpu, hpS⟩ := hp'
  rw [← hpu] at hR1
  have hRN := run_ok_reached hget hok hR1
  obtain ⟨_, hwfN, hshapeN⟩ := hRN
  have hchild : ∀ id, (∃ t ∈ S, t.TenantID = id) → ∃ t c,
      lastEntry S id = some t ∧
      c ∈ (run F scheme req (stM.setTenants req.NamespacedName S)).world.store.configMaps ∧
      c.key = ⟨req.Namespace, cmName id⟩ ∧ c.Data = desiredData t := by
    rintro id ⟨t0, ht0, rfl⟩
    obtain ⟨t, hlast⟩ := lastEntry_isSome ht0
    have hlast' : lastEntry parent'.Spec.Tenants t0.TenantID = some t := by
      rw [hpS]
      exact hlast
    obtain ⟨gvk, _, hl⟩ := run_ok_child hget hok hlast'
    have hk := lookup_eq_some hl
    refine ⟨t, _, hlast, hk.1, hk.2, ?_⟩
    cases (stM.setTenants req.NamespacedName S).lookup ⟨req.Namespace, cmName t0.TenantID⟩ <;>
      rfl
  constructor
  · intro c hc hns
    obtain ⟨⟨x, hx⟩, ref, href, hrefu⟩ := hshapeN c hc hns
    have hown : hasOwner parent'.UID c := ⟨ref, by rw [href]; simp, hrefu⟩
    obtain ⟨t0, ht0, hid0⟩ := run_ok_no_orphan hget hok hc hns hown
    rw [hx, tenantIDOf_cmName] at hid0
    rw [hpS] at ht0
    obtain ⟨t, c0, hlast, hc0, hk0, hd0⟩ := hchild x ⟨t0, ht0, hid0⟩
    have hck : c.key = c0.key := by
      rw [hk0]
      unfold ConfigMap.key
      rw [hns, hx]
    have hcc : c = c0 := hwfN.eq_of_key_in hc hc0 hns hck
    have htid := (lastEntry_some hlast).2
    refine ⟨t, ref, (lastEntry_some hlast).1, ?_, hrefu.trans hpu, ?_⟩
    · rw [htid]
      exact hlast
    · have hdata : c.Data = desiredData t := by rw [hcc]; exact hd0
      cases c
      simp only at hx hns href hdata
      subst hns
      subst href
      subst htid
      rw [hx, hdata]
      rfl
  · intro id hid
    obtain ⟨t, c0, _, hc0, hk0, _⟩ := hchild id hid
    have hns0 : c0.Namespace = req.Namespace := congrArg NamespacedName.Namespace hk0
    have hname0 : c0.Name = cmName id := congrArg NamespacedName.Name hk0
    apply length_eq_one_of_all_eq (a := c0)
    · have hnd := hwfN.nodup_filter
      have : (run F scheme req (stM.setTenants req.NamespacedName S)).world.store.configMaps.filter
          (fun c => decide (c.Namespace = req.Namespace ∧ c.Name = "tenant-" ++ id ++ "-config")) =
          ((run F scheme req (stM.setTenants req.NamespacedName S)).world.store.configMaps.filter
            (fun c => decide (c.Namespace = req.Namespace))).filter
            (fun c => decide (c.Name = "tenant-" ++ id ++ "-config")) := by
        rw [List.filter_filter]
        apply List.filter_congr
        intro c _
        rw [Bool.eq_iff_iff]
        simp [and_comm]
      rw [this]
      exact hnd.filter _
    · rw [List.mem_filter]
      exact ⟨hc0, by simpa using ⟨hns0, hname0⟩⟩
    · intro b hb
      rw [List.mem_filter] at hb
      have hb2 : b.Namespace = req.Namespace ∧ b.Name = "tenant-" ++ id ++ "-config" := by
        simpa using hb.2
      apply hwfN.eq_of_key_in hb.1 hc0 hb2.1
      rw [hk0]
      unfold ConfigMap.key
      rw [hb2.1, hb2.2]
      rfl

/-- Witness for C13: a pass for the tenants `a` and `b`, then a pass for tenant
`b` with a new URL, from a store whose only child lives in another namespace. -/
theorem Reconcile_reachable_invariant_witness :
    (∀ c ∈ exStoreEnd.configMaps, c.Namespace = exReq.Namespace →
      ∃ t ref, t ∈ [(⟨"b", "http://b2"⟩ : Tenant)] ∧
        ([(⟨"b", "http://b2"⟩ : Tenant)].filter
          (fun t' => decide (t'.TenantID = t.TenantID))).getLast? = some t ∧
        ref.UID = (exParent []).UID ∧
        c = { Name := "tenant-" ++ t.TenantID ++ "-config",
              Namespace := exReq.Namespace,
              OwnerReferences := [ref],
              Data := Finmap.insert "tenantID" t.TenantID
                (Finmap.singleton "webserviceURL" t.WebserviceURL) }) ∧
    (∀ id, (∃ t ∈ [(⟨"b", "http://b2"⟩ : Tenant)], t.TenantID = id) →
      (exStoreEnd.configMaps.filter (fun c =>
        decide (c.Namespace = exReq.Namespace ∧ c.Name = "tenant-" ++ id ++ "-config"))).length
        = 1) :=
  Reconcile_reachable_invariant exScheme exReq exStoreStart exStoreEnd (exParent [])
    [(noFaults, [⟨"a", "http://a"⟩, ⟨"b", "http://b"⟩])] noFaults [⟨"b", "http://b2"⟩]
    (by decide) (by decide) (by decide)

end TenantInfoController
